import Mathlib

/-!
# B+Tree over a buffer pool (`buzzdb_lab3.cpp`)

A shallow embedding of the paged file (`StorageManager`), the LRU policy
(`LruPolicy`), the buffer pool (`BufferManager`) and the B+Tree (`BTree`) of
`src/buzzdb_lab3.cpp`, followed by theorems about them.

Conventions of the embedding

* `KeyT = ValueT = uint64_t`; keys and values are `Nat`.  The code compares keys with
  the built-in `<`, `>=`, `==` and `!=` (never through `ComparatorT`) and does no
  arithmetic on keys or values.
* A C array is a `List`; slot `i` holds `rd d a i`, where the default `d` stands for
  the zero bytes of a page that was never written.  A write to slot `i` of an array
  declared with `cap` slots is `store cap a i v`: it fails with
  `Fault.outOfBounds` when `i ≥ cap`.  Reads are not checked: the tree reads a slot
  it has not written in one place only, the last comparison of
  `InnerNode::lower_bound`, whose outcome does not change the result.
* A page (`SlottedPage`, 4096 bytes) is seen through the node overlay the tree casts
  it to: the header fields `level`, `count`, `dirty` and the arrays `keys`,
  `values` (leaf view) and `children` (inner view).  The header fields `page_id`,
  `splits` and `parent` are only ever written with 0 and never read; they are left out.
* A `while (1)` loop takes a fuel argument; running out of it is `Fault.outOfFuel`.
* `exit(-1)` after a failed read is `Fault.ioError`.
* The iteration order of an `unordered_map` is unspecified: the loop of the destructor of
  `BufferManager` takes the order of its visits as an argument.
-/

namespace BuzzDB

/-! ## Constants -/

/-- `PAGE_SIZE`, the size of a page in bytes. -/
def PAGE_SIZE : Nat := 4096

/-- `MAX_PAGES`, the number of pages pre-allocated in the file. -/
def MAX_PAGES : Nat := 1000

/-- `INVALID_VALUE`, the largest `uint16_t`, used as the "no page" sentinel. -/
def INVALID_VALUE : Nat := 65535

/-- `MAX_PAGES_IN_MEMORY`, the capacity given to the replacement policy. -/
def MAX_PAGES_IN_MEMORY : Nat := 10

/-- `InnerNode::kCapacity` and `LeafNode::kCapacity` (both 42). -/
def kCapacity : Nat := 42

/-- The ways an operation can fail to return normally. -/
inductive Fault where
  | outOfFuel
  | outOfBounds
  | ioError
  deriving DecidableEq, Repr

/-! ## Arrays -/

/-- Read slot `i` of an array; a slot that was never written holds the default. -/
def rd {α : Type} (d : α) (a : List α) (i : Nat) : α := a.getD i d

/-- Write `v` to slot `i`, padding with the default when the list is shorter. -/
def wr {α : Type} (d : α) : List α → Nat → α → List α
  | [], 0, v => [v]
  | [], i + 1, v => d :: wr d [] i v
  | _ :: xs, 0, v => v :: xs
  | x :: xs, i + 1, v => x :: wr d xs i v

/-- Write `v` to slot `i` of an array declared with `cap` slots. -/
def store (cap : Nat) (a : List Nat) (i v : Nat) : Except Fault (List Nat) :=
  if i < cap then .ok (wr 0 a i v) else .error .outOfBounds

/-- Read slot `i` of an array declared with `cap` slots, for a value that is stored
elsewhere: past the array there is no slot to read. -/
def fetch (cap : Nat) (a : List Nat) (i : Nat) : Except Fault Nat :=
  if i < cap then .ok (rd 0 a i) else .error .outOfBounds

/-! ## Pages and nodes -/

/-- A page, seen through the node overlay (`Node`, `InnerNode`, `LeafNode`).
`keys` has `kCapacity` slots in a leaf and `kCapacity - 1` in an inner node;
`values` (leaf) and `children` (inner) have `kCapacity` slots. -/
structure SlottedPage where
  level : Nat
  count : Nat
  dirty : Bool
  keys : List Nat
  values : List Nat
  children : List Nat
  deriving DecidableEq, Repr

/-- A page of zero bytes, as the truncated file holds them. -/
def SlottedPage.zero : SlottedPage :=
  { level := 0, count := 0, dirty := false, keys := [], values := [], children := [] }

/-- A default-constructed `SlottedPage()`: its constructor marks every slot of the
slot array empty (`empty = true`, `offset = length = 0xFFFF`), which the node overlay
reads as `level = 1`, `count = 0xFFFF`.  It is the page `pageMap[id]` creates for an
absent id, whose bytes `load` overwrites, and the page `extend()` writes to the file. -/
def SlottedPage.fresh : SlottedPage :=
  { level := 1, count := 65535, dirty := false, keys := [], values := [], children := [] }

/-- `Node::is_leaf`. -/
def SlottedPage.is_leaf (n : SlottedPage) : Bool := n.level == 0

/-- `Node::is_full`. -/
def SlottedPage.is_full (n : SlottedPage) (capacity : Nat) : Bool := decide (capacity ≤ n.count)

/-- The assignment `*node = LeafNode()` (and `*node = InnerNode()`): the base
constructor `Node(0, 0)` resets the header; the arrays of the temporary are not
initialised, so the slots keep unspecified values (here: the old ones). -/
def SlottedPage.init (n : SlottedPage) : SlottedPage :=
  { n with level := 0, count := 0, dirty := false }

/-- The loop of `InnerNode::lower_bound`: `for (i = 0; i < count - 1; i++)`,
`steps` iterations left, `last = count - 1` returned when the loop ends. -/
def InnerNode.lower_bound_loop (keys : List Nat) (key last : Nat) : Nat → Nat → Nat
  | 0, _ => last
  | steps + 1, i =>
    if rd 0 keys i ≤ key ∧ key < rd 0 keys (i + 1) then i + 1
    else InnerNode.lower_bound_loop keys key last steps (i + 1)

/-- `InnerNode::lower_bound`.  The last iteration compares with `keys[count - 1]`,
a slot that holds no live separator; both outcomes of that comparison return
`count - 1`. -/
def InnerNode.lower_bound (n : SlottedPage) (key : Nat) : Nat × Bool :=
  if n.count = 0 then (0, false)
  else if key < rd 0 n.keys 0 then (0, false)
  else (InnerNode.lower_bound_loop n.keys key (n.count - 1) (n.count - 1) 0, false)

/-- The loop of `LeafNode::find_position`: `while (pos < count && keys[pos] < key)`. -/
def LeafNode.find_position_loop (keys : List Nat) (key count : Nat) : Nat → Nat → Nat
  | 0, pos => pos
  | steps + 1, pos =>
    if pos < count ∧ rd 0 keys pos < key then
      LeafNode.find_position_loop keys key count steps (pos + 1)
    else pos

/-- `LeafNode::find_position`: the loop runs at most `count` times. -/
def LeafNode.find_position (n : SlottedPage) (key : Nat) : Nat :=
  LeafNode.find_position_loop n.keys key n.count n.count 0

/-- The shifting loop of `LeafNode::insert`:
`for (i = count; i > position; i--) { keys[i] = keys[i-1]; values[i] = values[i-1]; }`. -/
def LeafNode.insert_shift (position : Nat) : Nat → SlottedPage → Except Fault SlottedPage
  | 0, n => .ok n
  | i + 1, n =>
    if position < i + 1 then do
      let keys ← store kCapacity n.keys (i + 1) (rd 0 n.keys i)
      let values ← store kCapacity n.values (i + 1) (rd 0 n.values i)
      LeafNode.insert_shift position i { n with keys := keys, values := values }
    else .ok n

/-- `LeafNode::insert`. -/
def LeafNode.insert (n : SlottedPage) (key value : Nat) : Except Fault SlottedPage :=
  let position := LeafNode.find_position n key
  if position < n.count ∧ rd 0 n.keys position = key then do
    let values ← store kCapacity n.values position value
    .ok { n with values := values, dirty := true }
  else do
    let n1 ← LeafNode.insert_shift position n.count n
    let keys ← store kCapacity n1.keys position key
    let values ← store kCapacity n1.values position value
    .ok { n1 with keys := keys, values := values, count := (n1.count + 1) % 65536, dirty := true }

/-- The shifting loop of `LeafNode::erase`:
`for (i = position; i < count - 1; i++) { keys[i] = keys[i+1]; values[i] = values[i+1]; }`. -/
def LeafNode.erase_shift : Nat → Nat → SlottedPage → Except Fault SlottedPage
  | 0, _, n => .ok n
  | steps + 1, i, n => do
    let keys ← store kCapacity n.keys i (rd 0 n.keys (i + 1))
    let values ← store kCapacity n.values i (rd 0 n.values (i + 1))
    LeafNode.erase_shift steps (i + 1) { n with keys := keys, values := values }

/-- `LeafNode::erase`. -/
def LeafNode.erase (n : SlottedPage) (key : Nat) : Except Fault SlottedPage :=
  let position := LeafNode.find_position n key
  if n.count ≤ position ∨ rd 0 n.keys position ≠ key then .ok n
  else do
    let n1 ← LeafNode.erase_shift (n.count - 1 - position) position n
    .ok { n1 with count := n1.count - 1, dirty := true }

/-- The copying loop of `LeafNode::split`:
`for (i = mid; i < count; i++) { leaf_node->keys[j] = keys[i]; ...; j++; }`;
returns the final `j` and the filled node. -/
def LeafNode.split_loop (src : SlottedPage) :
    Nat → Nat → Nat → SlottedPage → Except Fault (Nat × SlottedPage)
  | 0, _, j, dst => .ok (j, dst)
  | steps + 1, i, j, dst => do
    let keys ← store kCapacity dst.keys j (rd 0 src.keys i)
    let values ← store kCapacity dst.values j (rd 0 src.values i)
    LeafNode.split_loop src steps (i + 1) (j + 1) { dst with keys := keys, values := values }

/-- `LeafNode::split`: returns the separator, the node itself and `leaf_node`. -/
def LeafNode.split (n leaf_node : SlottedPage) :
    Except Fault (Nat × SlottedPage × SlottedPage) := do
  let mid := n.count / 2
  let (j, dst) ← LeafNode.split_loop n (n.count - mid) mid 0 leaf_node
  let dst := { dst with count := j % 65536 }
  .ok (rd 0 dst.keys 0, { n with count := mid }, dst)

/-- The copying loop of `InnerNode::split`:
`for (i = mid + 1; i < count; i++) { inner_node->keys[j] = keys[i];
inner_node->children[j] = children[i]; j++; }`; returns the final `j` and the filled
node. -/
def InnerNode.split_loop (src : SlottedPage) :
    Nat → Nat → Nat → SlottedPage → Except Fault (Nat × SlottedPage)
  | 0, _, j, dst => .ok (j, dst)
  | steps + 1, i, j, dst => do
    let key ← fetch (kCapacity - 1) src.keys i
    let keys ← store (kCapacity - 1) dst.keys j key
    let child ← fetch kCapacity src.children i
    let children ← store kCapacity dst.children j child
    InnerNode.split_loop src steps (i + 1) (j + 1) { dst with keys := keys, children := children }

/-- `InnerNode::split`: returns the separator, the node itself and `inner_node`.  The
new count `this->count - mid - 1` is computed in `uint32_t` and stored in a `uint16_t`.
The function reads `keys[mid .. count-1]` and `children[mid+1 .. count]`: slots of the
declared arrays (`KeyT keys[kCapacity - 1]`, `uint64_t children[kCapacity]`) when
`count ≤ kCapacity - 1`, and past them from `count = kCapacity` on. -/
def InnerNode.split (n inner_node : SlottedPage) :
    Except Fault (Nat × SlottedPage × SlottedPage) := do
  let mid := n.count / 2
  let separator ← fetch (kCapacity - 1) n.keys mid
  let (j, dst) ← InnerNode.split_loop n (n.count - (mid + 1)) (mid + 1) 0 inner_node
  let child ← fetch kCapacity n.children n.count
  let children ← store kCapacity dst.children j child
  let count := ((n.count + 4294967296 - mid - 1) % 4294967296) % 65536
  .ok (separator, { n with count := mid, dirty := true },
    { dst with children := children, count := count, level := n.level, dirty := true })

/-! ## StorageManager -/

/-- The paged file: `file` is the content of `buzzdb.dat` in whole pages, `num_pages`
the counter the class keeps beside it. -/
structure StorageManager where
  file : List SlottedPage
  num_pages : Nat
  deriving DecidableEq, Repr

/-- The constructor `StorageManager(truncate_mode)`; `old` is the content of the file
found on disk.  The file is emptied in truncate mode and then filled with zero pages
up to `MAX_PAGES`. -/
def StorageManager.new (truncate_mode : Bool) (old : List SlottedPage) : StorageManager :=
  let file := if truncate_mode then [] else old
  let num_pages := file.length
  if num_pages < MAX_PAGES then
    { file := file ++ List.replicate (MAX_PAGES - num_pages) SlottedPage.zero,
      num_pages := MAX_PAGES }
  else { file := file, num_pages := num_pages }

/-- `StorageManager::load`: reads page `page_id` (a `uint16_t`); a short read ends the
process with `exit(-1)`. -/
def StorageManager.load (sm : StorageManager) (page_id : Nat) : Except Fault SlottedPage :=
  match sm.file.get? page_id with
  | some page => .ok page
  | none => .error .ioError

/-- `StorageManager::flush`: writes the page at offset `page_id * PAGE_SIZE`. -/
def StorageManager.flush (sm : StorageManager) (page_id : Nat) (page : SlottedPage) :
    StorageManager :=
  { sm with file := wr SlottedPage.zero sm.file page_id page }

/-- `StorageManager::extend()`: appends one page, the bytes of a default-constructed
`SlottedPage`. -/
def StorageManager.extend (sm : StorageManager) : StorageManager :=
  { file := sm.file ++ [SlottedPage.fresh], num_pages := sm.num_pages + 1 }

/-- `StorageManager::extend(uint64_t till_page_id)`.  `write_size` is computed in
64-bit unsigned arithmetic; `std::max` with 0 changes nothing on unsigned values.  The
buffer `new char[write_size]` is taken to be allocated whatever its size. -/
def StorageManager.extend_till (sm : StorageManager) (till_page_id : Nat) : StorageManager :=
  let write_size :=
    ((till_page_id + 1 + (2 ^ 64 - sm.num_pages % 2 ^ 64)) % 2 ^ 64 * PAGE_SIZE) % 2 ^ 64
  if 0 < write_size then
    { file := sm.file ++ List.replicate (write_size / PAGE_SIZE) SlottedPage.zero,
      num_pages := (till_page_id + 1) % 2 ^ 64 }
  else sm

/-! ## LruPolicy -/

/-- `LruPolicy`: `lruList` holds the tracked ids, most recently used first.  The
class also keeps `map`, from each tracked id to its position in the list; every step
below updates both together, so the ids of `map` are the members of `lruList`. -/
structure LruPolicy where
  lruList : List Nat
  cacheSize : Nat
  deriving DecidableEq, Repr

/-- `LruPolicy::evict`: returns the victim (or `INVALID_VALUE`) and the new state. -/
def LruPolicy.evict (p : LruPolicy) : Nat × LruPolicy :=
  if p.lruList.length ≠ 0 then
    (p.lruList.getLastD INVALID_VALUE, { p with lruList := p.lruList.dropLast })
  else (INVALID_VALUE, p)

/-- `LruPolicy::touch`: returns `found` and the new state. -/
def LruPolicy.touch (p : LruPolicy) (page_id : Nat) : Bool × LruPolicy :=
  let found := decide (page_id ∈ p.lruList)
  let p1 := if found then { p with lruList := p.lruList.erase page_id } else p
  let p2 := if p1.lruList.length = p1.cacheSize then (p1.evict).2 else p1
  let p3 := if p2.lruList.length < p2.cacheSize then
      { p2 with lruList := page_id :: p2.lruList } else p2
  (found, p3)

/-- The constructor `LruPolicy(cacheSize)`: nothing is tracked. -/
def LruPolicy.new (cacheSize : Nat) : LruPolicy := { lruList := [], cacheSize := cacheSize }

/-! ## BufferManager -/

/-- `BufferManager`: the store, the resident pages (`pageMap`, an
`unordered_map<PageID, SlottedPage>` kept as an association list) and the policy. -/
structure BufferManager where
  storage_manager : StorageManager
  pageMap : List (Nat × SlottedPage)
  policy : LruPolicy
  deriving DecidableEq, Repr

/-- `pageMap[key] = page`: overwrite the entry of `key`, or add one. -/
def PageMap.assign : List (Nat × SlottedPage) → Nat → SlottedPage → List (Nat × SlottedPage)
  | [], key, page => [(key, page)]
  | (k, p) :: rest, key, page =>
    if k = key then (k, page) :: rest else (k, p) :: PageMap.assign rest key page

/-- `pageMap[key]` used as a value: the entry of `key`, default-constructed first when
there is none. -/
def PageMap.index (m : List (Nat × SlottedPage)) (key : Nat) :
    SlottedPage × List (Nat × SlottedPage) :=
  match m.lookup key with
  | some page => (page, m)
  | none => (SlottedPage.fresh, PageMap.assign m key SlottedPage.fresh)

/-- The constructor `BufferManager(truncate_mode)`; `old` is the file found on disk. -/
def BufferManager.new (truncate_mode : Bool) (old : List SlottedPage) : BufferManager :=
  { storage_manager := (StorageManager.new truncate_mode old).extend_till MAX_PAGES,
    pageMap := [],
    policy := { lruList := [], cacheSize := MAX_PAGES_IN_MEMORY } }

/-- `BufferManager::getNumPages`. -/
def BufferManager.getNumPages (bm : BufferManager) : Nat := bm.storage_manager.num_pages

/-- `BufferManager::extend`. -/
def BufferManager.extend (bm : BufferManager) : BufferManager :=
  { bm with storage_manager := bm.storage_manager.extend }

/-- The key a page id is filed under: `fix_page` takes an `int` and the map, the policy
and `load` take a `PageID = uint16_t`. -/
def pageKey (page_id : Nat) : Nat := page_id % 65536

/-- `BufferManager::fix_page`.  The reference it returns points at the entry of
`pageKey page_id` in `pageMap`; the page there is returned beside the new state. -/
def BufferManager.fix_page (bm : BufferManager) (page_id : Nat) :
    Except Fault (SlottedPage × BufferManager) :=
  match bm.pageMap.lookup (pageKey page_id) with
  | some page => .ok (page, { bm with policy := (bm.policy.touch (pageKey page_id)).2 })
  | none => do
    let bm1 :=
      if MAX_PAGES_IN_MEMORY ≤ bm.pageMap.length then
        let ev := bm.policy.evict
        if ev.1 ≠ INVALID_VALUE then
          let idx := PageMap.index bm.pageMap ev.1
          { storage_manager := bm.storage_manager.flush ev.1 idx.1,
            pageMap := idx.2, policy := ev.2 }
        else { bm with policy := ev.2 }
      else bm
    let page ← bm1.storage_manager.load (pageKey page_id)
    .ok (page, { bm1 with policy := (bm1.policy.touch (pageKey page_id)).2,
                          pageMap := PageMap.assign bm1.pageMap (pageKey page_id) page })

/-- A write through the pointer `fix_page` returned: the node of `page_id` is mutated
in place in the pool. -/
def BufferManager.write (bm : BufferManager) (page_id : Nat) (page : SlottedPage) :
    BufferManager :=
  { bm with pageMap := PageMap.assign bm.pageMap (pageKey page_id) page }

/-- `BufferManager::flushPage`: `storage_manager.flush(page_id, pageMap[page_id])`; the
`int` argument is converted to `PageID` for the map and for `flush`. -/
def BufferManager.flushPage (bm : BufferManager) (page_id : Nat) : BufferManager :=
  let idx := PageMap.index bm.pageMap (pageKey page_id)
  { bm with storage_manager := bm.storage_manager.flush (pageKey page_id) idx.1,
            pageMap := idx.2 }

/-- The loop of the destructor `~BufferManager`: `flushPage(pair.first)` for every entry
of `pageMap`; `order` lists the keys in the order the iteration visits them (the order
of an `unordered_map` is unspecified). -/
def BufferManager.destructor_loop : List Nat → BufferManager → BufferManager
  | [], bm => bm
  | page_id :: rest, bm => BufferManager.destructor_loop rest (bm.flushPage page_id)

/-! ## BTree -/

/-- `BTree`: the optional root page id, the buffer manager it works on, and the next
free page id. -/
structure BTree where
  root : Option Nat
  buffer_manager : BufferManager
  next_page_id : Nat
  deriving DecidableEq, Repr

/-- The loop of the constructor: `while (getNumPages() < MAX_PAGES) extend();`. -/
def BTree.new_loop : Nat → BufferManager → BufferManager
  | 0, bm => bm
  | steps + 1, bm =>
    if bm.getNumPages < MAX_PAGES then BTree.new_loop steps bm.extend else bm

/-- The constructor `BTree(buffer_manager)`. -/
def BTree.new (bm : BufferManager) : BTree :=
  { root := none, buffer_manager := BTree.new_loop (MAX_PAGES - bm.getNumPages) bm,
    next_page_id := 1 }

/-- The descent loop of `BTree::lookup`. -/
def BTree.lookup_loop (key : Nat) :
    Nat → BufferManager → Nat → Except Fault (Option Nat × BufferManager)
  | 0, _, _ => .error .outOfFuel
  | fuel + 1, bm, curr => do
    let (node, bm1) ← bm.fix_page curr
    if node.is_leaf then
      let position := LeafNode.find_position node key
      if position < node.count ∧ rd 0 node.keys position = key then
        .ok (some (rd 0 node.values position), bm1)
      else .ok (none, bm1)
    else
      let position := (InnerNode.lower_bound node key).1
      BTree.lookup_loop key fuel bm1 (rd 0 node.children position)

/-- `BTree::lookup`: the result and the tree afterwards (the pool has changed). -/
def BTree.lookup (fuel : Nat) (t : BTree) (key : Nat) : Except Fault (Option Nat × BTree) :=
  match t.root with
  | none => .ok (none, t)
  | some root => do
    let (r, bm) ← BTree.lookup_loop key fuel t.buffer_manager root
    .ok (r, { t with buffer_manager := bm })

/-- The descent loop of `BTree::erase`. -/
def BTree.erase_loop (key : Nat) : Nat → BufferManager → Nat → Except Fault BufferManager
  | 0, _, _ => .error .outOfFuel
  | fuel + 1, bm, curr => do
    let (node, bm1) ← bm.fix_page curr
    if node.is_leaf then do
      let leaf ← LeafNode.erase node key
      .ok (bm1.write curr leaf)
    else
      let position := (InnerNode.lower_bound node key).1
      BTree.erase_loop key fuel bm1 (rd 0 node.children position)

/-- `BTree::erase`. -/
def BTree.erase (fuel : Nat) (t : BTree) (key : Nat) : Except Fault BTree :=
  match t.root with
  | none => .ok t
  | some root => do
    let bm ← BTree.erase_loop key fuel t.buffer_manager root
    .ok { t with buffer_manager := bm }

/-- The search `while (child_idx < parent->count && parent->children[child_idx] != curr)`. -/
def BTree.child_idx_loop (parent : SlottedPage) (curr : Nat) : Nat → Nat → Nat
  | 0, child_idx => child_idx
  | steps + 1, child_idx =>
    if child_idx < parent.count ∧ rd 0 parent.children child_idx ≠ curr then
      BTree.child_idx_loop parent curr steps (child_idx + 1)
    else child_idx

/-- The shifting loop on the parent in `BTree::insert`:
`for (i = count; i > child_idx + 1; i--) { children[i] = children[i-1]; keys[i-1] = keys[i-2]; }`. -/
def BTree.parent_shift (child_idx : Nat) : Nat → SlottedPage → Except Fault SlottedPage
  | 0, parent => .ok parent
  | i + 1, parent =>
    if child_idx + 1 < i + 1 then do
      let children ← store kCapacity parent.children (i + 1) (rd 0 parent.children i)
      let keys ← store (kCapacity - 1) parent.keys i (rd 0 parent.keys (i - 1))
      BTree.parent_shift child_idx i { parent with children := children, keys := keys }
    else .ok parent

/-- The leaf split of `BTree::insert` (from `new_page_id = next_page_id++` to the insert
on one of the two sides): the new page is fixed and reset, the full leaf `leaf` of page
`curr` is split into it, and the pair goes to the side the separator dictates.  Returns
the separator and the pool. -/
def BTree.insert_split (bm : BufferManager) (curr new_page_id : Nat) (leaf : SlottedPage)
    (key value : Nat) : Except Fault (Nat × BufferManager) := do
  let (new_page, bm1) ← bm.fix_page new_page_id
  let new_leaf := new_page.init
  let (separator, leaf1, new_leaf1) ← LeafNode.split leaf new_leaf
  let bm2 := (bm1.write new_page_id new_leaf1).write curr leaf1
  if separator ≤ key then do
    let new_leaf2 ← LeafNode.insert new_leaf1 key value
    .ok (separator, bm2.write new_page_id new_leaf2)
  else do
    let leaf2 ← LeafNode.insert leaf1 key value
    .ok (separator, bm2.write curr leaf2)

/-- The branch `path.size() == 1` of `BTree::insert`: a new inner root over the split
leaf `curr` and the new leaf. -/
def BTree.insert_new_root (bm : BufferManager) (curr new_page_id new_root_id separator : Nat) :
    Except Fault BufferManager := do
  let (new_root_page, bm1) ← bm.fix_page new_root_id
  let new_root := { new_root_page.init with level := 1 }
  let children ← store kCapacity new_root.children 0 curr
  let keys ← store (kCapacity - 1) new_root.keys 0 separator
  let children ← store kCapacity children 1 new_page_id
  .ok (bm1.write new_root_id { new_root with children := children, keys := keys, count := 2 })

/-- The `else` branch of `BTree::insert`: the separator and the new leaf are written
into the parent, the node before `curr` on the path. -/
def BTree.insert_parent (bm : BufferManager) (path : List Nat) (curr new_page_id separator : Nat) :
    Except Fault BufferManager := do
  let path := path.dropLast
  let parent_id := path.getLastD 0
  let (parent, bm1) ← bm.fix_page parent_id
  let child_idx := BTree.child_idx_loop parent curr parent.count 0
  let parent1 ← BTree.parent_shift child_idx parent.count parent
  let keys ← store (kCapacity - 1) parent1.keys child_idx separator
  let children ← store kCapacity parent1.children (child_idx + 1) new_page_id
  .ok (bm1.write parent_id { parent1 with keys := keys, children := children,
                                          count := (parent1.count + 1) % 65536 })

/-- The body of `BTree::insert` once the descent has reached the leaf `curr` (its node
is `leaf`, the pool is `bm`, `path` ends with `curr`). -/
def BTree.insert_leaf (t : BTree) (bm : BufferManager) (path : List Nat) (curr : Nat)
    (leaf : SlottedPage) (key value : Nat) : Except Fault BTree :=
  if ¬ leaf.is_full kCapacity then do
    let leaf1 ← LeafNode.insert leaf key value
    .ok { t with buffer_manager := bm.write curr leaf1 }
  else do
    let new_page_id := t.next_page_id
    let (separator, bm1) ← BTree.insert_split bm curr new_page_id leaf key value
    if path.length = 1 then do
      let new_root_id := t.next_page_id + 1
      let bm2 ← BTree.insert_new_root bm1 curr new_page_id new_root_id separator
      .ok { root := some new_root_id, buffer_manager := bm2,
            next_page_id := t.next_page_id + 2 }
    else do
      let bm2 ← BTree.insert_parent bm1 path curr new_page_id separator
      .ok { t with buffer_manager := bm2, next_page_id := t.next_page_id + 1 }

/-- The descent loop of `BTree::insert`; `path` is the vector of visited page ids. -/
def BTree.insert_loop (t : BTree) (key value : Nat) :
    Nat → BufferManager → List Nat → Nat → Except Fault BTree
  | 0, _, _, _ => .error .outOfFuel
  | fuel + 1, bm, path, curr => do
    let path := path ++ [curr]
    let (node, bm1) ← bm.fix_page curr
    if node.is_leaf then BTree.insert_leaf t bm1 path curr node key value
    else
      let position := (InnerNode.lower_bound node key).1
      BTree.insert_loop t key value fuel bm1 path (rd 0 node.children position)

/-- `BTree::insert`. -/
def BTree.insert (fuel : Nat) (t : BTree) (key value : Nat) : Except Fault BTree :=
  match t.root with
  | none => do
    let page_id := t.next_page_id
    let (page, bm) ← t.buffer_manager.fix_page page_id
    let leaf ← LeafNode.insert page.init key value
    .ok { root := some page_id, buffer_manager := bm.write page_id leaf,
          next_page_id := page_id + 1 }
  | some root => BTree.insert_loop t key value fuel t.buffer_manager [] root

/-- A tree on a freshly truncated file:
`BufferManager buffer_manager; BTree tree(buffer_manager);`. -/
def BTree.empty : BTree := BTree.new (BufferManager.new true [])

/-- Insert the pairs of a list one after the other. -/
def BTree.insertAll (fuel : Nat) : List (Nat × Nat) → BTree → Except Fault BTree
  | [], t => .ok t
  | (k, v) :: rest, t => do
    let t1 ← BTree.insert fuel t k v
    BTree.insertAll fuel rest t1

/-- The pairs `(i, 2 i)` for `i = from, from + 1, ...` (`n` of them), the input of the
ascending tests of `main`. -/
def ascending : Nat → Nat → List (Nat × Nat)
  | 0, _ => []
  | n + 1, i => (i, 2 * i) :: ascending n (i + 1)

/-- The shifting loop of `BTree::insertIntoParent`:
`for (i = count; i > pos; i--) { keys[i] = keys[i-1]; children[i+1] = children[i]; }`. -/
def BTree.into_parent_shift (pos : Nat) : Nat → SlottedPage → Except Fault SlottedPage
  | 0, parent => .ok parent
  | i + 1, parent =>
    if pos < i + 1 then do
      let keys ← store (kCapacity - 1) parent.keys (i + 1) (rd 0 parent.keys i)
      let children ← store kCapacity parent.children (i + 2) (rd 0 parent.children (i + 1))
      BTree.into_parent_shift pos i { parent with keys := keys, children := children }
    else .ok parent

/-- `BTree::insertIntoParent`, with a bound `calls` on the depth of its recursion (every
call pops one id of `path`).  `*root` on a tree without root and `pop_back` on an empty
`path` are undefined; they are reported as `Fault.outOfBounds`. -/
def BTree.insertIntoParent_rec :
    Nat → BTree → List Nat → Nat → Nat → Except Fault BTree
  | 0, _, _, _, _ => .error .outOfFuel
  | calls + 1, t, path, separator, new_page_id =>
    if path.length = 1 then
      match t.root with
      | none => .error .outOfBounds
      | some root => do
        let new_root_id := t.next_page_id
        let (new_root_page, bm1) ← t.buffer_manager.fix_page new_root_id
        let new_root := { new_root_page.init with level := 1 }
        let children ← store kCapacity new_root.children 0 root
        let keys ← store (kCapacity - 1) new_root.keys 0 separator
        let children ← store kCapacity children 1 new_page_id
        .ok { root := some new_root_id,
              buffer_manager := bm1.write new_root_id
                { new_root with children := children, keys := keys, count := 1 },
              next_page_id := t.next_page_id + 1 }
    else if path.length = 0 then .error .outOfBounds
    else do
      let path := path.dropLast
      let parent_id := path.getLastD 0
      let (parent, bm1) ← t.buffer_manager.fix_page parent_id
      let pos := (InnerNode.lower_bound parent separator).1
      let parent1 ← BTree.into_parent_shift pos parent.count parent
      let keys ← store (kCapacity - 1) parent1.keys pos separator
      let children ← store kCapacity parent1.children (pos + 1) new_page_id
      let parent2 := { parent1 with keys := keys, children := children,
                                    count := (parent1.count + 1) % 65536 }
      let bm2 := bm1.write parent_id parent2
      if parent2.is_full kCapacity then do
        let new_inner_id := t.next_page_id
        let (new_inner_page, bm3) ← bm2.fix_page new_inner_id
        let new_inner := new_inner_page.init
        let (new_separator, parent3, new_inner1) ← InnerNode.split parent2 new_inner
        let bm4 := (bm3.write new_inner_id new_inner1).write parent_id parent3
        BTree.insertIntoParent_rec calls
          { t with buffer_manager := bm4, next_page_id := t.next_page_id + 1 }
          path new_separator new_inner_id
      else .ok { t with buffer_manager := bm2 }

/-- `BTree::insertIntoParent`: the recursion is at most as deep as `path` is long. -/
def BTree.insertIntoParent (t : BTree) (path : List Nat) (separator new_page_id : Nat) :
    Except Fault BTree :=
  BTree.insertIntoParent_rec (path.length + 1) t path separator new_page_id

/-! ## Notions used in the statements -/

/-- The content of page `page_id` as the pool presents it: the resident copy when
there is one, the stored page otherwise. -/
def BufferManager.content (bm : BufferManager) (page_id : Nat) : SlottedPage :=
  match bm.pageMap.lookup (pageKey page_id) with
  | some page => page
  | none => rd SlottedPage.zero bm.storage_manager.file (pageKey page_id)

/-- The node of page `page_id` as the tree sees it. -/
def BTree.node (t : BTree) (page_id : Nat) : SlottedPage := t.buffer_manager.content page_id

/-- Every id the policy tracks is resident. -/
def BufferManager.PolicyOK (bm : BufferManager) : Prop :=
  ∀ p, p ∈ bm.policy.lruList → (bm.pageMap.lookup p).isSome = true

/-- The keys of a leaf are strictly ascending over its live slots. -/
def LeafSorted (n : SlottedPage) : Prop :=
  ∀ i j, i < j → j < n.count → rd 0 n.keys i < rd 0 n.keys j

/-- The pair `(k, v)` is in a live slot of the leaf. -/
def StoredIn (n : SlottedPage) (k v : Nat) : Prop :=
  ∃ i, i < n.count ∧ rd 0 n.keys i = k ∧ rd 0 n.values i = v

/-- A well-formed leaf: level 0, at most `kCapacity` pairs, keys strictly ascending. -/
def LeafOK (n : SlottedPage) : Prop :=
  n.level = 0 ∧ n.count ≤ kCapacity ∧ LeafSorted n

/-- The pair `(k, v)` is stored in the subtree of page `p`: in a live slot of `p` when
`p` is a leaf, in the subtree of one of the `count` children otherwise. -/
inductive InSubtree (mem : Nat → SlottedPage) : Nat → Nat → Nat → Prop where
  | leaf (p i : Nat) : (mem p).level = 0 → i < (mem p).count →
      InSubtree mem p (rd 0 (mem p).keys i) (rd 0 (mem p).values i)
  | inner (p i k v : Nat) : (mem p).level ≠ 0 → i < (mem p).count →
      InSubtree mem (rd 0 (mem p).children i) k v → InSubtree mem p k v

/-- Page `q` is reached from page `p` by following child pointers of inner nodes. -/
inductive Descends (mem : Nat → SlottedPage) : Nat → Nat → Prop where
  | refl (p : Nat) : Descends mem p p
  | child (p i q : Nat) : (mem p).level ≠ 0 → i < (mem p).count →
      Descends mem (rd 0 (mem p).children i) q → Descends mem p q

/-- The pair `(k, v)` is stored in the tree. -/
def BTree.Stored (t : BTree) (k v : Nat) : Prop :=
  ∃ r, t.root = some r ∧ InSubtree t.node r k v

/-- The trees the program can hold: the empty tree and what `insert`, `erase` and
`lookup` return normally from such a tree. -/
inductive Reachable : BTree → Prop where
  | empty : Reachable BTree.empty
  | insert (t t' : BTree) (fuel key value : Nat) :
      Reachable t → BTree.insert fuel t key value = .ok t' → Reachable t'
  | erase (t t' : BTree) (fuel key : Nat) :
      Reachable t → BTree.erase fuel t key = .ok t' → Reachable t'
  | lookup (t t' : BTree) (fuel key : Nat) (r : Option Nat) :
      Reachable t → BTree.lookup fuel t key = .ok (r, t') → Reachable t'

/-- The shape of an inner root: level 1, between 2 and `kCapacity` children, which
are distinct leaves allocated before `next`, ascending separators, and every leaf
within the bounds its neighbouring separators give. -/
def InnerRoot (mem : Nat → SlottedPage) (r next : Nat) : Prop :=
  (mem r).level = 1 ∧ 2 ≤ (mem r).count ∧ (mem r).count ≤ kCapacity ∧
  next = (mem r).count + 2 ∧ 1 ≤ r ∧ r < next ∧
  (∀ i, i < (mem r).count →
    1 ≤ rd 0 (mem r).children i ∧ rd 0 (mem r).children i < next ∧
    rd 0 (mem r).children i ≠ r ∧ LeafOK (mem (rd 0 (mem r).children i))) ∧
  (∀ i j, i < j → j < (mem r).count →
    rd 0 (mem r).children i ≠ rd 0 (mem r).children j) ∧
  (∀ i j, i < j → j + 1 < (mem r).count → rd 0 (mem r).keys i < rd 0 (mem r).keys j) ∧
  (∀ i, i < (mem r).count → ∀ k v, StoredIn (mem (rd 0 (mem r).children i)) k v →
    (0 < i → rd 0 (mem r).keys (i - 1) ≤ k) ∧
    (i + 1 < (mem r).count → k < rd 0 (mem r).keys i))

/-- The shape of the pages under a root: no root on a fresh tree, a single leaf on
page 1, or an inner root over leaves. -/
def Shape (mem : Nat → SlottedPage) (root : Option Nat) (next : Nat) : Prop :=
  match root with
  | none => next = 1
  | some r => (r = 1 ∧ next = 2 ∧ LeafOK (mem 1)) ∨ InnerRoot mem r next

/-- The invariant of the tree: the policy tracks resident pages only, the file keeps
its pre-allocated pages, and the pages under the root have the shape above. -/
def TreeInv (t : BTree) : Prop :=
  t.buffer_manager.PolicyOK ∧ MAX_PAGES ≤ t.buffer_manager.storage_manager.file.length ∧
  Shape t.buffer_manager.content t.root t.next_page_id

/-- What the leaf part of `BTree::lookup` returns on a leaf. -/
def leafFind (n : SlottedPage) (key : Nat) : Option Nat :=
  if LeafNode.find_position n key < n.count ∧
      rd 0 n.keys (LeafNode.find_position n key) = key then
    some (rd 0 n.values (LeafNode.find_position n key))
  else none

/-- The value of the last pair of the list whose key is `k`. -/
def lastWrite : List (Nat × Nat) → Nat → Option Nat
  | [], _ => none
  | (k', v) :: rest, k =>
    match lastWrite rest k with
    | some w => some w
    | none => if k' = k then some v else none

/-- The tree `main` holds after `tree.insert(k, v)` for the pairs of `kvs`, in order, on a
fresh tree (the fresh tree itself when an insert does not return). -/
def treeOf (kvs : List (Nat × Nat)) : BTree :=
  match BTree.insertAll 2 kvs BTree.empty with
  | .ok t => t
  | .error _ => BTree.empty

/-- The tree after the ascending keys `0 .. n - 1` went in, once the root is an inner
node: the root has `c` children, its last leaf holds `m` pairs, and every separator
and every stored key is below `n`. -/
def AscendingShape (n c m : Nat) (t : BTree) : Prop :=
  TreeInv t ∧ ∃ r, t.root = some r ∧
    InnerRoot t.buffer_manager.content r t.next_page_id ∧
    (t.buffer_manager.content r).count = c ∧
    (t.buffer_manager.content (rd 0 (t.buffer_manager.content r).children (c - 1))).count = m ∧
    (∀ j, j + 1 < c → rd 0 (t.buffer_manager.content r).keys j < n) ∧
    (∀ k v, t.Stored k v → k < n)

/-- A call on a policy: `touch(page_id)` or `evict()`. -/
inductive PolicyCall where
  | touch (page_id : Nat)
  | evict
  deriving DecidableEq, Repr

/-- The state of the policy after one call. -/
def LruPolicy.call (p : LruPolicy) : PolicyCall → LruPolicy
  | .touch page_id => (p.touch page_id).2
  | .evict => p.evict.2

/-- The state of the policy after the calls of a list, made in order. -/
def LruPolicy.run (p : LruPolicy) (calls : List PolicyCall) : LruPolicy :=
  calls.foldl LruPolicy.call p

/-- The position, in the list of calls, of the most recent `touch(page_id)`. -/
def lastTouch : List PolicyCall → Nat → Option Nat
  | [], _ => none
  | c :: rest, page_id =>
    match lastTouch rest page_id with
    | some n => some (n + 1)
    | none => if c = .touch page_id then some 0 else none

/-- The tracked ids are distinct, within the capacity, each was touched, and they are
listed from the most recently touched to the least recently touched. -/
def LruOrdered (calls : List PolicyCall) (p : LruPolicy) : Prop :=
  p.lruList.Nodup ∧ p.lruList.length ≤ p.cacheSize ∧
  (∀ x, x ∈ p.lruList → ∃ n, lastTouch calls x = some n) ∧
  p.lruList.Pairwise (fun a b => ∀ m n, lastTouch calls a = some m →
    lastTouch calls b = some n → n < m)

/-- The calls `fix_page(id)` for the ids of a list, one after the other. -/
def BufferManager.fixAll : List Nat → BufferManager → Except Fault BufferManager
  | [], bm => .ok bm
  | page_id :: rest, bm => do
    let (_, bm1) ← bm.fix_page page_id
    BufferManager.fixAll rest bm1

/-- The live entries of a leaf: the pairs `(keys[i], values[i])` for `i < count`, in
slot order. -/
def SlottedPage.entries (n : SlottedPage) : List (Nat × Nat) :=
  (List.range n.count).map (fun i => (rd 0 n.keys i, rd 0 n.values i))

/-- `BTree<KeyT, ValueT, ComparatorT, PageSize>::insert` in the instantiation with the
ordering `ComparatorT`.  No member of the class template mentions `ComparatorT`
(`find_position`, `lower_bound`, `LeafNode::insert`, `LeafNode::erase` and `BTree::insert`
compare keys with `<`, `>=`, `==` and `!=`), so every instantiation runs the same code. -/
def BTree.insertWith (ComparatorT : Nat → Nat → Bool) (fuel : Nat) (t : BTree)
    (key value : Nat) : Except Fault BTree :=
  BTree.insert fuel t key value

/-- `BTree<KeyT, ValueT, ComparatorT, PageSize>::lookup` in the instantiation with the
ordering `ComparatorT`, which the code of `lookup` does not mention either. -/
def BTree.lookupWith (ComparatorT : Nat → Nat → Bool) (fuel : Nat) (t : BTree)
    (key : Nat) : Except Fault (Option Nat × BTree) :=
  BTree.lookup fuel t key

/-- Insert the pairs of a list one after the other into a tree instantiated with the
ordering `ComparatorT`. -/
def BTree.insertAllWith (ComparatorT : Nat → Nat → Bool) (fuel : Nat) :
    List (Nat × Nat) → BTree → Except Fault BTree
  | [], t => .ok t
  | (k, v) :: rest, t => do
    let t1 ← BTree.insertWith ComparatorT fuel t k v
    BTree.insertAllWith ComparatorT fuel rest t1

/-- The keys of a leaf are in the order of `ComparatorT` over its live slots. -/
def SortedBy (ComparatorT : Nat → Nat → Bool) (n : SlottedPage) : Prop :=
  ∀ i j, i < j → j < n.count → ComparatorT (rd 0 n.keys i) (rd 0 n.keys j) = true

/-- The states of a `BufferManager` the program can reach: a constructed one, and what
`extend()`, a `fix_page` call that returned, and a change made in place to a resident
page (through the reference `fix_page` gave out) leave. -/
inductive BufferManager.Reach : BufferManager → Prop where
  | new (truncate_mode : Bool) (old : List SlottedPage) :
      BufferManager.Reach (BufferManager.new truncate_mode old)
  | extend (bm : BufferManager) : BufferManager.Reach bm → BufferManager.Reach bm.extend
  | fix_page (bm bm' : BufferManager) (page_id : Nat) (page : SlottedPage) :
      BufferManager.Reach bm → bm.fix_page page_id = .ok (page, bm') →
      BufferManager.Reach bm'
  | write (bm : BufferManager) (page_id : Nat) (page : SlottedPage) :
      BufferManager.Reach bm → (bm.pageMap.lookup (pageKey page_id)).isSome = true →
      BufferManager.Reach (bm.write page_id page)

/-- One access to the pool: `fix_page(page_id)` and, when `mutation` is given, a change
of the page in place through the reference returned.  The result is the page as
`fix_page` returned it and the pool afterwards. -/
def BufferManager.access (bm : BufferManager) (page_id : Nat)
    (mutation : Option (SlottedPage → SlottedPage)) :
    Except Fault (SlottedPage × BufferManager) := do
  let (page, bm1) ← bm.fix_page page_id
  match mutation with
  | none => .ok (page, bm1)
  | some f => .ok (page, bm1.write page_id (f page))

/-- A sequence of accesses to the pool: the pages returned and the pool afterwards. -/
def BufferManager.accessAll :
    List (Nat × Option (SlottedPage → SlottedPage)) → BufferManager →
      Except Fault (List SlottedPage × BufferManager)
  | [], bm => .ok ([], bm)
  | (page_id, mutation) :: rest, bm => do
    let (page, bm1) ← bm.access page_id mutation
    let (pages, bm2) ← BufferManager.accessAll rest bm1
    .ok (page :: pages, bm2)

/-- The same access made directly on a plain array of pages, indexed by `PageID`. -/
def PlainPages.access (mem : Nat → SlottedPage) (page_id : Nat)
    (mutation : Option (SlottedPage → SlottedPage)) : SlottedPage × (Nat → SlottedPage) :=
  match mutation with
  | none => (mem page_id, mem)
  | some f =>
    (mem page_id, fun q => if pageKey q = pageKey page_id then f (mem page_id) else mem q)

/-- A sequence of accesses made directly on a plain array of pages. -/
def PlainPages.accessAll :
    List (Nat × Option (SlottedPage → SlottedPage)) → (Nat → SlottedPage) →
      List SlottedPage × (Nat → SlottedPage)
  | [], mem => ([], mem)
  | (page_id, mutation) :: rest, mem =>
    let r := PlainPages.access mem page_id mutation
    let rs := PlainPages.accessAll rest r.2
    (r.1 :: rs.1, rs.2)

theorem rd_wr {α : Type} (d : α) (a : List α) (i j : Nat) (v : α) :
    rd d (wr d a i v) j = if j = i then v else rd d a j := by
  induction a generalizing i j with
  | nil =>
    induction i generalizing j with
    | zero => cases j <;> simp [wr, rd]
    | succ i ih =>
      cases j with
      | zero => simp [wr, rd]
      | succ j =>
        have := ih j
        simp only [rd, wr, List.getD_cons_succ] at this ⊢
        simpa using this
  | cons x xs ih =>
    cases i with
    | zero => cases j <;> simp [wr, rd]
    | succ i =>
      cases j with
      | zero => simp [wr, rd]
      | succ j =>
        have := ih i j
        simp only [rd, wr, List.getD_cons_succ] at this ⊢
        simpa using this

theorem wr_length {α : Type} (d : α) (a : List α) (i : Nat) (v : α) (h : i < a.length) :
    (wr d a i v).length = a.length := by
  induction a generalizing i with
  | nil => simp at h
  | cons x xs ih =>
    cases i with
    | zero => simp [wr]
    | succ i => simp [wr]; exact ih i (by simpa using h)

theorem store_ok {cap : Nat} (a : List Nat) {i : Nat} (v : Nat) (h : i < cap) :
    store cap a i v = .ok (wr 0 a i v) := by
  simp [store, h]

theorem store_err {cap : Nat} (a : List Nat) {i : Nat} (v : Nat) (h : cap ≤ i) :
    store cap a i v = .error .outOfBounds := by
  simp [store, Nat.not_lt.mpr h]

theorem fetch_err {cap : Nat} (a : List Nat) {i : Nat} (h : cap ≤ i) :
    fetch cap a i = .error .outOfBounds := by
  simp [fetch, Nat.not_lt.mpr h]

/-! ## Leaf and inner node operations -/

theorem find_position_loop_spec (keys : List Nat) (key count : Nat) :
    ∀ steps pos, pos ≤ count → count ≤ pos + steps →
      pos ≤ LeafNode.find_position_loop keys key count steps pos ∧
      LeafNode.find_position_loop keys key count steps pos ≤ count ∧
      (∀ i, pos ≤ i → i < LeafNode.find_position_loop keys key count steps pos →
        rd 0 keys i < key) ∧
      (LeafNode.find_position_loop keys key count steps pos < count →
        key ≤ rd 0 keys (LeafNode.find_position_loop keys key count steps pos)) := by
  intro steps
  induction steps with
  | zero =>
    intro pos h1 h2
    have : pos = count := by omega
    subst this
    simp [LeafNode.find_position_loop]
    intro i h3 h4; omega
  | succ s ih =>
    intro pos h1 h2
    unfold LeafNode.find_position_loop
    by_cases hc : pos < count ∧ rd 0 keys pos < key
    · rw [if_pos hc]
      obtain ⟨a, b, c, d⟩ := ih (pos + 1) (by omega) (by omega)
      refine ⟨by omega, b, ?_, d⟩
      intro i hi1 hi2
      by_cases hip : i = pos
      · subst hip; exact hc.2
      · exact c i (by omega) hi2
    · rw [if_neg hc]
      refine ⟨le_refl _, h1, ?_, ?_⟩
      · intro i h3 h4; omega
      · intro h; by_contra hh; exact hc ⟨h, by omega⟩

theorem find_position_spec (n : SlottedPage) (key : Nat) :
    LeafNode.find_position n key ≤ n.count ∧
    (∀ i, i < LeafNode.find_position n key → rd 0 n.keys i < key) ∧
    (LeafNode.find_position n key < n.count →
      key ≤ rd 0 n.keys (LeafNode.find_position n key)) := by
  obtain ⟨_, b, c, d⟩ := find_position_loop_spec n.keys key n.count n.count 0 (by omega) (by omega)
  exact ⟨b, fun i hi => c i (by omega) hi, d⟩

theorem insert_shift_spec (position : Nat) :
    ∀ i (n : SlottedPage), i < kCapacity →
      ∃ n', LeafNode.insert_shift position i n = .ok n' ∧
        n'.level = n.level ∧ n'.count = n.count ∧ n'.dirty = n.dirty ∧
        n'.children = n.children ∧
        (∀ j, rd 0 n'.keys j =
          if position < j ∧ j ≤ i then rd 0 n.keys (j - 1) else rd 0 n.keys j) ∧
        (∀ j, rd 0 n'.values j =
          if position < j ∧ j ≤ i then rd 0 n.values (j - 1) else rd 0 n.values j) := by
  intro i
  induction i with
  | zero =>
    intro n _
    refine ⟨n, by simp [LeafNode.insert_shift], rfl, rfl, rfl, rfl, ?_, ?_⟩ <;>
    · intro j; rw [if_neg]; omega
  | succ i ih =>
    intro n hi
    unfold LeafNode.insert_shift
    by_cases hp : position < i + 1
    · rw [if_pos hp, store_ok _ _ hi, store_ok _ _ hi]
      obtain ⟨n', h1, h2, h3, h4, h5, h6, h7⟩ :=
        ih { n with keys := wr 0 n.keys (i + 1) (rd 0 n.keys i),
                    values := wr 0 n.values (i + 1) (rd 0 n.values i) } (by omega)
      refine ⟨n', by simpa [bind, Except.bind] using h1, h2, h3, h4, h5, ?_, ?_⟩
      · intro j
        rw [h6 j]
        simp only [rd_wr]
        split_ifs <;> first | rfl | (exfalso; omega) | (congr 1; omega)
      · intro j
        rw [h7 j]
        simp only [rd_wr]
        split_ifs <;> first | rfl | (exfalso; omega) | (congr 1; omega)
    · rw [if_neg hp]
      refine ⟨n, rfl, rfl, rfl, rfl, rfl, ?_, ?_⟩ <;>
      · intro j; rw [if_neg]; omega

theorem leaf_insert_spec (n : SlottedPage) (key value : Nat) (hc : n.count < kCapacity) :
    ∃ n', LeafNode.insert n key value = .ok n' ∧ n'.level = n.level ∧
      n'.children = n.children ∧
      ((LeafNode.find_position n key < n.count ∧
          rd 0 n.keys (LeafNode.find_position n key) = key) →
        n'.count = n.count ∧ n'.keys = n.keys ∧
        ∀ j, rd 0 n'.values j =
          if j = LeafNode.find_position n key then value else rd 0 n.values j) ∧
      (¬ (LeafNode.find_position n key < n.count ∧
          rd 0 n.keys (LeafNode.find_position n key) = key) →
        n'.count = n.count + 1 ∧
        (∀ j, rd 0 n'.keys j =
          if j = LeafNode.find_position n key then key
          else if LeafNode.find_position n key < j ∧ j ≤ n.count then rd 0 n.keys (j - 1)
          else rd 0 n.keys j) ∧
        (∀ j, rd 0 n'.values j =
          if j = LeafNode.find_position n key then value
          else if LeafNode.find_position n key < j ∧ j ≤ n.count then rd 0 n.values (j - 1)
          else rd 0 n.values j)) := by
  have hp := (find_position_spec n key).1
  unfold LeafNode.insert
  simp only []
  by_cases hf : LeafNode.find_position n key < n.count ∧
      rd 0 n.keys (LeafNode.find_position n key) = key
  · rw [if_pos hf, store_ok _ _ (by omega)]
    refine ⟨_, rfl, rfl, rfl, ?_, fun h => absurd hf h⟩
    intro _
    refine ⟨rfl, rfl, ?_⟩
    intro j
    simp only [rd_wr]
  · rw [if_neg hf]
    obtain ⟨n1, h1, h2, h3, h4, h5, h6, h7⟩ :=
      insert_shift_spec (LeafNode.find_position n key) n.count n hc
    rw [h1]
    simp only [bind, Except.bind]
    rw [store_ok _ _ (by omega), store_ok _ _ (by omega)]
    refine ⟨_, rfl, h2, h5, fun h => absurd h hf, ?_⟩
    intro _
    have hk : kCapacity = 42 := rfl
    refine ⟨?_, ?_, ?_⟩
    · simp only [h3]; omega
    · intro j; simp only [rd_wr, h6]
    · intro j; simp only [rd_wr, h7]

theorem leaf_insert_sem (n : SlottedPage) (key value : Nat) (hc : n.count < kCapacity)
    (hs : LeafSorted n) :
    ∃ n', LeafNode.insert n key value = .ok n' ∧ n'.level = n.level ∧ LeafSorted n' ∧
      (((∃ v, StoredIn n key v) ∧ n'.count = n.count) ∨
        ((¬ ∃ v, StoredIn n key v) ∧ n'.count = n.count + 1)) ∧
      (∀ k v, StoredIn n' k v ↔ (k = key ∧ v = value) ∨ (k ≠ key ∧ StoredIn n k v)) := by
  obtain ⟨n', h1, h2, _, h4, h5⟩ := leaf_insert_spec n key value hc
  obtain ⟨hp1, hp2, hp3⟩ := find_position_spec n key
  refine ⟨n', h1, h2, ?_⟩
  by_cases hf : LeafNode.find_position n key < n.count ∧
      rd 0 n.keys (LeafNode.find_position n key) = key
  · obtain ⟨hcnt, hkeys, hvals⟩ := h4 hf
    refine ⟨?_, Or.inl ⟨⟨_, _, hf.1, hf.2, rfl⟩, hcnt⟩, ?_⟩
    · intro i j hij hj
      rw [hkeys]; exact hs i j hij (by omega)
    · intro k v
      constructor
      · rintro ⟨i, hi, hk, hv⟩
        rw [hkeys] at hk
        rw [hvals] at hv
        by_cases hip : i = LeafNode.find_position n key
        · left; rw [if_pos hip] at hv; subst hip; exact ⟨by rw [← hk, hf.2], hv.symm⟩
        · right
          rw [if_neg hip] at hv
          refine ⟨?_, i, by omega, hk, hv⟩
          rw [← hk, ← hf.2]
          rcases Nat.lt_or_gt_of_ne hip with h | h
          · exact Nat.ne_of_lt (hs _ _ h hf.1)
          · exact Nat.ne_of_gt (hs _ _ h (by omega))
      · rintro (⟨hk, hv⟩ | ⟨hne, i, hi, hk, hv⟩)
        · exact ⟨LeafNode.find_position n key, by omega, by rw [hkeys, hf.2, hk],
            by rw [hvals, if_pos rfl, hv]⟩
        · refine ⟨i, by omega, by rw [hkeys, hk], ?_⟩
          rw [hvals, if_neg, hv]
          intro hip; subst hip; exact hne (hk.symm.trans hf.2)
  · obtain ⟨hcnt, hkeys, hvals⟩ := h5 hf
    have hlt : ∀ i, LeafNode.find_position n key ≤ i → i < n.count → key < rd 0 n.keys i := by
      intro i hi1 hi2
      have hp : LeafNode.find_position n key < n.count := by omega
      have h3 := hp3 hp
      have hne : rd 0 n.keys (LeafNode.find_position n key) ≠ key := fun h => hf ⟨hp, h⟩
      rcases Nat.eq_or_lt_of_le hi1 with h | h
      · subst h; omega
      · have := hs _ _ h hi2; omega
    have hnot : ¬ ∃ v, StoredIn n key v := by
      rintro ⟨v, i, hi, hk, _⟩
      by_cases h : i < LeafNode.find_position n key
      · have := hp2 i h; omega
      · have := hlt i (by omega) hi; omega
    refine ⟨?_, Or.inr ⟨hnot, hcnt⟩, ?_⟩
    · intro i j hij hj
      rw [hkeys i, hkeys j]
      have a1 := hs i j hij
      have a2 := hs i (j - 1)
      have a3 := hs (i - 1) (j - 1)
      have b1 := hp2 i
      have b2 := hlt (j - 1)
      split_ifs <;> omega
    · intro k v
      constructor
      · rintro ⟨i, hi, hk, hv⟩
        rw [hkeys] at hk
        rw [hvals] at hv
        by_cases hip : i = LeafNode.find_position n key
        · left; rw [if_pos hip] at hk hv; exact ⟨hk.symm, hv.symm⟩
        · right
          rw [if_neg hip] at hk hv
          have hne : k ≠ key := by
            rintro rfl; 
            split_ifs at hk with h
            · have := hlt (i - 1) (by omega) (by omega); omega
            · have := hp2 i (by omega); omega
          refine ⟨hne, ?_⟩
          split_ifs at hk hv with h
          · exact ⟨i - 1, by omega, hk, hv⟩
          · exact ⟨i, by omega, hk, hv⟩
      · rintro (⟨hk, hv⟩ | ⟨hne, i, hi, hk, hv⟩)
        · exact ⟨LeafNode.find_position n key, by omega, by rw [hkeys, if_pos rfl, hk],
            by rw [hvals, if_pos rfl, hv]⟩
        · by_cases h : i < LeafNode.find_position n key
          · refine ⟨i, by omega, ?_, ?_⟩
            · rw [hkeys, if_neg (by omega), if_neg (by omega), hk]
            · rw [hvals, if_neg (by omega), if_neg (by omega), hv]
          · refine ⟨i + 1, by omega, ?_, ?_⟩
            · rw [hkeys, if_neg (by omega), if_pos (by omega)]; simpa using hk
            · rw [hvals, if_neg (by omega), if_pos (by omega)]; simpa using hv

theorem erase_shift_spec :
    ∀ steps i (n : SlottedPage), i + steps ≤ kCapacity →
      ∃ n', LeafNode.erase_shift steps i n = .ok n' ∧
        n'.level = n.level ∧ n'.count = n.count ∧ n'.dirty = n.dirty ∧
        n'.children = n.children ∧
        (∀ j, rd 0 n'.keys j =
          if i ≤ j ∧ j < i + steps then rd 0 n.keys (j + 1) else rd 0 n.keys j) ∧
        (∀ j, rd 0 n'.values j =
          if i ≤ j ∧ j < i + steps then rd 0 n.values (j + 1) else rd 0 n.values j) := by
  intro steps
  induction steps with
  | zero =>
    intro i n _
    refine ⟨n, by simp [LeafNode.erase_shift], rfl, rfl, rfl, rfl, ?_, ?_⟩ <;>
    · intro j; rw [if_neg]; omega
  | succ s ih =>
    intro i n hi
    unfold LeafNode.erase_shift
    rw [store_ok _ _ (by omega), store_ok _ _ (by omega)]
    obtain ⟨n', h1, h2, h3, h4, h5, h6, h7⟩ :=
      ih (i + 1) { n with keys := wr 0 n.keys i (rd 0 n.keys (i + 1)),
                          values := wr 0 n.values i (rd 0 n.values (i + 1)) } (by omega)
    refine ⟨n', by simpa [bind, Except.bind] using h1, h2, h3, h4, h5, ?_, ?_⟩
    · intro j
      rw [h6 j]
      simp only [rd_wr]
      split_ifs <;> first | rfl | (exfalso; omega) | (congr 1; omega)
    · intro j
      rw [h7 j]
      simp only [rd_wr]
      split_ifs <;> first | rfl | (exfalso; omega) | (congr 1; omega)

theorem leaf_erase_sem (n : SlottedPage) (key : Nat) (hc : n.count ≤ kCapacity)
    (hs : LeafSorted n) :
    ∃ n', LeafNode.erase n key = .ok n' ∧ n'.level = n.level ∧ LeafSorted n' ∧
      (((∃ v, StoredIn n key v) ∧ n'.count + 1 = n.count) ∨
        ((¬ ∃ v, StoredIn n key v) ∧ n' = n)) ∧
      (∀ k v, StoredIn n' k v ↔ (k ≠ key ∧ StoredIn n k v)) := by
  obtain ⟨hp1, hp2, hp3⟩ := find_position_spec n key
  unfold LeafNode.erase
  simp only []
  by_cases hf : n.count ≤ LeafNode.find_position n key ∨
      rd 0 n.keys (LeafNode.find_position n key) ≠ key
  · rw [if_pos hf]
    have hnot : ¬ ∃ v, StoredIn n key v := by
      rintro ⟨v, i, hi, hk, _⟩
      by_cases h : i < LeafNode.find_position n key
      · have := hp2 i h; omega
      · rcases Nat.eq_or_lt_of_le (Nat.le_of_not_lt h) with h' | h'
        · rw [← h'] at hk hi; omega
        · have h1 := hs (LeafNode.find_position n key) i
          omega
    refine ⟨n, rfl, rfl, hs, Or.inr ⟨hnot, rfl⟩, ?_⟩
    intro k v
    constructor
    · intro h
      refine ⟨?_, h⟩
      rintro rfl
      exact hnot ⟨v, h⟩
    · exact fun h => h.2
  · rw [if_neg hf]
    have hp : LeafNode.find_position n key < n.count := by omega
    have hk : rd 0 n.keys (LeafNode.find_position n key) = key := by
      by_contra h; exact hf (Or.inr h)
    obtain ⟨n1, h1, h2, h3, h4, h5, h6, h7⟩ :=
      erase_shift_spec (n.count - 1 - LeafNode.find_position n key)
        (LeafNode.find_position n key) n (by omega)
    rw [h1]
    simp only [bind, Except.bind]
    refine ⟨_, rfl, h2, ?_, Or.inl ⟨⟨_, LeafNode.find_position n key, hp, hk, rfl⟩, ?_⟩, ?_⟩
    · intro i j hij hj
      simp only [h3] at hj
      simp only [h6]
      have a1 := hs i j hij
      have a2 := hs i (j + 1)
      have a3 := hs (i + 1) (j + 1)
      split_ifs <;> omega
    · simp only [h3]; omega
    · intro k v
      simp only [StoredIn, h3, h6, h7]
      constructor
      · rintro ⟨i, hi, hk', hv⟩
        split_ifs at hk' hv with h
        · refine ⟨?_, i + 1, by omega, hk', hv⟩
          have := hs (LeafNode.find_position n key) (i + 1)
          omega
        · refine ⟨?_, i, by omega, hk', hv⟩
          have := hs i (LeafNode.find_position n key)
          omega
      · rintro ⟨hne, i, hi, hk', hv⟩
        have hip : i ≠ LeafNode.find_position n key := by
          rintro rfl; exact hne (hk'.symm.trans hk)
        by_cases h : i < LeafNode.find_position n key
        · refine ⟨i, by omega, ?_, ?_⟩
          · rw [if_neg (by omega)]; exact hk'
          · rw [if_neg (by omega)]; exact hv
        · refine ⟨i - 1, by omega, ?_, ?_⟩
          · rw [if_pos (by omega)]
            have : i - 1 + 1 = i := by omega
            rw [this]; exact hk'
          · rw [if_pos (by omega)]
            have : i - 1 + 1 = i := by omega
            rw [this]; exact hv

theorem split_loop_spec (src : SlottedPage) :
    ∀ steps i j (dst : SlottedPage), j + steps ≤ kCapacity →
      ∃ dst', LeafNode.split_loop src steps i j dst = .ok (j + steps, dst') ∧
        dst'.level = dst.level ∧ dst'.count = dst.count ∧ dst'.dirty = dst.dirty ∧
        dst'.children = dst.children ∧
        (∀ x, rd 0 dst'.keys x =
          if j ≤ x ∧ x < j + steps then rd 0 src.keys (i + (x - j)) else rd 0 dst.keys x) ∧
        (∀ x, rd 0 dst'.values x =
          if j ≤ x ∧ x < j + steps then rd 0 src.values (i + (x - j)) else rd 0 dst.values x) := by
  intro steps
  induction steps with
  | zero =>
    intro i j dst _
    refine ⟨dst, by simp [LeafNode.split_loop], rfl, rfl, rfl, rfl, ?_, ?_⟩ <;>
    · intro x; rw [if_neg]; omega
  | succ s ih =>
    intro i j dst hj
    unfold LeafNode.split_loop
    rw [store_ok _ _ (by omega), store_ok _ _ (by omega)]
    obtain ⟨n', h1, h2, h3, h4, h5, h6, h7⟩ :=
      ih (i + 1) (j + 1) { dst with keys := wr 0 dst.keys j (rd 0 src.keys i),
                                    values := wr 0 dst.values j (rd 0 src.values i) } (by omega)
    refine ⟨n', ?_, h2, h3, h4, h5, ?_, ?_⟩
    · simp only [bind, Except.bind]
      rw [h1]
      congr 2; omega
    · intro x
      rw [h6 x]
      simp only [rd_wr]
      split_ifs <;> first | rfl | (exfalso; omega) | (congr 1; omega)
    · intro x
      rw [h7 x]
      simp only [rd_wr]
      split_ifs <;> first | rfl | (exfalso; omega) | (congr 1; omega)

theorem leaf_split_spec (n dst : SlottedPage) (hc : n.count ≤ kCapacity) :
    ∃ r, LeafNode.split n dst = .ok (rd 0 r.keys 0, { n with count := n.count / 2 }, r) ∧
      r.level = dst.level ∧ r.count = n.count - n.count / 2 ∧ r.children = dst.children ∧
      (∀ x, x < n.count - n.count / 2 → rd 0 r.keys x = rd 0 n.keys (n.count / 2 + x)) ∧
      (∀ x, x < n.count - n.count / 2 → rd 0 r.values x = rd 0 n.values (n.count / 2 + x)) := by
  obtain ⟨d, h1, h2, h3, h4, h5, h6, h7⟩ :=
    split_loop_spec n (n.count - n.count / 2) (n.count / 2) 0 dst (by omega)
  have hk : kCapacity = 42 := rfl
  unfold LeafNode.split
  simp only [bind, Except.bind]
  rw [h1]
  simp only [Nat.zero_add]
  have hm : (n.count - n.count / 2) % 65536 = n.count - n.count / 2 := by omega
  refine ⟨{ d with count := n.count - n.count / 2 }, ?_, h2, rfl, h5, ?_, ?_⟩
  · simp only [hm]
  · intro x hx
    have := h6 x
    simp only [Nat.zero_le, true_and, Nat.zero_add, Nat.sub_zero, if_pos hx] at this
    exact this
  · intro x hx
    have := h7 x
    simp only [Nat.zero_le, true_and, Nat.zero_add, Nat.sub_zero, if_pos hx] at this
    exact this

theorem lower_bound_loop_spec (keys : List Nat) (key last : Nat) :
    ∀ steps i, last = i + steps → (∀ j, j ≤ i → rd 0 keys j ≤ key) →
      i ≤ InnerNode.lower_bound_loop keys key last steps i ∧
      InnerNode.lower_bound_loop keys key last steps i ≤ last ∧
      (∀ j, j < InnerNode.lower_bound_loop keys key last steps i → rd 0 keys j ≤ key) ∧
      (InnerNode.lower_bound_loop keys key last steps i < last →
        key < rd 0 keys (InnerNode.lower_bound_loop keys key last steps i)) := by
  intro steps
  induction steps with
  | zero =>
    intro i h1 h2
    simp only [InnerNode.lower_bound_loop]
    refine ⟨by omega, le_refl _, fun j hj => h2 j (by omega), fun h => absurd h (lt_irrefl _)⟩
  | succ s ih =>
    intro i h1 h2
    unfold InnerNode.lower_bound_loop
    by_cases hc : rd 0 keys i ≤ key ∧ key < rd 0 keys (i + 1)
    · rw [if_pos hc]
      exact ⟨by omega, by omega, fun j hj => h2 j (by omega), fun _ => hc.2⟩
    · rw [if_neg hc]
      have hi := h2 i (le_refl _)
      obtain ⟨a, b, c, d⟩ := ih (i + 1) (by omega) (by
        intro j hj
        rcases Nat.eq_or_lt_of_le hj with h | h
        · subst h; omega
        · exact h2 j (by omega))
      exact ⟨by omega, b, c, d⟩

theorem lower_bound_spec (n : SlottedPage) (key : Nat) :
    (0 < n.count → (InnerNode.lower_bound n key).1 < n.count) ∧
    (∀ j, j < (InnerNode.lower_bound n key).1 → rd 0 n.keys j ≤ key) ∧
    ((InnerNode.lower_bound n key).1 + 1 < n.count →
      key < rd 0 n.keys (InnerNode.lower_bound n key).1) := by
  unfold InnerNode.lower_bound
  by_cases h0 : n.count = 0
  · simp [h0]
  · rw [if_neg h0]
    by_cases h1 : key < rd 0 n.keys 0
    · rw [if_pos h1]
      exact ⟨fun h => h, fun j hj => absurd hj (Nat.not_lt_zero _), fun _ => h1⟩
    · rw [if_neg h1]
      obtain ⟨_, b, c, d⟩ := lower_bound_loop_spec n.keys key (n.count - 1) (n.count - 1) 0
        (by omega) (by
          intro j hj
          have : j = 0 := by omega
          subst this; omega)
      exact ⟨fun _ => by simp only []; omega, c, fun h => d (by simp only [] at h ⊢; omega)⟩

theorem child_idx_loop_spec (parent : SlottedPage) (curr ci : Nat) (hci : ci < parent.count)
    (heq : rd 0 parent.children ci = curr)
    (hfirst : ∀ j, j < ci → rd 0 parent.children j ≠ curr) :
    ∀ steps idx, idx ≤ ci → ci ≤ idx + steps →
      BTree.child_idx_loop parent curr steps idx = ci := by
  intro steps
  induction steps with
  | zero =>
    intro idx h1 h2
    simp only [BTree.child_idx_loop]; omega
  | succ s ih =>
    intro idx h1 h2
    unfold BTree.child_idx_loop
    rcases Nat.eq_or_lt_of_le h1 with h | h
    · subst h
      rw [if_neg]
      simp [heq]
    · rw [if_pos ⟨by omega, hfirst idx h⟩]
      exact ih (idx + 1) (by omega) (by omega)

theorem parent_shift_spec (child_idx : Nat) :
    ∀ m (p : SlottedPage), m < kCapacity →
      ∃ p', BTree.parent_shift child_idx m p = .ok p' ∧
        p'.level = p.level ∧ p'.count = p.count ∧ p'.dirty = p.dirty ∧
        p'.values = p.values ∧
        (∀ j, rd 0 p'.children j =
          if child_idx + 1 < j ∧ j ≤ m then rd 0 p.children (j - 1) else rd 0 p.children j) ∧
        (∀ j, rd 0 p'.keys j =
          if child_idx < j ∧ j + 1 ≤ m then rd 0 p.keys (j - 1) else rd 0 p.keys j) := by
  intro m
  induction m with
  | zero =>
    intro p _
    refine ⟨p, by simp [BTree.parent_shift], rfl, rfl, rfl, rfl, ?_, ?_⟩ <;>
    · intro j; rw [if_neg]; omega
  | succ i ih =>
    intro p hi
    have hk : kCapacity = 42 := rfl
    unfold BTree.parent_shift
    by_cases hp : child_idx + 1 < i + 1
    · rw [if_pos hp, store_ok _ _ hi, store_ok _ _ (by omega)]
      obtain ⟨n', h1, h2, h3, h4, h5, h6, h7⟩ :=
        ih { p with children := wr 0 p.children (i + 1) (rd 0 p.children i),
                    keys := wr 0 p.keys i (rd 0 p.keys (i - 1)) } (by omega)
      refine ⟨n', by simpa [bind, Except.bind] using h1, h2, h3, h4, h5, ?_, ?_⟩
      · intro j
        rw [h6 j]
        simp only [rd_wr]
        split_ifs <;> first | rfl | (exfalso; omega) | (congr 1; omega)
      · intro j
        rw [h7 j]
        simp only [rd_wr]
        split_ifs <;> first | rfl | (exfalso; omega) | (congr 1; omega)
    · rw [if_neg hp]
      refine ⟨p, rfl, rfl, rfl, rfl, rfl, ?_, ?_⟩ <;>
      · intro j; rw [if_neg]; omega

/-! ## The buffer pool -/

theorem wr_length_le {α : Type} (d : α) (a : List α) (i : Nat) (v : α) :
    a.length ≤ (wr d a i v).length := by
  induction a generalizing i with
  | nil => simp
  | cons x xs ih =>
    cases i with
    | zero => simp [wr]
    | succ i => simp [wr]; exact ih i

theorem lookup_assign (m : List (Nat × SlottedPage)) (k q : Nat) (p : SlottedPage) :
    (PageMap.assign m k p).lookup q = if q = k then some p else m.lookup q := by
  induction m with
  | nil =>
    simp only [PageMap.assign, List.lookup]
    by_cases h : q = k
    · subst h; simp
    · have : (q == k) = false := by simpa using h
      simp [this, h]
  | cons hd tl ih =>
    obtain ⟨k', p'⟩ := hd
    simp only [PageMap.assign]
    by_cases hk : k' = k
    · subst hk
      rw [if_pos rfl]
      simp only [List.lookup]
      by_cases h : q = k'
      · subst h; simp
      · have : (q == k') = false := by simpa using h
        simp [this, h]
    · rw [if_neg hk]
      simp only [List.lookup]
      by_cases h : q = k'
      · subst h
        simp [hk]
      · have : (q == k') = false := by simpa using h
        simp only [this, ih]

theorem evict_mem (p : LruPolicy) :
    (∀ x, x ∈ p.evict.2.lruList → x ∈ p.lruList) ∧
    (p.evict.1 ≠ INVALID_VALUE → p.evict.1 ∈ p.lruList) := by
  unfold LruPolicy.evict
  by_cases h : p.lruList.length ≠ 0
  · rw [if_pos h]
    refine ⟨fun x hx => List.mem_of_mem_dropLast hx, fun _ => ?_⟩
    have hne : p.lruList ≠ [] := by
      intro h'; rw [h'] at h; simp at h
    simp only []
    rw [List.getLastD_eq_getLast?, List.getLast?_eq_getLast _ hne]
    exact List.getLast_mem hne
  · rw [if_neg h]
    exact ⟨fun x hx => hx, fun h' => absurd rfl h'⟩

theorem touch_mem (p : LruPolicy) (page_id : Nat) :
    ∀ x, x ∈ (p.touch page_id).2.lruList → x = page_id ∨ x ∈ p.lruList := by
  intro x
  unfold LruPolicy.touch
  simp only []
  intro hx
  split_ifs at hx
  all_goals
    first
    | (rcases List.mem_cons.mp hx with h | h
       · exact Or.inl h
       · first
         | exact Or.inr (List.mem_of_mem_erase ((evict_mem _).1 x h))
         | exact Or.inr (List.mem_of_mem_erase h)
         | exact Or.inr ((evict_mem _).1 x h)
         | exact Or.inr h)
    | exact Or.inr (List.mem_of_mem_erase ((evict_mem _).1 x hx))
    | exact Or.inr (List.mem_of_mem_erase hx)
    | exact Or.inr ((evict_mem _).1 x hx)
    | exact Or.inr hx

theorem content_write (bm : BufferManager) (page_id q : Nat) (page : SlottedPage) :
    (bm.write page_id page).content q =
      if pageKey q = pageKey page_id then page else bm.content q := by
  unfold BufferManager.content BufferManager.write
  simp only [lookup_assign]
  split_ifs <;> rfl

theorem policyOK_write (bm : BufferManager) (page_id : Nat) (page : SlottedPage)
    (h : bm.PolicyOK) : (bm.write page_id page).PolicyOK := by
  intro p hp
  have := h p hp
  simp only [BufferManager.write, lookup_assign]
  split_ifs
  · rfl
  · exact this

theorem fix_page_spec (bm : BufferManager) (page_id : Nat) (hp : bm.PolicyOK)
    (hl : pageKey page_id < bm.storage_manager.file.length) :
    ∃ bm', bm.fix_page page_id = .ok (bm.content page_id, bm') ∧ bm'.PolicyOK ∧
      (∀ q, bm'.content q = bm.content q) ∧
      bm.storage_manager.file.length ≤ bm'.storage_manager.file.length := by
  unfold BufferManager.fix_page
  cases hres : bm.pageMap.lookup (pageKey page_id) with
  | some page =>
    simp only []
    refine ⟨{ bm with policy := (bm.policy.touch (pageKey page_id)).2 }, ?_, ?_, ?_, le_refl _⟩
    · simp only [BufferManager.content, hres]
    · intro p hp'
      rcases touch_mem bm.policy (pageKey page_id) p hp' with h | h
      · subst h; simp [hres]
      · exact hp p h
    · intro q; rfl
  | none =>
    simp only []
    -- the state after the optional eviction
    have key : ∀ bm1 : BufferManager, bm1.PolicyOK →
        bm1.pageMap = bm.pageMap →
        (∀ q, bm.pageMap.lookup q = none →
          rd SlottedPage.zero bm1.storage_manager.file q =
            rd SlottedPage.zero bm.storage_manager.file q) →
        bm.storage_manager.file.length ≤ bm1.storage_manager.file.length →
        ∃ bm', (do
            let page ← bm1.storage_manager.load (pageKey page_id)
            Except.ok (page, { bm1 with
              policy := (bm1.policy.touch (pageKey page_id)).2,
              pageMap := PageMap.assign bm1.pageMap (pageKey page_id) page }) :
            Except Fault (SlottedPage × BufferManager)) = .ok (bm.content page_id, bm') ∧
          bm'.PolicyOK ∧ (∀ q, bm'.content q = bm.content q) ∧
          bm.storage_manager.file.length ≤ bm'.storage_manager.file.length := by
      intro bm1 h1 h2 h3 h4
      have hlen : pageKey page_id < bm1.storage_manager.file.length := by omega
      have hload : bm1.storage_manager.load (pageKey page_id) = .ok (bm.content page_id) := by
        unfold StorageManager.load
        rw [List.get?_eq_get hlen]
        simp only [BufferManager.content, hres]
        rw [← h3 _ hres]
        simp [rd, List.getD_eq_getElem?_getD, List.getElem?_eq_getElem hlen]
      rw [hload]
      simp only [bind, Except.bind]
      refine ⟨_, rfl, ?_, ?_, h4⟩
      · intro p hp'
        simp only [lookup_assign]
        rcases touch_mem _ _ p hp' with h | h
        · subst h; simp
        · have := h1 p h
          split_ifs
          · rfl
          · exact this
      · intro q
        simp only [BufferManager.content, lookup_assign, h2]
        by_cases hq : pageKey q = pageKey page_id
        · rw [if_pos hq, hq, hres]
        · rw [if_neg hq]
          cases hq' : bm.pageMap.lookup (pageKey q) with
          | some pg => rfl
          | none => simp only []; exact h3 _ hq'
    by_cases hfull : MAX_PAGES_IN_MEMORY ≤ bm.pageMap.length
    · rw [if_pos hfull]
      by_cases hev : bm.policy.evict.1 ≠ INVALID_VALUE
      · rw [if_pos hev]
        have hmem := (evict_mem bm.policy).2 hev
        have hsome := hp _ hmem
        obtain ⟨pg, hpg⟩ := Option.isSome_iff_exists.mp hsome
        have hidx : PageMap.index bm.pageMap bm.policy.evict.1 = (pg, bm.pageMap) := by
          simp [PageMap.index, hpg]
        rw [hidx]
        apply key
        · intro p hp'
          exact hp p ((evict_mem bm.policy).1 p hp')
        · rfl
        · intro q hq
          simp only [StorageManager.flush, rd_wr]
          rw [if_neg]
          rintro rfl
          rw [hq] at hpg; cases hpg
        · simp only [StorageManager.flush]
          exact wr_length_le _ _ _ _
      · rw [if_neg hev]
        apply key
        · intro p hp'
          exact hp p ((evict_mem bm.policy).1 p hp')
        · rfl
        · intro q _; rfl
        · exact le_refl _
    · rw [if_neg hfull]
      exact key bm hp rfl (fun q _ => rfl) (le_refl _)

/-! ## Lookup -/

theorem lower_bound_snd (n : SlottedPage) (key : Nat) : (InnerNode.lower_bound n key).2 = false := by
  unfold InnerNode.lower_bound
  split_ifs <;> rfl

/-- The result of `InnerNode::lower_bound` depends on the live separators
`keys[0 .. count - 2]` only, not on the slot `keys[count - 1]` its last comparison reads. -/
theorem lower_bound_stale (n n' : SlottedPage) (key : Nat) (hc : n'.count = n.count)
    (hk : ∀ j, j + 1 < n.count → rd 0 n'.keys j = rd 0 n.keys j) :
    InnerNode.lower_bound n' key = InnerNode.lower_bound n key := by
  obtain ⟨a1, a2, a3⟩ := lower_bound_spec n key
  obtain ⟨b1, b2, b3⟩ := lower_bound_spec n' key
  rw [hc] at b1 b3
  have h2 : (InnerNode.lower_bound n' key).2 = (InnerNode.lower_bound n key).2 := by
    rw [lower_bound_snd, lower_bound_snd]
  have h1 : (InnerNode.lower_bound n' key).1 = (InnerNode.lower_bound n key).1 := by
    by_cases h0 : n.count = 0
    · unfold InnerNode.lower_bound
      rw [hc, if_pos h0, if_pos h0]
    · by_contra hne
      rcases Nat.lt_or_gt_of_ne hne with hlt | hgt
      · have e1 := a2 _ hlt
        have e2 := b3 (by have := a1 (by omega); omega)
        have e3 := hk (InnerNode.lower_bound n' key).1 (by have := a1 (by omega); omega)
        omega
      · have e1 := b2 _ hgt
        have e2 := a3 (by have := b1 (by omega); omega)
        have e3 := hk (InnerNode.lower_bound n key).1 (by have := b1 (by omega); omega)
        omega
  exact Prod.ext h1 h2

theorem pageKey_small {q : Nat} (h : q < 65536) : pageKey q = q := Nat.mod_eq_of_lt h

theorem content_write_small (bm : BufferManager) (page_id q : Nat) (page : SlottedPage)
    (h1 : page_id < 65536) (h2 : q < 65536) :
    (bm.write page_id page).content q = if q = page_id then page else bm.content q := by
  rw [content_write, pageKey_small h1, pageKey_small h2]

theorem write_file (bm : BufferManager) (page_id : Nat) (page : SlottedPage) :
    (bm.write page_id page).storage_manager = bm.storage_manager := rfl

theorem fix_page_ok (bm : BufferManager) (page_id : Nat) (hp : bm.PolicyOK)
    (hl : MAX_PAGES ≤ bm.storage_manager.file.length) (hid : page_id < MAX_PAGES) :
    ∃ bm', bm.fix_page page_id = .ok (bm.content page_id, bm') ∧ bm'.PolicyOK ∧
      bm'.content = bm.content ∧ MAX_PAGES ≤ bm'.storage_manager.file.length := by
  have hk : pageKey page_id = page_id := pageKey_small (by unfold MAX_PAGES at hid; omega)
  obtain ⟨bm', h1, h2, h3, h4⟩ := fix_page_spec bm page_id hp (by rw [hk]; omega)
  exact ⟨bm', h1, h2, funext h3, by omega⟩

theorem leafFind_sem (n : SlottedPage) (hs : LeafSorted n) (key v : Nat) :
    leafFind n key = some v ↔ StoredIn n key v := by
  obtain ⟨hp1, hp2, hp3⟩ := find_position_spec n key
  unfold leafFind
  constructor
  · intro h
    split_ifs at h with hc
    exact ⟨_, hc.1, hc.2, Option.some.inj h⟩
  · rintro ⟨i, hi, hk, hv⟩
    have hpi : LeafNode.find_position n key = i := by
      by_contra hne
      rcases Nat.lt_or_gt_of_ne hne with h | h
      · have := hs _ _ h hi
        have := hp3 (by omega)
        omega
      · have := hp2 i h; omega
    rw [hpi, if_pos ⟨hi, hk⟩, hv]

theorem leafFind_none (n : SlottedPage) (hs : LeafSorted n) (key : Nat) :
    leafFind n key = none ↔ ¬ ∃ v, StoredIn n key v := by
  constructor
  · rintro h ⟨v, hv⟩
    rw [(leafFind_sem n hs key v).mpr hv] at h
    cases h
  · intro h
    cases hf : leafFind n key with
    | none => rfl
    | some v => exact absurd ⟨v, (leafFind_sem n hs key v).mp hf⟩ h

theorem lookup_loop_leaf (bm : BufferManager) (curr key fuel : Nat) (hp : bm.PolicyOK)
    (hl : MAX_PAGES ≤ bm.storage_manager.file.length) (hid : curr < MAX_PAGES)
    (hlev : (bm.content curr).level = 0) :
    ∃ bm', BTree.lookup_loop key (fuel + 1) bm curr = .ok (leafFind (bm.content curr) key, bm') ∧
      bm'.PolicyOK ∧ bm'.content = bm.content ∧
      MAX_PAGES ≤ bm'.storage_manager.file.length := by
  obtain ⟨bm', h1, h2, h3, h4⟩ := fix_page_ok bm curr hp hl hid
  refine ⟨bm', ?_, h2, h3, h4⟩
  unfold BTree.lookup_loop
  rw [h1]
  simp only [bind, Except.bind, SlottedPage.is_leaf, hlev, beq_self_eq_true, if_true, leafFind]
  split_ifs <;> rfl

theorem lookup_loop_inner (bm : BufferManager) (curr key fuel : Nat) (hp : bm.PolicyOK)
    (hl : MAX_PAGES ≤ bm.storage_manager.file.length) (hid : curr < MAX_PAGES)
    (hlev : (bm.content curr).level ≠ 0) :
    ∃ bm', BTree.lookup_loop key (fuel + 1) bm curr =
        BTree.lookup_loop key fuel bm'
          (rd 0 (bm.content curr).children (InnerNode.lower_bound (bm.content curr) key).1) ∧
      bm'.PolicyOK ∧ bm'.content = bm.content ∧
      MAX_PAGES ≤ bm'.storage_manager.file.length := by
  obtain ⟨bm', h1, h2, h3, h4⟩ := fix_page_ok bm curr hp hl hid
  refine ⟨bm', ?_, h2, h3, h4⟩
  conv_lhs => unfold BTree.lookup_loop
  rw [h1]
  have : ((bm.content curr).level == 0) = false := by simpa using hlev
  simp only [bind, Except.bind, SlottedPage.is_leaf, this]
  rfl

theorem inSubtree_iff (mem : Nat → SlottedPage) (p k v : Nat) :
    InSubtree mem p k v ↔
      ((mem p).level = 0 ∧ StoredIn (mem p) k v) ∨
      ((mem p).level ≠ 0 ∧ ∃ i, i < (mem p).count ∧
        InSubtree mem (rd 0 (mem p).children i) k v) := by
  constructor
  · intro h
    cases h with
    | leaf _ i h1 h2 => exact Or.inl ⟨h1, i, h2, rfl, rfl⟩
    | inner _ i _ _ h1 h2 h3 => exact Or.inr ⟨h1, i, h2, h3⟩
  · rintro (⟨h1, i, h2, rfl, rfl⟩ | ⟨h1, i, h2, h3⟩)
    · exact InSubtree.leaf p i h1 h2
    · exact InSubtree.inner p i k v h1 h2 h3

theorem inSubtree_leaf (mem : Nat → SlottedPage) (p k v : Nat) (h : (mem p).level = 0) :
    InSubtree mem p k v ↔ StoredIn (mem p) k v := by
  rw [inSubtree_iff]
  constructor
  · rintro (⟨_, h2⟩ | ⟨h1, _⟩)
    · exact h2
    · exact absurd h h1
  · exact fun h2 => Or.inl ⟨h, h2⟩

theorem inSubtree_innerRoot (mem : Nat → SlottedPage) (r next k v : Nat)
    (h : InnerRoot mem r next) :
    InSubtree mem r k v ↔
      ∃ i, i < (mem r).count ∧ StoredIn (mem (rd 0 (mem r).children i)) k v := by
  obtain ⟨hlev, _, _, _, _, _, hch, _⟩ := h
  rw [inSubtree_iff]
  constructor
  · rintro (⟨h1, _⟩ | ⟨_, i, hi, h3⟩)
    · omega
    · exact ⟨i, hi, (inSubtree_leaf mem _ k v (hch i hi).2.2.2.1).mp h3⟩
  · rintro ⟨i, hi, h3⟩
    exact Or.inr ⟨by omega, i, hi, (inSubtree_leaf mem _ k v (hch i hi).2.2.2.1).mpr h3⟩

/-- In an inner root, a key can only be stored in the leaf the descent chooses. -/
theorem innerRoot_unique (mem : Nat → SlottedPage) (r next key v i : Nat)
    (h : InnerRoot mem r next) (hi : i < (mem r).count)
    (hs : StoredIn (mem (rd 0 (mem r).children i)) key v) :
    i = (InnerNode.lower_bound (mem r) key).1 := by
  obtain ⟨_, hc2, _, _, _, _, _, _, hsep, hbnd⟩ := h
  obtain ⟨l1, l2, l3⟩ := lower_bound_spec (mem r) key
  obtain ⟨b1, b2⟩ := hbnd i hi key v hs
  by_contra hne
  rcases Nat.lt_or_gt_of_ne hne with hlt | hgt
  · have := l2 i hlt
    have := l1 (by omega)
    omega
  · have h1 := l3 (by omega)
    have h2 := b1 (by omega)
    rcases Nat.eq_or_lt_of_le (show (InnerNode.lower_bound (mem r) key).1 ≤ i - 1 by omega)
      with he | hl
    · rw [← he] at h2; omega
    · have := hsep _ _ hl (by omega); omega

/-- The descent of an inner root reaches a child within the bounds of the key. -/
theorem innerRoot_descent (mem : Nat → SlottedPage) (r next key : Nat)
    (h : InnerRoot mem r next) :
    (InnerNode.lower_bound (mem r) key).1 < (mem r).count ∧
    (0 < (InnerNode.lower_bound (mem r) key).1 →
      rd 0 (mem r).keys ((InnerNode.lower_bound (mem r) key).1 - 1) ≤ key) ∧
    ((InnerNode.lower_bound (mem r) key).1 + 1 < (mem r).count →
      key < rd 0 (mem r).keys (InnerNode.lower_bound (mem r) key).1) := by
  obtain ⟨_, hc2, _⟩ := h
  obtain ⟨l1, l2, l3⟩ := lower_bound_spec (mem r) key
  exact ⟨l1 (by omega), fun h0 => l2 _ (by omega), l3⟩

theorem update_leaf_view (mem mem' : Nat → SlottedPage) (r next i cid : Nat)
    (leaf : SlottedPage) (h : InnerRoot mem r next) (hi : i < (mem r).count)
    (hcid : rd 0 (mem r).children i = cid)
    (hmem : ∀ q, q < next → mem' q = if q = cid then leaf else mem q) :
    mem' r = mem r ∧ ∀ j, j < (mem r).count →
      mem' (rd 0 (mem r).children j) =
        if j = i then leaf else mem (rd 0 (mem r).children j) := by
  obtain ⟨hlev, hc2, hc42, hnext, hr1, hrn, hch, hdist, hsep, hbnd⟩ := h
  subst hcid
  constructor
  · rw [hmem r hrn, if_neg]
    exact fun he => (hch i hi).2.2.1 he.symm
  · intro j hj
    rw [hmem _ (hch j hj).2.1]
    by_cases hji : j = i
    · subst hji; simp
    · rw [if_neg hji, if_neg]
      intro he
      rcases Nat.lt_or_gt_of_ne hji with hlt | hgt
      · exact hdist j i hlt hi he
      · exact hdist i j hgt hj he.symm

theorem innerRoot_update_leaf (mem mem' : Nat → SlottedPage) (r next i cid : Nat)
    (leaf : SlottedPage) (h : InnerRoot mem r next) (hi : i < (mem r).count)
    (hcid : rd 0 (mem r).children i = cid)
    (hmem : ∀ q, q < next → mem' q = if q = cid then leaf else mem q)
    (hL : LeafOK leaf)
    (hb : ∀ k v, StoredIn leaf k v →
      (0 < i → rd 0 (mem r).keys (i - 1) ≤ k) ∧
      (i + 1 < (mem r).count → k < rd 0 (mem r).keys i)) :
    InnerRoot mem' r next := by
  obtain ⟨hr, hchild⟩ := update_leaf_view mem mem' r next i cid leaf h hi hcid hmem
  obtain ⟨hlev, hc2, hc42, hnext, hr1, hrn, hch, hdist, hsep, hbnd⟩ := h
  unfold InnerRoot
  rw [hr]
  refine ⟨hlev, hc2, hc42, hnext, hr1, hrn, ?_, hdist, hsep, ?_⟩
  · intro j hj
    refine ⟨(hch j hj).1, (hch j hj).2.1, (hch j hj).2.2.1, ?_⟩
    rw [hchild j hj]
    split_ifs
    · exact hL
    · exact (hch j hj).2.2.2
  · intro j hj k v hs
    rw [hchild j hj] at hs
    split_ifs at hs with hji
    · subst hji; exact hb k v hs
    · exact hbnd j hj k v hs

theorem treeInv_of_content (t t' : BTree) (h : TreeInv t) (hp : t'.buffer_manager.PolicyOK)
    (hl : MAX_PAGES ≤ t'.buffer_manager.storage_manager.file.length)
    (hc : t'.buffer_manager.content = t.buffer_manager.content) (hr : t'.root = t.root)
    (hn : t'.next_page_id = t.next_page_id) : TreeInv t' := by
  refine ⟨hp, hl, ?_⟩
  rw [hc, hr, hn]
  exact h.2.2

theorem stored_none (t : BTree) (h : t.root = none) (k v : Nat) : ¬ t.Stored k v := by
  rintro ⟨r, hr, _⟩
  rw [h] at hr
  cases hr

theorem stored_leaf_root (t : BTree) (r : Nat) (h : t.root = some r)
    (hlev : (t.buffer_manager.content r).level = 0) (k v : Nat) :
    t.Stored k v ↔ StoredIn (t.buffer_manager.content r) k v := by
  unfold BTree.Stored BTree.node
  constructor
  · rintro ⟨r', hr', hs⟩
    rw [h] at hr'
    cases hr'
    exact (inSubtree_leaf _ _ _ _ hlev).mp hs
  · intro hs
    exact ⟨r, h, (inSubtree_leaf _ _ _ _ hlev).mpr hs⟩

theorem stored_inner_root (t : BTree) (r : Nat) (h : t.root = some r)
    (hi : InnerRoot t.buffer_manager.content r t.next_page_id) (k v : Nat) :
    t.Stored k v ↔ ∃ i, i < (t.buffer_manager.content r).count ∧
      StoredIn (t.buffer_manager.content
        (rd 0 (t.buffer_manager.content r).children i)) k v := by
  unfold BTree.Stored BTree.node
  constructor
  · rintro ⟨r', hr', hs⟩
    rw [h] at hr'
    cases hr'
    exact (inSubtree_innerRoot _ _ _ _ _ hi).mp hs
  · intro hs
    exact ⟨r, h, (inSubtree_innerRoot _ _ _ _ _ hi).mpr hs⟩

theorem innerRoot_bounds {mem : Nat → SlottedPage} {r next : Nat} (h : InnerRoot mem r next) :
    next ≤ 44 ∧ r < 44 ∧ ∀ i, i < (mem r).count → rd 0 (mem r).children i < 44 := by
  obtain ⟨_, _, hc42, hnext, _, hrn, hch, _⟩ := h
  have hk : kCapacity = 42 := rfl
  refine ⟨by omega, by omega, fun i hi => ?_⟩
  have := (hch i hi).2.1
  omega

theorem lookup_spec (t : BTree) (key fuel : Nat) (h : TreeInv t) :
    ∃ res bm', BTree.lookup (fuel + 2) t key = .ok (res, { t with buffer_manager := bm' }) ∧
      bm'.PolicyOK ∧ bm'.content = t.buffer_manager.content ∧
      MAX_PAGES ≤ bm'.storage_manager.file.length ∧
      (∀ v, res = some v ↔ t.Stored key v) := by
  obtain ⟨root, bm, next⟩ := t
  obtain ⟨hp, hl, hs⟩ := h
  simp only at hp hl hs
  unfold BTree.lookup
  cases root with
  | none =>
    refine ⟨none, bm, rfl, hp, rfl, hl, ?_⟩
    intro v
    constructor
    · intro h; cases h
    · intro h; exact absurd h (stored_none _ rfl key v)
  | some r =>
    simp only [Shape] at hs
    have hM : MAX_PAGES = 1000 := rfl
    rcases hs with ⟨h1, _, hleaf⟩ | hin
    · subst h1
      obtain ⟨bm', e1, e2, e3, e4⟩ := lookup_loop_leaf bm 1 key (fuel + 1) hp hl
        (by omega) hleaf.1
      refine ⟨leafFind (bm.content 1) key, bm', ?_, e2, e3, e4, ?_⟩
      · simp only [e1, bind, Except.bind]
      · intro v
        rw [leafFind_sem _ hleaf.2.2, stored_leaf_root _ 1 rfl hleaf.1]
    · obtain ⟨hb1, hb2, hb3⟩ := innerRoot_bounds hin
      obtain ⟨d1, d2, d3⟩ := innerRoot_descent _ _ _ key hin
      have hlev : (bm.content r).level ≠ 0 := by rw [hin.1]; omega
      obtain ⟨bm1, e1, e2, e3, e4⟩ := lookup_loop_inner bm r key (fuel + 1) hp hl
        (by omega) hlev
      have hchild := (hin.2.2.2.2.2.2.1 _ d1)
      obtain ⟨bm2, f1, f2, f3, f4⟩ := lookup_loop_leaf bm1
        (rd 0 (bm.content r).children (InnerNode.lower_bound (bm.content r) key).1) key fuel
        e2 e4 (by have := hb3 _ d1; omega) (by rw [e3]; exact hchild.2.2.2.1)
      refine ⟨leafFind (bm1.content (rd 0 (bm.content r).children
        (InnerNode.lower_bound (bm.content r) key).1)) key, bm2, ?_, f2, by rw [f3, e3], f4, ?_⟩
      · simp only [e1, f1, bind, Except.bind]
      · intro v
        rw [e3, leafFind_sem _ hchild.2.2.2.2.2, stored_inner_root _ r rfl hin]
        constructor
        · intro hs; exact ⟨_, d1, hs⟩
        · rintro ⟨i, hi, hs⟩
          have := innerRoot_unique _ _ _ _ _ _ hin hi hs
          rw [← this]; exact hs

/-! ## Erase -/

theorem erase_loop_leaf (bm : BufferManager) (curr key fuel : Nat) (hp : bm.PolicyOK)
    (hl : MAX_PAGES ≤ bm.storage_manager.file.length) (hid : curr < MAX_PAGES)
    (hleaf : LeafOK (bm.content curr)) :
    ∃ (bm1 : BufferManager) (leaf : SlottedPage), BTree.erase_loop key (fuel + 1) bm curr = .ok (bm1.write curr leaf) ∧
      bm1.PolicyOK ∧ bm1.content = bm.content ∧
      MAX_PAGES ≤ bm1.storage_manager.file.length ∧
      LeafNode.erase (bm.content curr) key = .ok leaf := by
  obtain ⟨bm', h1, h2, h3, h4⟩ := fix_page_ok bm curr hp hl hid
  obtain ⟨leaf, e1, _⟩ := leaf_erase_sem (bm.content curr) key hleaf.2.1 hleaf.2.2
  refine ⟨bm', leaf, ?_, h2, h3, h4, e1⟩
  unfold BTree.erase_loop
  rw [h1]
  simp only [bind, Except.bind, SlottedPage.is_leaf, hleaf.1, beq_self_eq_true, if_true, e1]

theorem erase_loop_inner (bm : BufferManager) (curr key fuel : Nat) (hp : bm.PolicyOK)
    (hl : MAX_PAGES ≤ bm.storage_manager.file.length) (hid : curr < MAX_PAGES)
    (hlev : (bm.content curr).level ≠ 0) :
    ∃ bm', BTree.erase_loop key (fuel + 1) bm curr =
        BTree.erase_loop key fuel bm'
          (rd 0 (bm.content curr).children (InnerNode.lower_bound (bm.content curr) key).1) ∧
      bm'.PolicyOK ∧ bm'.content = bm.content ∧
      MAX_PAGES ≤ bm'.storage_manager.file.length := by
  obtain ⟨bm', h1, h2, h3, h4⟩ := fix_page_ok bm curr hp hl hid
  refine ⟨bm', ?_, h2, h3, h4⟩
  conv_lhs => unfold BTree.erase_loop
  rw [h1]
  have : ((bm.content curr).level == 0) = false := by simpa using hlev
  simp only [bind, Except.bind, SlottedPage.is_leaf, this]
  rfl

/-- The effect of `erase` on a tree that satisfies the invariant: it returns, the
invariant holds again, and exactly the pairs of `key` are gone. -/
theorem erase_spec (t : BTree) (key fuel : Nat) (h : TreeInv t) :
    ∃ bm', BTree.erase (fuel + 2) t key = .ok { t with buffer_manager := bm' } ∧
      TreeInv { t with buffer_manager := bm' } ∧
      (∀ k v, BTree.Stored { t with buffer_manager := bm' } k v ↔ (k ≠ key ∧ t.Stored k v)) := by
  obtain ⟨root, bm, next⟩ := t
  obtain ⟨hp, hl, hs⟩ := h
  simp only at hp hl hs
  unfold BTree.erase
  cases root with
  | none =>
    refine ⟨bm, rfl, ⟨hp, hl, hs⟩, ?_⟩
    intro k v
    constructor
    · intro h; exact absurd h (stored_none _ rfl k v)
    · intro h; exact h.2
  | some r =>
    simp only [Shape] at hs
    have hM : MAX_PAGES = 1000 := rfl
    rcases hs with ⟨h1, hn, hleaf⟩ | hin
    · subst h1
      obtain ⟨bm1, leaf, e1, e2, e3, e4, e5⟩ := erase_loop_leaf bm 1 key (fuel + 1) hp hl
        (by omega) hleaf
      obtain ⟨leaf', s1, s2, s3, s4, s5⟩ :=
        leaf_erase_sem (bm.content 1) key hleaf.2.1 hleaf.2.2
      rw [e5] at s1
      cases s1
      have hc1 : (bm1.write 1 leaf).content 1 = leaf := by
        rw [content_write_small _ _ _ _ (by omega) (by omega), if_pos rfl]
      have hcnt : leaf.count ≤ kCapacity := by
        rcases s4 with ⟨_, h⟩ | ⟨_, h⟩
        · have := hleaf.2.1; omega
        · rw [h]; exact hleaf.2.1
      refine ⟨bm1.write 1 leaf, ?_, ⟨policyOK_write _ _ _ e2, e4, ?_⟩, ?_⟩
      · simp only [e1, bind, Except.bind]
      · simp only [Shape]
        left
        refine ⟨trivial, hn, ?_⟩
        rw [hc1]
        exact ⟨by rw [s2]; exact hleaf.1, hcnt, s3⟩
      · intro k v
        rw [stored_leaf_root _ 1 rfl (by simp only []; rw [hc1, s2]; exact hleaf.1),
          stored_leaf_root _ 1 rfl hleaf.1]
        simp only []
        rw [hc1]
        exact s5 k v
    · obtain ⟨hb1, hb2, hb3⟩ := innerRoot_bounds hin
      obtain ⟨d1, d2, d3⟩ := innerRoot_descent _ _ _ key hin
      have huniq := fun v i => innerRoot_unique _ _ _ key v i hin
      have hlev : (bm.content r).level ≠ 0 := by rw [hin.1]; omega
      obtain ⟨bm1, e1, e2, e3, e4⟩ := erase_loop_inner bm r key (fuel + 1) hp hl
        (by omega) hlev
      obtain ⟨pos, hpos⟩ : ∃ pos, (InnerNode.lower_bound (bm.content r) key).1 = pos := ⟨_, rfl⟩
      rw [hpos] at d1 d2 d3 e1
      simp only [hpos] at huniq
      obtain ⟨cid, hcid⟩ : ∃ cid, rd 0 (bm.content r).children pos = cid := ⟨_, rfl⟩
      have hchild := (hin.2.2.2.2.2.2.1 _ d1)
      have hcid44 := hb3 _ d1
      have hbnd0 := hin.2.2.2.2.2.2.2.2.2 _ d1
      rw [hcid] at hchild hcid44 hbnd0 e1
      obtain ⟨bm2, leaf, f1, f2, f3, f4, f5⟩ := erase_loop_leaf bm1 cid key fuel
        e2 e4 (by omega) (by rw [e3]; exact hchild.2.2.2)
      rw [e3] at f5
      obtain ⟨leaf', s1, s2, s3, s4, s5⟩ :=
        leaf_erase_sem _ key hchild.2.2.2.2.1 hchild.2.2.2.2.2
      rw [f5] at s1
      cases s1
      have hcnt : leaf.count ≤ kCapacity := by
        rcases s4 with ⟨_, h⟩ | ⟨_, h⟩
        · have := hchild.2.2.2.2.1; omega
        · rw [h]; exact hchild.2.2.2.2.1
      have hleaf' : LeafOK leaf := ⟨by rw [s2]; exact hchild.2.2.2.1, hcnt, s3⟩
      have hmem : ∀ q, q < next →
          (bm2.write cid leaf).content q = if q = cid then leaf else bm.content q := by
        intro q hq
        rw [content_write_small _ _ _ _ (by omega) (by omega), f3, e3]
      have hin' := innerRoot_update_leaf _ _ r next pos cid leaf hin d1 hcid hmem hleaf'
        (fun k v hkv => hbnd0 k v ((s5 k v).mp hkv).2)
      obtain ⟨v1, v2⟩ := update_leaf_view _ _ r next pos cid leaf hin d1 hcid hmem
      refine ⟨bm2.write cid leaf, ?_, ⟨policyOK_write _ _ _ f2, f4, ?_⟩, ?_⟩
      · simp only [e1, f1, bind, Except.bind]
      · simp only [Shape]
        right
        exact hin'
      · intro k v
        rw [stored_inner_root _ r rfl hin', stored_inner_root _ r rfl hin]
        simp only []
        rw [v1]
        constructor
        · rintro ⟨i, hi, hs⟩
          rw [v2 i hi] at hs
          split_ifs at hs with hip
          · have := (s5 k v).mp hs
            exact ⟨this.1, i, hi, by rw [hip, hcid]; exact this.2⟩
          · refine ⟨?_, i, hi, hs⟩
            rintro rfl
            exact hip (huniq v i hi hs)
        · rintro ⟨hne, i, hi, hs⟩
          refine ⟨i, hi, ?_⟩
          rw [v2 i hi]
          split_ifs with hip
          · rw [hip, hcid] at hs
            exact (s5 k v).mpr ⟨hne, hs⟩
          · exact hs

/-! ## Insert -/

theorem leaf_split_sem (n dst : SlottedPage) (hc : n.count ≤ kCapacity) (h2 : 2 ≤ n.count)
    (hs : LeafSorted n) :
    ∃ sep l r, LeafNode.split n dst = .ok (sep, l, r) ∧
      l.level = n.level ∧ r.level = dst.level ∧
      l.count = n.count / 2 ∧ r.count = n.count - n.count / 2 ∧
      LeafSorted l ∧ LeafSorted r ∧
      (∀ k v, StoredIn n k v ↔ (StoredIn l k v ∨ StoredIn r k v)) ∧
      (∀ k v, StoredIn l k v → k < sep) ∧ (∀ k v, StoredIn r k v → sep ≤ k) ∧
      (∃ v, StoredIn r sep v) ∧ (∃ k v, StoredIn l k v) := by
  obtain ⟨r, h1, hlev, hcnt, _, hk, hv⟩ := leaf_split_spec n dst hc
  have hk0 := hk 0 (by omega)
  simp only [Nat.add_zero] at hk0
  refine ⟨_, _, r, h1, rfl, hlev, rfl, hcnt, ?_, ?_, ?_, ?_, ?_, ?_, ?_⟩
  · intro i j hij hj
    exact hs i j hij (by simp only [] at hj; omega)
  · intro i j hij hj
    rw [hcnt] at hj
    rw [hk i (by omega), hk j hj]
    exact hs _ _ (by omega) (by omega)
  · intro k v
    constructor
    · rintro ⟨i, hi, hik, hiv⟩
      by_cases h : i < n.count / 2
      · exact Or.inl ⟨i, h, hik, hiv⟩
      · right
        refine ⟨i - n.count / 2, by rw [hcnt]; omega, ?_, ?_⟩
        · rw [hk _ (by omega)]
          have : n.count / 2 + (i - n.count / 2) = i := by omega
          rw [this]; exact hik
        · rw [hv _ (by omega)]
          have : n.count / 2 + (i - n.count / 2) = i := by omega
          rw [this]; exact hiv
    · rintro (⟨i, hi, hik, hiv⟩ | ⟨i, hi, hik, hiv⟩)
      · exact ⟨i, by simp only [] at hi; omega, hik, hiv⟩
      · rw [hcnt] at hi
        rw [hk i hi] at hik
        rw [hv i hi] at hiv
        exact ⟨_, by omega, hik, hiv⟩
  · rintro k v ⟨i, hi, hik, _⟩
    simp only [] at hi hik
    rw [hk0, ← hik]
    exact hs _ _ hi (by omega)
  · rintro k v ⟨i, hi, hik, _⟩
    rw [hcnt] at hi
    rw [hk i hi] at hik
    rw [hk0, ← hik]
    rcases Nat.eq_zero_or_pos i with h0 | h0
    · subst h0; exact le_refl _
    · exact Nat.le_of_lt (hs _ _ (by omega) (by omega))
  · exact ⟨_, 0, by rw [hcnt]; omega, rfl, rfl⟩
  · exact ⟨_, _, 0, by simp only []; omega, rfl, rfl⟩

theorem insert_split_spec (bm : BufferManager) (curr new_page_id : Nat) (leaf : SlottedPage)
    (key value : Nat) (hp : bm.PolicyOK) (hl : MAX_PAGES ≤ bm.storage_manager.file.length)
    (hnew : new_page_id < MAX_PAGES) (hcurr : curr < MAX_PAGES) (hne : curr ≠ new_page_id)
    (hleaf : LeafOK leaf) (hfull : leaf.count = kCapacity) :
    ∃ (sep : Nat) (bm' : BufferManager) (L R : SlottedPage),
      BTree.insert_split bm curr new_page_id leaf key value = .ok (sep, bm') ∧
      bm'.PolicyOK ∧ MAX_PAGES ≤ bm'.storage_manager.file.length ∧
      (∀ q, q < 65536 → bm'.content q =
        if q = curr then L else if q = new_page_id then R else bm.content q) ∧
      LeafOK L ∧ LeafOK R ∧
      (∀ k v, (StoredIn L k v ∨ StoredIn R k v) ↔
        ((k = key ∧ v = value) ∨ (k ≠ key ∧ StoredIn leaf k v))) ∧
      (∀ k v, StoredIn L k v → k < sep) ∧ (∀ k v, StoredIn R k v → sep ≤ k) ∧
      (∃ v, StoredIn R sep v) ∧ (∃ k v, StoredIn leaf k v ∧ k < sep) ∧
      (∃ v, StoredIn leaf sep v) ∧
      (sep ≤ key → L.count = 21 ∧
        (((∃ v, StoredIn leaf key v) ∧ R.count = 21) ∨
          ((¬ ∃ v, StoredIn leaf key v) ∧ R.count = 22))) ∧
      (key < sep → R.count = 21 ∧
        (((∃ v, StoredIn leaf key v) ∧ L.count = 21) ∨
          ((¬ ∃ v, StoredIn leaf key v) ∧ L.count = 22))) := by
  have hk : kCapacity = 42 := rfl
  have hM : MAX_PAGES = 1000 := rfl
  obtain ⟨hlev, hcnt, hsorted⟩ := hleaf
  obtain ⟨bm1, e1, e2, e3, e4⟩ := fix_page_ok bm new_page_id hp hl hnew
  obtain ⟨sep, l1, r1, s1, s2, s3, s4, s5, s6, s7, s8, s9, s10, s11, s12⟩ :=
    leaf_split_sem leaf (bm.content new_page_id).init hcnt (by omega) hsorted
  have hl1 : l1.count = 21 := by rw [s4, hfull, hk]
  have hr1 : r1.count = 21 := by rw [s5, hfull, hk]
  have hr1lev : r1.level = 0 := by rw [s3]; rfl
  have hsepleaf : ∃ v, StoredIn leaf sep v := by
    obtain ⟨v, hv⟩ := s11
    exact ⟨v, (s8 sep v).mpr (Or.inr hv)⟩
  have hlow : ∃ k v, StoredIn leaf k v ∧ k < sep := by
    obtain ⟨k, v, hkv⟩ := s12
    exact ⟨k, v, (s8 k v).mpr (Or.inl hkv), s9 k v hkv⟩
  unfold BTree.insert_split
  rw [e1]
  simp only [bind, Except.bind, s1]
  by_cases hside : sep ≤ key
  · rw [if_pos hside]
    obtain ⟨r2, i1, i2, i3, i4, i5⟩ := leaf_insert_sem r1 key value (by omega) s7
    rw [i1]
    have hinl : ∀ v, ¬ StoredIn l1 key v := fun v hv => by
      have := s9 key v hv; omega
    have hiff : (∃ v, StoredIn r1 key v) ↔ ∃ v, StoredIn leaf key v := by
      constructor
      · rintro ⟨v, hv⟩; exact ⟨v, (s8 key v).mpr (Or.inr hv)⟩
      · rintro ⟨v, hv⟩
        rcases (s8 key v).mp hv with h | h
        · exact absurd h (hinl v)
        · exact ⟨v, h⟩
    refine ⟨sep, _, l1, r2, rfl, policyOK_write _ _ _ (policyOK_write _ _ _
      (policyOK_write _ _ _ e2)), e4, ?_, ⟨by rw [s2]; exact hlev, by omega, s6⟩,
      ⟨by rw [i2]; exact hr1lev, ?_, i3⟩, ?_, s9, ?_, ?_, hlow, hsepleaf, ?_, ?_⟩
    · intro q hq
      rw [content_write_small _ _ _ _ (by omega) hq,
        content_write_small _ _ _ _ (by omega) hq,
        content_write_small _ _ _ _ (by omega) hq, e3]
      split_ifs <;> first | rfl | (exfalso; omega)
    · rcases i4 with ⟨_, h⟩ | ⟨_, h⟩ <;> omega
    · intro k v
      rw [i5 k v, s8 k v]
      constructor
      · rintro (h | h | ⟨h1, h2⟩)
        · exact Or.inr ⟨fun he => hinl v (he ▸ h), Or.inl h⟩
        · exact Or.inl h
        · exact Or.inr ⟨h1, Or.inr h2⟩
      · rintro (h | ⟨h1, h2 | h2⟩)
        · exact Or.inr (Or.inl h)
        · exact Or.inl h2
        · exact Or.inr (Or.inr ⟨h1, h2⟩)
    · intro k v hkv
      rcases (i5 k v).mp hkv with ⟨h, _⟩ | ⟨_, h⟩
      · omega
      · exact s10 k v h
    · obtain ⟨v, hv⟩ := s11
      by_cases he : sep = key
      · exact ⟨value, (i5 sep value).mpr (Or.inl ⟨he, rfl⟩)⟩
      · exact ⟨v, (i5 sep v).mpr (Or.inr ⟨he, hv⟩)⟩
    · intro _
      refine ⟨hl1, ?_⟩
      rcases i4 with ⟨h1, h2⟩ | ⟨h1, h2⟩
      · exact Or.inl ⟨hiff.mp h1, by omega⟩
      · exact Or.inr ⟨fun h => h1 (hiff.mpr h), by omega⟩
    · intro h; omega
  · rw [if_neg hside]
    obtain ⟨l2, i1, i2, i3, i4, i5⟩ := leaf_insert_sem l1 key value (by omega) s6
    rw [i1]
    have hinr : ∀ v, ¬ StoredIn r1 key v := fun v hv => by
      have := s10 key v hv; omega
    have hiff : (∃ v, StoredIn l1 key v) ↔ ∃ v, StoredIn leaf key v := by
      constructor
      · rintro ⟨v, hv⟩; exact ⟨v, (s8 key v).mpr (Or.inl hv)⟩
      · rintro ⟨v, hv⟩
        rcases (s8 key v).mp hv with h | h
        · exact ⟨v, h⟩
        · exact absurd h (hinr v)
    refine ⟨sep, _, l2, r1, rfl, policyOK_write _ _ _ (policyOK_write _ _ _
      (policyOK_write _ _ _ e2)), e4, ?_, ⟨by rw [i2, s2]; exact hlev, ?_, i3⟩,
      ⟨hr1lev, by omega, s7⟩, ?_, ?_, s10, s11, hlow, hsepleaf, ?_, ?_⟩
    · intro q hq
      rw [content_write_small _ _ _ _ (by omega) hq,
        content_write_small _ _ _ _ (by omega) hq,
        content_write_small _ _ _ _ (by omega) hq, e3]
      split_ifs <;> rfl
    · rcases i4 with ⟨_, h⟩ | ⟨_, h⟩ <;> omega
    · intro k v
      rw [i5 k v, s8 k v]
      constructor
      · rintro ((h | ⟨h1, h2⟩) | h)
        · exact Or.inl h
        · exact Or.inr ⟨h1, Or.inl h2⟩
        · exact Or.inr ⟨fun he => hinr v (he ▸ h), Or.inr h⟩
      · rintro (h | ⟨h1, h2 | h2⟩)
        · exact Or.inl (Or.inl h)
        · exact Or.inl (Or.inr ⟨h1, h2⟩)
        · exact Or.inr h2
    · intro k v hkv
      rcases (i5 k v).mp hkv with ⟨h, _⟩ | ⟨_, h⟩
      · omega
      · exact s9 k v h
    · intro h; omega
    · intro _
      refine ⟨hr1, ?_⟩
      rcases i4 with ⟨h1, h2⟩ | ⟨h1, h2⟩
      · exact Or.inl ⟨hiff.mp h1, by omega⟩
      · exact Or.inr ⟨fun h => h1 (hiff.mpr h), by omega⟩

theorem insert_new_root_spec (bm : BufferManager) (curr new_page_id new_root_id separator : Nat)
    (hp : bm.PolicyOK) (hl : MAX_PAGES ≤ bm.storage_manager.file.length)
    (hid : new_root_id < MAX_PAGES) :
    ∃ (bm' : BufferManager) (root : SlottedPage),
      BTree.insert_new_root bm curr new_page_id new_root_id separator = .ok bm' ∧
      bm'.PolicyOK ∧ MAX_PAGES ≤ bm'.storage_manager.file.length ∧
      (∀ q, q < 65536 → bm'.content q = if q = new_root_id then root else bm.content q) ∧
      root.level = 1 ∧ root.count = 2 ∧ rd 0 root.children 0 = curr ∧
      rd 0 root.children 1 = new_page_id ∧ rd 0 root.keys 0 = separator := by
  have hk : kCapacity = 42 := rfl
  have hM : MAX_PAGES = 1000 := rfl
  obtain ⟨bm1, e1, e2, e3, e4⟩ := fix_page_ok bm new_root_id hp hl hid
  unfold BTree.insert_new_root
  rw [e1]
  simp only [bind, Except.bind]
  rw [store_ok _ _ (by omega), store_ok _ _ (by omega)]
  simp only []
  rw [store_ok _ _ (by omega)]
  refine ⟨_, SlottedPage.mk 1 2 (bm.content new_root_id).init.dirty
    (wr 0 (bm.content new_root_id).init.keys 0 separator) (bm.content new_root_id).init.values
    (wr 0 (wr 0 (bm.content new_root_id).init.children 0 curr) 1 new_page_id),
    rfl, policyOK_write _ _ _ e2, e4, ?_, rfl, rfl, ?_, ?_, ?_⟩
  · intro q hq
    rw [content_write_small _ _ _ _ (by omega) hq, e3]
  · simp only [rd_wr]; simp
  · simp only [rd_wr]; simp
  · simp only [rd_wr]; simp

theorem insert_parent_spec (bm : BufferManager) (r curr new_page_id separator ci : Nat)
    (hp : bm.PolicyOK) (hl : MAX_PAGES ≤ bm.storage_manager.file.length)
    (hid : r < MAX_PAGES) (hci : ci < (bm.content r).count)
    (hcnt : (bm.content r).count < kCapacity)
    (heq : rd 0 (bm.content r).children ci = curr)
    (hfirst : ∀ j, j < ci → rd 0 (bm.content r).children j ≠ curr) :
    ∃ (bm' : BufferManager) (P : SlottedPage),
      BTree.insert_parent bm [r, curr] curr new_page_id separator = .ok bm' ∧
      bm'.PolicyOK ∧ MAX_PAGES ≤ bm'.storage_manager.file.length ∧
      (∀ q, q < 65536 → bm'.content q = if q = r then P else bm.content q) ∧
      P.level = (bm.content r).level ∧ P.count = (bm.content r).count + 1 ∧
      (∀ j, rd 0 P.children j =
        if j = ci + 1 then new_page_id
        else if ci + 1 < j ∧ j ≤ (bm.content r).count then rd 0 (bm.content r).children (j - 1)
        else rd 0 (bm.content r).children j) ∧
      (∀ j, rd 0 P.keys j =
        if j = ci then separator
        else if ci < j ∧ j + 1 ≤ (bm.content r).count then rd 0 (bm.content r).keys (j - 1)
        else rd 0 (bm.content r).keys j) := by
  have hk : kCapacity = 42 := rfl
  have hM : MAX_PAGES = 1000 := rfl
  obtain ⟨bm1, e1, e2, e3, e4⟩ := fix_page_ok bm r hp hl hid
  have hidx := child_idx_loop_spec (bm.content r) curr ci hci heq hfirst
    (bm.content r).count 0 (by omega) (by omega)
  obtain ⟨p1, s1, s2, s3, s4, s5, s6, s7⟩ :=
    parent_shift_spec ci (bm.content r).count (bm.content r) hcnt
  unfold BTree.insert_parent
  have hpath : ([r, curr] : List Nat).dropLast.getLastD 0 = r := rfl
  simp only [hpath]
  rw [e1]
  simp only [bind, Except.bind, hidx, s1]
  rw [store_ok _ _ (by omega), store_ok _ _ (by omega)]
  refine ⟨_, SlottedPage.mk p1.level ((p1.count + 1) % 65536) p1.dirty
    (wr 0 p1.keys ci separator) p1.values (wr 0 p1.children (ci + 1) new_page_id),
    rfl, policyOK_write _ _ _ e2, e4, ?_, s2, ?_, ?_, ?_⟩
  · intro q hq
    rw [content_write_small _ _ _ _ (by omega) hq, e3]
  · simp only [s3]; omega
  · intro j; simp only [rd_wr, s6]
  · intro j; simp only [rd_wr, s7]

theorem parent_shift_full (ci : Nat) (p : SlottedPage) (h : ci + 1 < kCapacity) :
    BTree.parent_shift ci kCapacity p = .error .outOfBounds := by
  have h42 : kCapacity = 41 + 1 := rfl
  have hci : ci + 1 < 41 + 1 := by rw [← h42]; exact h
  rw [h42]
  unfold BTree.parent_shift
  rw [if_pos hci, store_err _ _ (by rw [h42])]
  rfl

theorem parent_shift_last (ci : Nat) (p : SlottedPage) (h : ¬ ci + 1 < kCapacity) :
    BTree.parent_shift ci kCapacity p = .ok p := by
  have h42 : kCapacity = 41 + 1 := rfl
  have hci : ¬ ci + 1 < 41 + 1 := by rw [← h42]; exact h
  rw [h42]
  unfold BTree.parent_shift
  rw [if_neg hci]

theorem insert_parent_full (bm : BufferManager) (r curr new_page_id separator ci : Nat)
    (hp : bm.PolicyOK) (hl : MAX_PAGES ≤ bm.storage_manager.file.length)
    (hid : r < MAX_PAGES) (hci : ci < (bm.content r).count)
    (hcnt : (bm.content r).count = kCapacity)
    (heq : rd 0 (bm.content r).children ci = curr)
    (hfirst : ∀ j, j < ci → rd 0 (bm.content r).children j ≠ curr) :
    BTree.insert_parent bm [r, curr] curr new_page_id separator = .error .outOfBounds := by
  have hk : kCapacity = 42 := rfl
  obtain ⟨bm1, e1, e2, e3, e4⟩ := fix_page_ok bm r hp hl hid
  have hidx := child_idx_loop_spec (bm.content r) curr ci hci heq hfirst
    (bm.content r).count 0 (by omega) (by omega)
  unfold BTree.insert_parent
  have hpath : ([r, curr] : List Nat).dropLast.getLastD 0 = r := rfl
  simp only [hpath]
  rw [e1]
  simp only [bind, Except.bind, hidx]
  rw [hcnt]
  by_cases hlast : ci + 1 < kCapacity
  · rw [parent_shift_full ci _ hlast]
  · rw [parent_shift_last ci _ hlast]
    simp only []
    rw [store_err _ _ (by omega)]

theorem insert_loop_leaf (t : BTree) (bm : BufferManager) (path : List Nat)
    (curr key value fuel : Nat) (hp : bm.PolicyOK)
    (hl : MAX_PAGES ≤ bm.storage_manager.file.length) (hid : curr < MAX_PAGES)
    (hlev : (bm.content curr).level = 0) :
    ∃ bm', BTree.insert_loop t key value (fuel + 1) bm path curr =
        BTree.insert_leaf t bm' (path ++ [curr]) curr (bm.content curr) key value ∧
      bm'.PolicyOK ∧ bm'.content = bm.content ∧
      MAX_PAGES ≤ bm'.storage_manager.file.length := by
  obtain ⟨bm', h1, h2, h3, h4⟩ := fix_page_ok bm curr hp hl hid
  refine ⟨bm', ?_, h2, h3, h4⟩
  unfold BTree.insert_loop
  rw [h1]
  simp only [bind, Except.bind, SlottedPage.is_leaf, hlev, beq_self_eq_true, if_true]

theorem insert_loop_inner (t : BTree) (bm : BufferManager) (path : List Nat)
    (curr key value fuel : Nat) (hp : bm.PolicyOK)
    (hl : MAX_PAGES ≤ bm.storage_manager.file.length) (hid : curr < MAX_PAGES)
    (hlev : (bm.content curr).level ≠ 0) :
    ∃ bm', BTree.insert_loop t key value (fuel + 1) bm path curr =
        BTree.insert_loop t key value fuel bm' (path ++ [curr])
          (rd 0 (bm.content curr).children (InnerNode.lower_bound (bm.content curr) key).1) ∧
      bm'.PolicyOK ∧ bm'.content = bm.content ∧
      MAX_PAGES ≤ bm'.storage_manager.file.length := by
  obtain ⟨bm', h1, h2, h3, h4⟩ := fix_page_ok bm curr hp hl hid
  refine ⟨bm', ?_, h2, h3, h4⟩
  conv_lhs => unfold BTree.insert_loop
  rw [h1]
  have : ((bm.content curr).level == 0) = false := by simpa using hlev
  simp only [bind, Except.bind, SlottedPage.is_leaf, this]
  rfl

theorem insert_leaf_notfull (t : BTree) (bm : BufferManager) (path : List Nat)
    (curr key value : Nat) (leaf : SlottedPage) (hc : leaf.count < kCapacity) :
    BTree.insert_leaf t bm path curr leaf key value =
      (LeafNode.insert leaf key value).map
        (fun leaf1 => { t with buffer_manager := bm.write curr leaf1 }) := by
  unfold BTree.insert_leaf
  have : leaf.is_full kCapacity = false := by
    simp [SlottedPage.is_full]; omega
  simp only [this]
  simp only [Bool.false_eq_true, not_false_eq_true, if_true, bind, Except.bind, Except.map]

theorem insert_leaf_full (t : BTree) (bm : BufferManager) (path : List Nat)
    (curr key value : Nat) (leaf : SlottedPage) (hc : leaf.count = kCapacity) :
    BTree.insert_leaf t bm path curr leaf key value =
      (do
        let (separator, bm1) ← BTree.insert_split bm curr t.next_page_id leaf key value
        if path.length = 1 then do
          let bm2 ← BTree.insert_new_root bm1 curr t.next_page_id (t.next_page_id + 1) separator
          .ok { root := some (t.next_page_id + 1), buffer_manager := bm2,
                next_page_id := t.next_page_id + 2 }
        else do
          let bm2 ← BTree.insert_parent bm1 path curr t.next_page_id separator
          .ok { t with buffer_manager := bm2, next_page_id := t.next_page_id + 1 }) := by
  unfold BTree.insert_leaf
  have : leaf.is_full kCapacity = true := by
    simp [SlottedPage.is_full]; omega
  simp only [this]
  simp only [not_true_eq_false, if_false]

/-- Insert into a tree without root. -/
theorem insert_empty (t : BTree) (key value fuel : Nat) (h : TreeInv t) (hr : t.root = none) :
    ∃ (bm' : BufferManager) (leaf : SlottedPage),
      BTree.insert fuel t key value =
        .ok { root := some 1, buffer_manager := bm', next_page_id := 2 } ∧
      bm'.PolicyOK ∧ MAX_PAGES ≤ bm'.storage_manager.file.length ∧
      (∀ q, q < 65536 → bm'.content q = if q = 1 then leaf else t.buffer_manager.content q) ∧
      LeafOK leaf ∧ leaf.count = 1 ∧ rd 0 leaf.keys 0 = key ∧ rd 0 leaf.values 0 = value := by
  obtain ⟨root, bm, next⟩ := t
  obtain ⟨hp, hl, hs⟩ := h
  simp only at hp hl hs hr
  subst hr
  simp only [Shape] at hs
  subst hs
  have hM : MAX_PAGES = 1000 := rfl
  have hk : kCapacity = 42 := rfl
  obtain ⟨bm1, e1, e2, e3, e4⟩ := fix_page_ok bm 1 hp hl (by omega)
  have hsorted : LeafSorted (bm.content 1).init := by
    intro i j _ hj
    exact absurd hj (Nat.not_lt_zero _)
  have hcount : (bm.content 1).init.count = 0 := rfl
  obtain ⟨leaf, i1, i2, i3, i4, i5⟩ :=
    leaf_insert_sem (bm.content 1).init key value (by rw [hcount, hk]; omega) hsorted
  have hnot : ¬ ∃ v, StoredIn (bm.content 1).init key v := by
    rintro ⟨v, i, hi, _⟩
    rw [hcount] at hi
    exact absurd hi (Nat.not_lt_zero _)
  have hc1 : leaf.count = 1 := by
    rcases i4 with ⟨h, _⟩ | ⟨_, h⟩
    · exact absurd h hnot
    · rw [h, hcount]
  obtain ⟨i, hi, hik, hiv⟩ := (i5 key value).mpr (Or.inl ⟨rfl, rfl⟩)
  have hi0 : i = 0 := by omega
  subst hi0
  refine ⟨bm1.write 1 leaf, leaf, ?_, policyOK_write _ _ _ e2, e4, ?_,
    ⟨by rw [i2]; rfl, by omega, i3⟩, hc1, hik, hiv⟩
  · unfold BTree.insert
    simp only [e1, i1, bind, Except.bind]
  · intro q hq
    rw [content_write_small _ _ _ _ (by omega) hq, e3]

/-- Insert into a root leaf with room. -/
theorem insert_leafroot_notfull (t : BTree) (key value fuel : Nat) (h : TreeInv t)
    (hr : t.root = some 1) (hleaf : LeafOK (t.buffer_manager.content 1))
    (hc : (t.buffer_manager.content 1).count < kCapacity) :
    ∃ (bm' : BufferManager) (leaf : SlottedPage),
      BTree.insert (fuel + 1) t key value = .ok { t with buffer_manager := bm' } ∧
      bm'.PolicyOK ∧ MAX_PAGES ≤ bm'.storage_manager.file.length ∧
      (∀ q, q < 65536 → bm'.content q = if q = 1 then leaf else t.buffer_manager.content q) ∧
      LeafNode.insert (t.buffer_manager.content 1) key value = .ok leaf := by
  obtain ⟨root, bm, next⟩ := t
  obtain ⟨hp, hl, hs⟩ := h
  simp only at hp hl hs hr hleaf hc
  subst hr
  have hM : MAX_PAGES = 1000 := rfl
  obtain ⟨bm1, e1, e2, e3, e4⟩ := insert_loop_leaf ⟨some 1, bm, next⟩ bm [] 1 key value fuel
    hp hl (by omega) hleaf.1
  obtain ⟨leaf, i1, _⟩ := leaf_insert_sem (bm.content 1) key value hc hleaf.2.2
  refine ⟨bm1.write 1 leaf, leaf, ?_, policyOK_write _ _ _ e2, e4, ?_, i1⟩
  · unfold BTree.insert
    simp only []
    rw [e1, insert_leaf_notfull _ _ _ _ _ _ _ hc, i1]
    rfl
  · intro q hq
    rw [content_write_small _ _ _ _ (by omega) hq, e3]

/-- Insert into a full root leaf: the leaf is split and a new root is made. -/
theorem insert_leafroot_split (t : BTree) (key value fuel : Nat) (h : TreeInv t)
    (hr : t.root = some 1) (hn : t.next_page_id = 2)
    (hleaf : LeafOK (t.buffer_manager.content 1))
    (hc : (t.buffer_manager.content 1).count = kCapacity) :
    ∃ (bm' : BufferManager) (sep : Nat) (L R root : SlottedPage),
      BTree.insert (fuel + 1) t key value =
        .ok { root := some 3, buffer_manager := bm', next_page_id := 4 } ∧
      bm'.PolicyOK ∧ MAX_PAGES ≤ bm'.storage_manager.file.length ∧
      (∀ q, q < 65536 → bm'.content q =
        if q = 3 then root else if q = 1 then L else if q = 2 then R
        else t.buffer_manager.content q) ∧
      LeafOK L ∧ LeafOK R ∧
      (∀ k v, (StoredIn L k v ∨ StoredIn R k v) ↔
        ((k = key ∧ v = value) ∨ (k ≠ key ∧ StoredIn (t.buffer_manager.content 1) k v))) ∧
      (∀ k v, StoredIn L k v → k < sep) ∧ (∀ k v, StoredIn R k v → sep ≤ k) ∧
      (∃ v, StoredIn R sep v) ∧
      root.level = 1 ∧ root.count = 2 ∧ rd 0 root.children 0 = 1 ∧
      rd 0 root.children 1 = 2 ∧ rd 0 root.keys 0 = sep ∧
      (∃ v, StoredIn (t.buffer_manager.content 1) sep v) ∧
      (sep ≤ key → L.count = 21 ∧
        (((∃ v, StoredIn (t.buffer_manager.content 1) key v) ∧ R.count = 21) ∨
          ((¬ ∃ v, StoredIn (t.buffer_manager.content 1) key v) ∧ R.count = 22))) ∧
      (key < sep → R.count = 21 ∧
        (((∃ v, StoredIn (t.buffer_manager.content 1) key v) ∧ L.count = 21) ∨
          ((¬ ∃ v, StoredIn (t.buffer_manager.content 1) key v) ∧ L.count = 22))) := by
  obtain ⟨root, bm, next⟩ := t
  obtain ⟨hp, hl, hs⟩ := h
  simp only at hp hl hs hr hleaf hc hn
  subst hr hn
  have hM : MAX_PAGES = 1000 := rfl
  obtain ⟨bm1, e1, e2, e3, e4⟩ := insert_loop_leaf ⟨some 1, bm, 2⟩ bm [] 1 key value fuel
    hp hl (by omega) hleaf.1
  obtain ⟨sep, bm2, L, R, s1, s2, s3, s4, s5, s6, s7, s8, s9, s10, _, s12, s13, s14⟩ :=
    insert_split_spec bm1 1 2 (bm.content 1) key value e2 e4 (by omega) (by omega)
      (by omega) hleaf hc
  obtain ⟨bm3, rt, r1, r2, r3, r4, r5, r6, r7, r8, r9⟩ :=
    insert_new_root_spec bm2 1 2 3 sep s2 s3 (by omega)
  refine ⟨bm3, sep, L, R, rt, ?_, r2, r3, ?_, s5, s6, s7, s8, s9, s10, r5, r6, r7, r8, r9,
    s12, s13, s14⟩
  · unfold BTree.insert
    simp only []
    rw [e1, insert_leaf_full _ _ _ _ _ _ _ hc]
    simp only [s1, bind, Except.bind, List.nil_append, List.length_singleton, if_true, r1]
  · intro q hq
    rw [r4 q hq, s4 q hq, e3]

/-- Insert below an inner root into a leaf with room. -/
theorem insert_inner_notfull (t : BTree) (key value fuel r pos cid : Nat) (h : TreeInv t)
    (hr : t.root = some r) (hin : InnerRoot t.buffer_manager.content r t.next_page_id)
    (hpos : (InnerNode.lower_bound (t.buffer_manager.content r) key).1 = pos)
    (hcid : rd 0 (t.buffer_manager.content r).children pos = cid)
    (hc : (t.buffer_manager.content cid).count < kCapacity) :
    ∃ (bm' : BufferManager) (leaf : SlottedPage),
      BTree.insert (fuel + 2) t key value = .ok { t with buffer_manager := bm' } ∧
      bm'.PolicyOK ∧ MAX_PAGES ≤ bm'.storage_manager.file.length ∧
      (∀ q, q < 65536 → bm'.content q = if q = cid then leaf else t.buffer_manager.content q) ∧
      LeafNode.insert (t.buffer_manager.content cid) key value = .ok leaf := by
  obtain ⟨root, bm, next⟩ := t
  obtain ⟨hp, hl, hs⟩ := h
  simp only at hp hl hs hr hin hc hpos hcid
  subst hr
  have hM : MAX_PAGES = 1000 := rfl
  obtain ⟨hb1, hb2, hb3⟩ := innerRoot_bounds hin
  obtain ⟨d1, d2, d3⟩ := innerRoot_descent _ _ _ key hin
  rw [hpos] at d1 d2 d3
  have hchild := (hin.2.2.2.2.2.2.1 _ d1)
  have hcid44 := hb3 _ d1
  rw [hcid] at hchild hcid44
  have hlev : (bm.content r).level ≠ 0 := by rw [hin.1]; omega
  obtain ⟨bm1, e1, e2, e3, e4⟩ := insert_loop_inner ⟨some r, bm, next⟩ bm [] r key value
    (fuel + 1) hp hl (by omega) hlev
  rw [hpos, hcid] at e1
  obtain ⟨bm2, f1, f2, f3, f4⟩ := insert_loop_leaf ⟨some r, bm, next⟩ bm1 ([] ++ [r]) cid
    key value fuel e2 e4 (by omega) (by rw [e3]; exact hchild.2.2.2.1)
  rw [e3] at f1
  obtain ⟨leaf, i1, _⟩ := leaf_insert_sem (bm.content cid) key value hc hchild.2.2.2.2.2
  refine ⟨bm2.write cid leaf, leaf, ?_, policyOK_write _ _ _ f2, f4, ?_, i1⟩
  · unfold BTree.insert
    simp only []
    rw [e1, f1, insert_leaf_notfull _ _ _ _ _ _ _ hc, i1]
    rfl
  · intro q hq
    rw [content_write_small _ _ _ _ (by omega) hq, f3, e3]

/-- Insert below an inner root with `kCapacity` children into a full leaf: the write of
the separator and of the new child goes past the arrays of the root. -/
theorem insert_inner_full (t : BTree) (key value fuel r pos cid : Nat) (h : TreeInv t)
    (hr : t.root = some r) (hin : InnerRoot t.buffer_manager.content r t.next_page_id)
    (hpos : (InnerNode.lower_bound (t.buffer_manager.content r) key).1 = pos)
    (hcid : rd 0 (t.buffer_manager.content r).children pos = cid)
    (hc : (t.buffer_manager.content cid).count = kCapacity)
    (hrc : (t.buffer_manager.content r).count = kCapacity) :
    BTree.insert (fuel + 2) t key value = .error .outOfBounds := by
  obtain ⟨root, bm, next⟩ := t
  obtain ⟨hp, hl, hs⟩ := h
  simp only at hp hl hs hr hin hc hpos hcid hrc
  subst hr
  have hM : MAX_PAGES = 1000 := rfl
  obtain ⟨hb1, hb2, hb3⟩ := innerRoot_bounds hin
  obtain ⟨d1, d2, d3⟩ := innerRoot_descent _ _ _ key hin
  rw [hpos] at d1 d2 d3
  have hchild := (hin.2.2.2.2.2.2.1 _ d1)
  have hcid44 := hb3 _ d1
  rw [hcid] at hchild hcid44
  have hlev : (bm.content r).level ≠ 0 := by rw [hin.1]; omega
  obtain ⟨bm1, e1, e2, e3, e4⟩ := insert_loop_inner ⟨some r, bm, next⟩ bm [] r key value
    (fuel + 1) hp hl (by omega) hlev
  rw [hpos, hcid] at e1
  obtain ⟨bm2, f1, f2, f3, f4⟩ := insert_loop_leaf ⟨some r, bm, next⟩ bm1 ([] ++ [r]) cid
    key value fuel e2 e4 (by omega) (by rw [e3]; exact hchild.2.2.2.1)
  rw [e3] at f1
  have hnext : next = (bm.content r).count + 2 := hin.2.2.2.1
  obtain ⟨sep, bm3, L, R, s1, s2, s3, s4, _⟩ :=
    insert_split_spec bm2 cid next (bm.content cid) key value f2 f4 (by omega) (by omega)
      (by omega) hchild.2.2.2 hc
  have hrn : r < next := hin.2.2.2.2.2.1
  have hroot3 : bm3.content r = bm.content r := by
    rw [s4 r (by omega), if_neg (Ne.symm hchild.2.2.1), if_neg (by omega), f3, e3]
  have hfull := insert_parent_full bm3 r cid next sep pos s2 s3 (by omega)
    (by rw [hroot3]; exact d1) (by rw [hroot3]; exact hrc) (by rw [hroot3]; exact hcid)
    (by
      intro j hj
      rw [hroot3, ← hcid]
      exact hin.2.2.2.2.2.2.2.1 j pos hj d1)
  unfold BTree.insert
  simp only []
  rw [e1, f1, insert_leaf_full _ _ _ _ _ _ _ hc]
  simp only [s1, bind, Except.bind, List.nil_append, List.length_append, List.length_singleton]
  simp only [show ¬ (1 + 1 = 1) by omega, if_false]
  rw [show ([r] ++ [cid] : List Nat) = [r, cid] from rfl, hfull]

theorem innerRoot_mono {mem : Nat → SlottedPage} {r next : Nat} (h : InnerRoot mem r next) :
    ∀ a b, a ≤ b → b + 1 < (mem r).count → rd 0 (mem r).keys a ≤ rd 0 (mem r).keys b := by
  intro a b hab hb
  rcases Nat.eq_or_lt_of_le hab with he | hl
  · subst he; exact le_refl _
  · exact Nat.le_of_lt (h.2.2.2.2.2.2.2.2.1 a b hl hb)

/-- The pages seen from the root after a leaf split below an inner root. -/
theorem split_view (mem mem' : Nat → SlottedPage) (r next pos cid : Nat)
    (L R P : SlottedPage) (hin : InnerRoot mem r next) (hpos : pos < (mem r).count)
    (hcid : rd 0 (mem r).children pos = cid)
    (hmem : ∀ q, q < next + 1 → mem' q =
      if q = r then P else if q = cid then L else if q = next then R else mem q)
    (hPch : ∀ j, rd 0 P.children j =
      if j = pos + 1 then next
      else if pos + 1 < j ∧ j ≤ (mem r).count then rd 0 (mem r).children (j - 1)
      else rd 0 (mem r).children j) :
    mem' r = P ∧ ∀ j, j < (mem r).count + 1 →
      1 ≤ rd 0 P.children j ∧ rd 0 P.children j < next + 1 ∧ rd 0 P.children j ≠ r ∧
      mem' (rd 0 P.children j) =
        if j = pos then L else if j = pos + 1 then R
        else if j < pos then mem (rd 0 (mem r).children j)
        else mem (rd 0 (mem r).children (j - 1)) := by
  obtain ⟨hlev, hc2, hc42, hnext, hr1, hrn, hch, hdist, hsep, hbnd⟩ := hin
  subst hcid
  constructor
  · rw [hmem r (by omega), if_pos rfl]
  · intro j hj
    rw [hPch j]
    by_cases h1 : j = pos + 1
    · rw [if_pos h1]
      refine ⟨by omega, by omega, by omega, ?_⟩
      rw [hmem next (by omega), if_neg (by omega), if_neg (by have := (hch pos hpos).2.1; omega),
        if_pos rfl, if_neg (by omega), if_pos h1]
    · rw [if_neg h1]
      by_cases h2 : pos + 1 < j ∧ j ≤ (mem r).count
      · rw [if_pos h2]
        obtain ⟨c1, c2, c3, _⟩ := hch (j - 1) (by omega)
        refine ⟨c1, by omega, c3, ?_⟩
        rw [hmem _ (by omega), if_neg c3, if_neg (fun he => hdist pos (j - 1) (by omega) (by omega) he.symm),
          if_neg (by omega), if_neg (by omega), if_neg h1, if_neg (by omega)]
      · rw [if_neg h2]
        obtain ⟨c1, c2, c3, _⟩ := hch j (by omega)
        refine ⟨c1, by omega, c3, ?_⟩
        rw [hmem _ (by omega), if_neg c3]
        by_cases h3 : j = pos
        · subst h3; rw [if_pos rfl, if_pos rfl]
        · rw [if_neg (fun he => hdist j pos (by omega) hpos he), if_neg (by omega), if_neg h3,
            if_neg h1, if_pos (by omega)]

/-- The shape of an inner root is kept when one of its leaves is split and the
separator and the new leaf are put into the root. -/
theorem innerRoot_split (mem mem' : Nat → SlottedPage) (r next pos cid sep : Nat)
    (L R P : SlottedPage) (hin : InnerRoot mem r next) (hpos : pos < (mem r).count)
    (hcid : rd 0 (mem r).children pos = cid) (hrc : (mem r).count < kCapacity)
    (hmem : ∀ q, q < next + 1 → mem' q =
      if q = r then P else if q = cid then L else if q = next then R else mem q)
    (hL : LeafOK L) (hR : LeafOK R)
    (hLb : ∀ k v, StoredIn L k v → k < sep ∧ (0 < pos → rd 0 (mem r).keys (pos - 1) ≤ k))
    (hRb : ∀ k v, StoredIn R k v →
      sep ≤ k ∧ (pos + 1 < (mem r).count → k < rd 0 (mem r).keys pos))
    (hsep1 : 0 < pos → rd 0 (mem r).keys (pos - 1) < sep)
    (hsep2 : pos + 1 < (mem r).count → sep < rd 0 (mem r).keys pos)
    (hPl : P.level = (mem r).level) (hPc : P.count = (mem r).count + 1)
    (hPch : ∀ j, rd 0 P.children j =
      if j = pos + 1 then next
      else if pos + 1 < j ∧ j ≤ (mem r).count then rd 0 (mem r).children (j - 1)
      else rd 0 (mem r).children j)
    (hPk : ∀ j, rd 0 P.keys j =
      if j = pos then sep
      else if pos < j ∧ j + 1 ≤ (mem r).count then rd 0 (mem r).keys (j - 1)
      else rd 0 (mem r).keys j) :
    InnerRoot mem' r (next + 1) := by
  obtain ⟨v1, v2⟩ := split_view mem mem' r next pos cid L R P hin hpos hcid hmem hPch
  have hmono := innerRoot_mono hin
  obtain ⟨hlev, hc2, hc42, hnext, hr1, hrn, hch, hdist, hsep, hbnd⟩ := hin
  unfold InnerRoot
  rw [v1, hPc]
  refine ⟨by rw [hPl]; exact hlev, by omega, by omega, by omega, hr1, by omega, ?_, ?_, ?_, ?_⟩
  · intro j hj
    obtain ⟨a1, a2, a3, a4⟩ := v2 j hj
    refine ⟨a1, a2, a3, ?_⟩
    rw [a4]
    split_ifs
    · exact hL
    · exact hR
    · exact (hch j (by omega)).2.2.2
    · exact (hch (j - 1) (by omega)).2.2.2
  · intro i j hij hj
    rw [hPch i, hPch j]
    have d1 := hdist i j hij
    have d2 := hdist i (j - 1)
    have d3 := hdist (i - 1) (j - 1)
    have b1 := fun h => (hch i h).2.1
    have b2 := fun h => (hch (i - 1) h).2.1
    have b3 := fun h => (hch j h).2.1
    have b4 := fun h => (hch (j - 1) h).2.1
    split_ifs <;> omega
  · intro i j hij hj
    rw [hPk i, hPk j]
    have d1 := hsep i j hij
    have d2 := hsep i (j - 1)
    have d3 := hsep (i - 1) (j - 1)
    have m1 := hmono i (pos - 1)
    have m2 := hmono pos (j - 1)
    split_ifs <;> omega
  · intro j hj k v hs
    rw [(v2 j hj).2.2.2] at hs
    rw [hPk j, hPk (j - 1)]
    have o1 := hbnd j
    have o2 := hbnd (j - 1)
    by_cases h1 : j = pos
    · subst h1
      rw [if_pos rfl] at hs
      obtain ⟨l1, l2⟩ := hLb k v hs
      rw [if_pos rfl]
      refine ⟨fun h0 => ?_, fun _ => l1⟩
      rw [if_neg (by omega), if_neg (by omega)]
      exact l2 h0
    · rw [if_neg h1] at hs
      by_cases h2 : j = pos + 1
      · subst h2
        rw [if_pos rfl] at hs
        obtain ⟨l1, l2⟩ := hRb k v hs
        refine ⟨fun _ => ?_, fun hlt => ?_⟩
        · rw [if_pos (by omega)]; exact l1
        · rw [if_neg (by omega), if_pos (by omega)]
          have : pos + 1 - 1 = pos := by omega
          rw [this]
          exact l2 (by omega)
      · rw [if_neg h2] at hs
        by_cases h3 : j < pos
        · rw [if_pos h3] at hs
          obtain ⟨l1, l2⟩ := hbnd j (by omega) k v hs
          refine ⟨fun h0 => ?_, fun _ => ?_⟩
          · rw [if_neg (by omega), if_neg (by omega)]; exact l1 h0
          · rw [if_neg (by omega), if_neg (by omega)]; exact l2 (by omega)
        · rw [if_neg h3] at hs
          obtain ⟨l1, l2⟩ := hbnd (j - 1) (by omega) k v hs
          refine ⟨fun h0 => ?_, fun hlt => ?_⟩
          · rw [if_neg (by omega), if_pos (by omega)]
            have : j - 1 - 1 = j - 1 - 1 := rfl
            exact l1 (by omega)
          · rw [if_neg (by omega), if_pos (by omega)]
            exact l2 (by omega)

/-- The pairs stored under the root after a leaf split. -/
theorem stored_split (mem mem' : Nat → SlottedPage) (r next pos cid : Nat)
    (L R P : SlottedPage) (hin : InnerRoot mem r next) (hpos : pos < (mem r).count)
    (hcid : rd 0 (mem r).children pos = cid)
    (hmem : ∀ q, q < next + 1 → mem' q =
      if q = r then P else if q = cid then L else if q = next then R else mem q)
    (hPc : P.count = (mem r).count + 1)
    (hPch : ∀ j, rd 0 P.children j =
      if j = pos + 1 then next
      else if pos + 1 < j ∧ j ≤ (mem r).count then rd 0 (mem r).children (j - 1)
      else rd 0 (mem r).children j) (k v : Nat) :
    (∃ i, i < (mem' r).count ∧ StoredIn (mem' (rd 0 (mem' r).children i)) k v) ↔
      (StoredIn L k v ∨ StoredIn R k v ∨
        ∃ i, i < (mem r).count ∧ i ≠ pos ∧ StoredIn (mem (rd 0 (mem r).children i)) k v) := by
  obtain ⟨v1, v2⟩ := split_view mem mem' r next pos cid L R P hin hpos hcid hmem hPch
  rw [v1, hPc]
  constructor
  · rintro ⟨i, hi, hs⟩
    rw [(v2 i hi).2.2.2] at hs
    split_ifs at hs with c1 c2 c3
    · exact Or.inl hs
    · exact Or.inr (Or.inl hs)
    · exact Or.inr (Or.inr ⟨i, by omega, by omega, hs⟩)
    · exact Or.inr (Or.inr ⟨i - 1, by omega, by omega, hs⟩)
  · rintro (hs | hs | ⟨i, hi, hne, hs⟩)
    · refine ⟨pos, by omega, ?_⟩
      rw [(v2 pos (by omega)).2.2.2, if_pos rfl]; exact hs
    · refine ⟨pos + 1, by omega, ?_⟩
      rw [(v2 (pos + 1) (by omega)).2.2.2, if_neg (by omega), if_pos rfl]; exact hs
    · by_cases h : i < pos
      · refine ⟨i, by omega, ?_⟩
        rw [(v2 i (by omega)).2.2.2, if_neg (by omega), if_neg (by omega), if_pos h]; exact hs
      · refine ⟨i + 1, by omega, ?_⟩
        rw [(v2 (i + 1) (by omega)).2.2.2, if_neg (by omega), if_neg (by omega),
          if_neg (by omega)]
        exact hs

/-- Insert below an inner root with room into a full leaf: the leaf is split and the
separator and the new leaf go into the root. -/
theorem insert_inner_split (t : BTree) (key value fuel r pos cid : Nat) (h : TreeInv t)
    (hr : t.root = some r) (hin : InnerRoot t.buffer_manager.content r t.next_page_id)
    (hpos : (InnerNode.lower_bound (t.buffer_manager.content r) key).1 = pos)
    (hcid : rd 0 (t.buffer_manager.content r).children pos = cid)
    (hc : (t.buffer_manager.content cid).count = kCapacity)
    (hrc : (t.buffer_manager.content r).count < kCapacity) :
    ∃ (bm' : BufferManager) (sep : Nat) (L R P : SlottedPage),
      BTree.insert (fuel + 2) t key value =
        .ok { t with buffer_manager := bm', next_page_id := t.next_page_id + 1 } ∧
      bm'.PolicyOK ∧ MAX_PAGES ≤ bm'.storage_manager.file.length ∧
      (∀ q, q < 65536 → bm'.content q =
        if q = r then P else if q = cid then L else if q = t.next_page_id then R
        else t.buffer_manager.content q) ∧
      LeafOK L ∧ LeafOK R ∧
      (∀ k v, (StoredIn L k v ∨ StoredIn R k v) ↔
        ((k = key ∧ v = value) ∨ (k ≠ key ∧ StoredIn (t.buffer_manager.content cid) k v))) ∧
      (∀ k v, StoredIn L k v → k < sep) ∧ (∀ k v, StoredIn R k v → sep ≤ k) ∧
      (∃ v, StoredIn R sep v) ∧
      (∃ k v, StoredIn (t.buffer_manager.content cid) k v ∧ k < sep) ∧
      (∃ v, StoredIn (t.buffer_manager.content cid) sep v) ∧
      (sep ≤ key → L.count = 21 ∧
        (((∃ v, StoredIn (t.buffer_manager.content cid) key v) ∧ R.count = 21) ∨
          ((¬ ∃ v, StoredIn (t.buffer_manager.content cid) key v) ∧ R.count = 22))) ∧
      (key < sep → R.count = 21 ∧
        (((∃ v, StoredIn (t.buffer_manager.content cid) key v) ∧ L.count = 21) ∨
          ((¬ ∃ v, StoredIn (t.buffer_manager.content cid) key v) ∧ L.count = 22))) ∧
      P.level = (t.buffer_manager.content r).level ∧
      P.count = (t.buffer_manager.content r).count + 1 ∧
      (∀ j, rd 0 P.children j =
        if j = pos + 1 then t.next_page_id
        else if pos + 1 < j ∧ j ≤ (t.buffer_manager.content r).count then
          rd 0 (t.buffer_manager.content r).children (j - 1)
        else rd 0 (t.buffer_manager.content r).children j) ∧
      (∀ j, rd 0 P.keys j =
        if j = pos then sep
        else if pos < j ∧ j + 1 ≤ (t.buffer_manager.content r).count then
          rd 0 (t.buffer_manager.content r).keys (j - 1)
        else rd 0 (t.buffer_manager.content r).keys j) := by
  obtain ⟨root, bm, next⟩ := t
  obtain ⟨hp, hl, hs⟩ := h
  simp only at hp hl hs hr hin hc hpos hcid hrc
  subst hr
  have hM : MAX_PAGES = 1000 := rfl
  obtain ⟨hb1, hb2, hb3⟩ := innerRoot_bounds hin
  obtain ⟨d1, d2, d3⟩ := innerRoot_descent _ _ _ key hin
  rw [hpos] at d1 d2 d3
  have hchild := (hin.2.2.2.2.2.2.1 _ d1)
  have hcid44 := hb3 _ d1
  rw [hcid] at hchild hcid44
  have hlev : (bm.content r).level ≠ 0 := by rw [hin.1]; omega
  obtain ⟨bm1, e1, e2, e3, e4⟩ := insert_loop_inner ⟨some r, bm, next⟩ bm [] r key value
    (fuel + 1) hp hl (by omega) hlev
  rw [hpos, hcid] at e1
  obtain ⟨bm2, f1, f2, f3, f4⟩ := insert_loop_leaf ⟨some r, bm, next⟩ bm1 ([] ++ [r]) cid
    key value fuel e2 e4 (by omega) (by rw [e3]; exact hchild.2.2.2.1)
  rw [e3] at f1
  have hnext : next = (bm.content r).count + 2 := hin.2.2.2.1
  have hrn : r < next := hin.2.2.2.2.2.1
  obtain ⟨sep, bm3, L, R, s1, s2, s3, s4, s5, s6, s7, s8, s9, s10, s11, s12, s13, s14⟩ :=
    insert_split_spec bm2 cid next (bm.content cid) key value f2 f4 (by omega) (by omega)
      (by omega) hchild.2.2.2 hc
  have hroot3 : bm3.content r = bm.content r := by
    rw [s4 r (by omega), if_neg (Ne.symm hchild.2.2.1), if_neg (by omega), f3, e3]
  obtain ⟨bm4, P, p1, p2, p3, p4, p5, p6, p7, p8⟩ :=
    insert_parent_spec bm3 r cid next sep pos s2 s3 (by omega)
      (by rw [hroot3]; exact d1) (by rw [hroot3]; exact hrc) (by rw [hroot3]; exact hcid)
      (by
        intro j hj
        rw [hroot3, ← hcid]
        exact hin.2.2.2.2.2.2.2.1 j pos hj d1)
  rw [hroot3] at p5 p6 p7 p8
  refine ⟨bm4, sep, L, R, P, ?_, p2, p3, ?_, s5, s6, s7, s8, s9, s10, s11, s12, s13, s14,
    p5, p6, p7, p8⟩
  · unfold BTree.insert
    simp only []
    rw [e1, f1, insert_leaf_full _ _ _ _ _ _ _ hc]
    simp only [s1, bind, Except.bind, List.nil_append, List.length_append,
      List.length_singleton]
    simp only [show ¬ (1 + 1 = 1) by omega, if_false]
    rw [show ([r] ++ [cid] : List Nat) = [r, cid] from rfl, p1]
  · intro q hq
    rw [p4 q hq, s4 q hq, f3, e3]

/-- The shape of the new root made by the first split. -/
theorem innerRoot_new (mem' : Nat → SlottedPage) (sep : Nat) (L R root : SlottedPage)
    (h3 : mem' 3 = root) (h1 : mem' 1 = L) (h2 : mem' 2 = R)
    (hL : LeafOK L) (hR : LeafOK R)
    (hLb : ∀ k v, StoredIn L k v → k < sep) (hRb : ∀ k v, StoredIn R k v → sep ≤ k)
    (hl : root.level = 1) (hc : root.count = 2) (hc0 : rd 0 root.children 0 = 1)
    (hc1 : rd 0 root.children 1 = 2) (hk0 : rd 0 root.keys 0 = sep) :
    InnerRoot mem' 3 4 ∧
    ∀ k v, (∃ i, i < (mem' 3).count ∧ StoredIn (mem' (rd 0 (mem' 3).children i)) k v) ↔
      (StoredIn L k v ∨ StoredIn R k v) := by
  have hk : kCapacity = 42 := rfl
  have hchild : ∀ i, i < 2 → (i = 0 ∧ rd 0 root.children i = 1) ∨
      (i = 1 ∧ rd 0 root.children i = 2) := by
    intro i hi
    rcases Nat.lt_or_ge i 1 with h | h
    · left
      have : i = 0 := by omega
      subst this; exact ⟨rfl, hc0⟩
    · right
      have : i = 1 := by omega
      subst this; exact ⟨rfl, hc1⟩
  constructor
  · unfold InnerRoot
    rw [h3, hc]
    refine ⟨hl, by omega, by omega, by omega, by omega, by omega, ?_, ?_, ?_, ?_⟩
    · intro i hi
      rcases hchild i hi with ⟨_, h⟩ | ⟨_, h⟩
      · rw [h, h1]; exact ⟨by omega, by omega, by omega, hL⟩
      · rw [h, h2]; exact ⟨by omega, by omega, by omega, hR⟩
    · intro i j hij hj
      rcases hchild i (by omega) with ⟨_, hi⟩ | ⟨_, hi⟩ <;>
      rcases hchild j hj with ⟨_, hj'⟩ | ⟨_, hj'⟩ <;> omega
    · intro i j hij hj; omega
    · intro i hi k v hs
      rcases hchild i hi with ⟨hi0, h⟩ | ⟨hi1, h⟩
      · subst hi0
        rw [h, h1] at hs
        refine ⟨fun h0 => absurd h0 (lt_irrefl _), fun _ => ?_⟩
        rw [hk0]; exact hLb k v hs
      · subst hi1
        rw [h, h2] at hs
        refine ⟨fun _ => ?_, fun h0 => by omega⟩
        rw [show 1 - 1 = 0 from rfl, hk0]; exact hRb k v hs
  · intro k v
    rw [h3, hc]
    constructor
    · rintro ⟨i, hi, hs⟩
      rcases hchild i hi with ⟨_, h⟩ | ⟨_, h⟩
      · rw [h, h1] at hs; exact Or.inl hs
      · rw [h, h2] at hs; exact Or.inr hs
    · rintro (hs | hs)
      · exact ⟨0, by omega, by rw [hc0, h1]; exact hs⟩
      · exact ⟨1, by omega, by rw [hc1, h2]; exact hs⟩

theorem insert_loop_zero (t : BTree) (key value : Nat) (bm : BufferManager) (path : List Nat)
    (curr : Nat) : BTree.insert_loop t key value 0 bm path curr = .error .outOfFuel := rfl

/-- The effect of `insert` on a tree that satisfies the invariant, when it returns: the
invariant holds again and the tree stores the new pair and the old pairs of all other
keys. -/
theorem insert_spec (t t' : BTree) (key value fuel : Nat) (h : TreeInv t)
    (hok : BTree.insert fuel t key value = .ok t') :
    TreeInv t' ∧
    ∀ k v, t'.Stored k v ↔ ((k = key ∧ v = value) ∨ (k ≠ key ∧ t.Stored k v)) := by
  have hk : kCapacity = 42 := rfl
  have hM : MAX_PAGES = 1000 := rfl
  cases hroot : t.root with
  | none =>
    obtain ⟨bm', leaf, e1, e2, e3, e4, e5, e6, e7, e8⟩ := insert_empty t key value fuel h hroot
    rw [e1] at hok
    cases hok
    have hc1 : bm'.content 1 = leaf := by rw [e4 1 (by omega), if_pos rfl]
    refine ⟨⟨e2, e3, ?_⟩, ?_⟩
    · simp only [Shape]
      left
      exact ⟨trivial, trivial, by rw [hc1]; exact e5⟩
    · intro k v
      rw [stored_leaf_root _ 1 rfl (by simp only []; rw [hc1]; exact e5.1)]
      simp only []
      rw [hc1]
      constructor
      · rintro ⟨i, hi, hik, hiv⟩
        have : i = 0 := by omega
        subst this
        exact Or.inl ⟨by rw [← hik, e7], by rw [← hiv, e8]⟩
      · rintro (⟨hk', hv'⟩ | ⟨_, hs⟩)
        · exact ⟨0, by omega, by rw [e7, hk'], by rw [e8, hv']⟩
        · exact absurd hs (stored_none t hroot k v)
  | some r =>
    have hshape := h.2.2
    rw [hroot] at hshape
    simp only [Shape] at hshape
    rcases hshape with ⟨hr1, hn, hleaf⟩ | hin
    · subst hr1
      cases fuel with
      | zero =>
        unfold BTree.insert at hok
        rw [hroot] at hok
        simp only [insert_loop_zero] at hok
        cases hok
      | succ f =>
        rcases Nat.lt_or_ge (t.buffer_manager.content 1).count kCapacity with hc | hc
        · obtain ⟨bm', leaf, e1, e2, e3, e4, e5⟩ :=
            insert_leafroot_notfull t key value f h hroot hleaf hc
          rw [e1] at hok
          cases hok
          obtain ⟨leaf', i1, i2, i3, i4, i5⟩ :=
            leaf_insert_sem _ key value hc hleaf.2.2
          rw [e5] at i1
          cases i1
          have hc1 : bm'.content 1 = leaf := by rw [e4 1 (by omega), if_pos rfl]
          have hlo : LeafOK leaf := by
            refine ⟨by rw [i2]; exact hleaf.1, ?_, i3⟩
            rcases i4 with ⟨_, hh⟩ | ⟨_, hh⟩ <;> omega
          refine ⟨⟨e2, e3, ?_⟩, ?_⟩
          · simp only [hroot, Shape]
            left
            exact ⟨trivial, hn, by rw [hc1]; exact hlo⟩
          · intro k v
            rw [stored_leaf_root { t with buffer_manager := bm' } 1 hroot
                (by simp only []; rw [hc1]; exact hlo.1),
              stored_leaf_root t 1 hroot hleaf.1]
            simp only []
            rw [hc1]
            exact i5 k v
        · have hc' : (t.buffer_manager.content 1).count = kCapacity := by
            have := hleaf.2.1; omega
          obtain ⟨bm', sep, L, R, root, e1, e2, e3, e4, e5, e6, e7, e8, e9, e10, e11, e12,
            e13, e14, e15, _⟩ := insert_leafroot_split t key value f h hroot hn hleaf hc'
          rw [e1] at hok
          cases hok
          obtain ⟨n1, n2⟩ := innerRoot_new bm'.content sep L R root
            (by rw [e4 3 (by omega), if_pos rfl])
            (by rw [e4 1 (by omega), if_neg (by omega), if_pos rfl])
            (by rw [e4 2 (by omega), if_neg (by omega), if_neg (by omega), if_pos rfl])
            e5 e6 e8 e9 e11 e12 e13 e14 e15
          refine ⟨⟨e2, e3, ?_⟩, ?_⟩
          · simp only [Shape]
            right
            exact n1
          · intro k v
            rw [stored_inner_root ⟨some 3, bm', 4⟩ 3 rfl n1, stored_leaf_root t 1 hroot hleaf.1]
            simp only []
            rw [n2 k v]
            exact e7 k v
    · obtain ⟨pos, hpos⟩ : ∃ pos,
          (InnerNode.lower_bound (t.buffer_manager.content r) key).1 = pos := ⟨_, rfl⟩
      obtain ⟨cid, hcid⟩ : ∃ cid, rd 0 (t.buffer_manager.content r).children pos = cid :=
        ⟨_, rfl⟩
      obtain ⟨hb1, hb2, hb3⟩ := innerRoot_bounds hin
      obtain ⟨d1, d2, d3⟩ := innerRoot_descent _ _ _ key hin
      have huniq := fun v i => innerRoot_unique _ _ _ key v i hin
      rw [hpos] at d1 d2 d3
      simp only [hpos] at huniq
      have hchild := (hin.2.2.2.2.2.2.1 _ d1)
      have hbnd0 := hin.2.2.2.2.2.2.2.2.2 _ d1
      have hcid44 := hb3 _ d1
      rw [hcid] at hchild hbnd0 hcid44
      have hlev : (t.buffer_manager.content r).level ≠ 0 := by rw [hin.1]; omega
      have hnext : t.next_page_id = (t.buffer_manager.content r).count + 2 := hin.2.2.2.1
      cases fuel with
      | zero =>
        unfold BTree.insert at hok
        rw [hroot] at hok
        simp only [insert_loop_zero] at hok
        cases hok
      | succ f =>
        cases f with
        | zero =>
          obtain ⟨bm1, e1, _⟩ := insert_loop_inner t t.buffer_manager [] r key value 0
            h.1 h.2.1 (by omega) hlev
          unfold BTree.insert at hok
          rw [hroot] at hok
          simp only [] at hok
          rw [e1, insert_loop_zero] at hok
          cases hok
        | succ f =>
          rcases Nat.lt_or_ge (t.buffer_manager.content cid).count kCapacity with hc | hc
          · obtain ⟨bm', leaf, e1, e2, e3, e4, e5⟩ :=
              insert_inner_notfull t key value f r pos cid h hroot hin hpos hcid hc
            rw [e1] at hok
            cases hok
            obtain ⟨leaf', i1, i2, i3, i4, i5⟩ :=
              leaf_insert_sem _ key value hc hchild.2.2.2.2.2
            rw [e5] at i1
            cases i1
            have hlo : LeafOK leaf := by
              refine ⟨by rw [i2]; exact hchild.2.2.2.1, ?_, i3⟩
              rcases i4 with ⟨_, hh⟩ | ⟨_, hh⟩ <;> omega
            have hmem : ∀ q, q < t.next_page_id →
                bm'.content q = if q = cid then leaf else t.buffer_manager.content q :=
              fun q hq => e4 q (by omega)
            have hbnd : ∀ k v, StoredIn leaf k v →
                (0 < pos → rd 0 (t.buffer_manager.content r).keys (pos - 1) ≤ k) ∧
                (pos + 1 < (t.buffer_manager.content r).count →
                  k < rd 0 (t.buffer_manager.content r).keys pos) := by
              intro k v hkv
              rcases (i5 k v).mp hkv with ⟨hk', _⟩ | ⟨_, hs⟩
              · subst hk'; exact ⟨d2, d3⟩
              · exact hbnd0 k v hs
            have hin' := innerRoot_update_leaf _ _ r t.next_page_id pos cid leaf hin d1 hcid
              hmem hlo hbnd
            obtain ⟨v1, v2⟩ := update_leaf_view _ _ r t.next_page_id pos cid leaf hin d1
              hcid hmem
            refine ⟨⟨e2, e3, ?_⟩, ?_⟩
            · simp only [hroot, Shape]
              right
              exact hin'
            · intro k v
              rw [stored_inner_root { t with buffer_manager := bm' } r hroot hin',
                stored_inner_root t r hroot hin]
              simp only []
              rw [v1]
              constructor
              · rintro ⟨i, hi, hs⟩
                rw [v2 i hi] at hs
                split_ifs at hs with hip
                · rcases (i5 k v).mp hs with hh | ⟨hne, hs'⟩
                  · exact Or.inl hh
                  · exact Or.inr ⟨hne, i, hi, by rw [hip, hcid]; exact hs'⟩
                · refine Or.inr ⟨?_, i, hi, hs⟩
                  rintro rfl
                  exact hip (huniq v i hi hs)
              · rintro (hh | ⟨hne, i, hi, hs⟩)
                · refine ⟨pos, d1, ?_⟩
                  rw [v2 pos d1, if_pos rfl]
                  exact (i5 k v).mpr (Or.inl hh)
                · refine ⟨i, hi, ?_⟩
                  rw [v2 i hi]
                  split_ifs with hip
                  · rw [hip, hcid] at hs
                    exact (i5 k v).mpr (Or.inr ⟨hne, hs⟩)
                  · exact hs
          · have hc' : (t.buffer_manager.content cid).count = kCapacity := by
              have := hchild.2.2.2.2.1; omega
            rcases Nat.lt_or_ge (t.buffer_manager.content r).count kCapacity with hrc | hrc
            · obtain ⟨bm', sep, L, R, P, e1, e2, e3, e4, e5, e6, e7, e8, e9, e10, e11, e12,
                _, _, p1, p2, p3, p4⟩ :=
                insert_inner_split t key value f r pos cid h hroot hin hpos hcid hc' hrc
              rw [e1] at hok
              cases hok
              have hmem : ∀ q, q < t.next_page_id + 1 → bm'.content q =
                  if q = r then P else if q = cid then L
                  else if q = t.next_page_id then R else t.buffer_manager.content q :=
                fun q hq => e4 q (by omega)
              have hsub : ∀ k v, (StoredIn L k v ∨ StoredIn R k v) →
                  (0 < pos → rd 0 (t.buffer_manager.content r).keys (pos - 1) ≤ k) ∧
                  (pos + 1 < (t.buffer_manager.content r).count →
                    k < rd 0 (t.buffer_manager.content r).keys pos) := by
                intro k v hkv
                rcases (e7 k v).mp hkv with ⟨hk', _⟩ | ⟨_, hs⟩
                · subst hk'; exact ⟨d2, d3⟩
                · exact hbnd0 k v hs
              obtain ⟨k0, v0, hk0, hk0lt⟩ := e11
              obtain ⟨vs, hvs⟩ := e12
              have hin' := innerRoot_split _ _ r t.next_page_id pos cid sep L R P hin d1 hcid
                hrc hmem e5 e6
                (fun k v hs => ⟨e8 k v hs, (hsub k v (Or.inl hs)).1⟩)
                (fun k v hs => ⟨e9 k v hs, (hsub k v (Or.inr hs)).2⟩)
                (fun h0 => by have := (hbnd0 k0 v0 hk0).1 h0; omega)
                (fun h0 => (hbnd0 sep vs hvs).2 h0)
                p1 p2 p3 p4
              have hst := stored_split _ _ r t.next_page_id pos cid L R P hin d1 hcid hmem
                p2 p3
              refine ⟨⟨e2, e3, ?_⟩, ?_⟩
              · simp only [hroot, Shape]
                right
                exact hin'
              · intro k v
                rw [stored_inner_root
                    { t with buffer_manager := bm', next_page_id := t.next_page_id + 1 } r hroot
                    hin',
                  stored_inner_root t r hroot hin]
                simp only []
                rw [hst k v]
                constructor
                · rintro (hs | hs | ⟨i, hi, hne, hs⟩)
                  · rcases (e7 k v).mp (Or.inl hs) with hh | ⟨hne, hs'⟩
                    · exact Or.inl hh
                    · exact Or.inr ⟨hne, pos, d1, by rw [hcid]; exact hs'⟩
                  · rcases (e7 k v).mp (Or.inr hs) with hh | ⟨hne, hs'⟩
                    · exact Or.inl hh
                    · exact Or.inr ⟨hne, pos, d1, by rw [hcid]; exact hs'⟩
                  · refine Or.inr ⟨?_, i, hi, hs⟩
                    rintro rfl
                    exact hne (huniq v i hi hs)
                · rintro (hh | ⟨hne, i, hi, hs⟩)
                  · rcases (e7 k v).mpr (Or.inl hh) with h1 | h1
                    · exact Or.inl h1
                    · exact Or.inr (Or.inl h1)
                  · by_cases hip : i = pos
                    · rw [hip, hcid] at hs
                      rcases (e7 k v).mpr (Or.inr ⟨hne, hs⟩) with h1 | h1
                      · exact Or.inl h1
                      · exact Or.inr (Or.inl h1)
                    · exact Or.inr (Or.inr ⟨i, hi, hip, hs⟩)
            · have hrc' : (t.buffer_manager.content r).count = kCapacity := by
                have := hin.2.2.1; omega
              rw [insert_inner_full t key value f r pos cid h hroot hin hpos hcid hc' hrc']
                at hok
              cases hok

/-! ## Fuel -/

theorem lookup_loop_mono (key : Nat) :
    ∀ fuel bm curr x, BTree.lookup_loop key fuel bm curr = .ok x →
      BTree.lookup_loop key (fuel + 1) bm curr = .ok x := by
  intro fuel
  induction fuel with
  | zero => intro bm curr x h; cases h
  | succ f ih =>
    intro bm curr x h
    unfold BTree.lookup_loop at h ⊢
    cases hfix : bm.fix_page curr with
    | error e => rw [hfix] at h; cases h
    | ok res =>
      obtain ⟨node, bm1⟩ := res
      rw [hfix] at h
      simp only [bind, Except.bind] at h ⊢
      by_cases hl : node.is_leaf = true
      · rw [if_pos hl] at h ⊢; exact h
      · rw [if_neg hl] at h ⊢; exact ih _ _ _ h

theorem erase_loop_mono (key : Nat) :
    ∀ fuel bm curr x, BTree.erase_loop key fuel bm curr = .ok x →
      BTree.erase_loop key (fuel + 1) bm curr = .ok x := by
  intro fuel
  induction fuel with
  | zero => intro bm curr x h; cases h
  | succ f ih =>
    intro bm curr x h
    unfold BTree.erase_loop at h ⊢
    cases hfix : bm.fix_page curr with
    | error e => rw [hfix] at h; cases h
    | ok res =>
      obtain ⟨node, bm1⟩ := res
      rw [hfix] at h
      simp only [bind, Except.bind] at h ⊢
      by_cases hl : node.is_leaf = true
      · rw [if_pos hl] at h ⊢; exact h
      · rw [if_neg hl] at h ⊢; exact ih _ _ _ h

theorem lookup_mono (t : BTree) (key fuel : Nat) (x : Option Nat × BTree)
    (h : BTree.lookup fuel t key = .ok x) : BTree.lookup (fuel + 1) t key = .ok x := by
  unfold BTree.lookup at h ⊢
  cases hr : t.root with
  | none => rw [hr] at h; exact h
  | some r =>
    rw [hr] at h
    simp only [bind, Except.bind] at h ⊢
    cases hl : BTree.lookup_loop key fuel t.buffer_manager r with
    | error e => rw [hl] at h; cases h
    | ok res =>
      rw [hl] at h
      rw [lookup_loop_mono key fuel _ _ _ hl]
      exact h

theorem erase_mono (t : BTree) (key fuel : Nat) (x : BTree)
    (h : BTree.erase fuel t key = .ok x) : BTree.erase (fuel + 1) t key = .ok x := by
  unfold BTree.erase at h ⊢
  cases hr : t.root with
  | none => rw [hr] at h; exact h
  | some r =>
    rw [hr] at h
    simp only [bind, Except.bind] at h ⊢
    cases hl : BTree.erase_loop key fuel t.buffer_manager r with
    | error e => rw [hl] at h; cases h
    | ok res =>
      rw [hl] at h
      rw [erase_loop_mono key fuel _ _ _ hl]
      exact h

/-! ## Reachable trees -/

theorem new_loop_spec : ∀ steps (bm : BufferManager), bm.PolicyOK →
    MAX_PAGES ≤ bm.storage_manager.file.length →
    (BTree.new_loop steps bm).PolicyOK ∧
    MAX_PAGES ≤ (BTree.new_loop steps bm).storage_manager.file.length := by
  intro steps
  induction steps with
  | zero => intro bm h1 h2; exact ⟨h1, h2⟩
  | succ s ih =>
    intro bm h1 h2
    unfold BTree.new_loop
    split_ifs
    · apply ih
      · exact h1
      · simp only [BufferManager.extend, StorageManager.extend, List.length_append,
          List.length_singleton]
        omega
    · exact ⟨h1, h2⟩

theorem bufferManager_new_spec (truncate_mode : Bool) (old : List SlottedPage) :
    (BufferManager.new truncate_mode old).PolicyOK ∧
    MAX_PAGES ≤ (BufferManager.new truncate_mode old).storage_manager.file.length := by
  constructor
  · intro p hp
    simp [BufferManager.new] at hp
  · have h1 : MAX_PAGES ≤ (StorageManager.new truncate_mode old).file.length := by
      unfold StorageManager.new
      simp only []
      have hM : MAX_PAGES = 1000 := rfl
      split_ifs <;>
        simp only [List.length_append, List.length_replicate, List.length_nil] at * <;>
        omega
    simp only [BufferManager.new, StorageManager.extend_till]
    split_ifs
    · simp only [List.length_append]; omega
    · exact h1

theorem treeInv_new (bm : BufferManager) (h1 : bm.PolicyOK)
    (h2 : MAX_PAGES ≤ bm.storage_manager.file.length) : TreeInv (BTree.new bm) := by
  obtain ⟨a, b⟩ := new_loop_spec (MAX_PAGES - bm.getNumPages) bm h1 h2
  exact ⟨a, b, rfl⟩

theorem treeInv_empty : TreeInv BTree.empty :=
  treeInv_new _ (bufferManager_new_spec true []).1 (bufferManager_new_spec true []).2

theorem treeInv_of_reachable (t : BTree) (h : Reachable t) : TreeInv t := by
  induction h with
  | empty => exact treeInv_empty
  | insert t t' fuel key value _ hstep ih => exact (insert_spec t t' key value fuel ih hstep).1
  | erase t t' fuel key _ hstep ih =>
    obtain ⟨bm', e1, e2, _⟩ := erase_spec t key fuel ih
    have := erase_mono _ _ _ _ (erase_mono _ _ _ _ hstep)
    rw [e1] at this
    cases this
    exact e2
  | lookup t t' fuel key r _ hstep ih =>
    obtain ⟨res, bm', e1, e2, e3, e4, _⟩ := lookup_spec t key fuel ih
    have := lookup_mono _ _ _ _ (lookup_mono _ _ _ _ hstep)
    rw [e1] at this
    cases this
    exact treeInv_of_content t _ ih e2 e4 e3 rfl rfl

theorem lastWrite_none (kvs : List (Nat × Nat)) (k : Nat) :
    lastWrite kvs k = none ↔ k ∉ kvs.map Prod.fst := by
  induction kvs with
  | nil => simp [lastWrite]
  | cons hd tl ih =>
    obtain ⟨k', v⟩ := hd
    simp only [lastWrite, List.map_cons, List.mem_cons, not_or]
    cases h : lastWrite tl k with
    | some w =>
      have hmem : ¬ k ∉ tl.map Prod.fst := by
        intro hc
        rw [← ih, h] at hc
        cases hc
      constructor
      · intro hh; cases hh
      · intro hh; exact absurd hh.2 hmem
    | none =>
      have hmem : k ∉ tl.map Prod.fst := ih.mp h
      by_cases hk : k' = k
      · subst hk
        simp
      · simp only [if_neg hk, true_iff]
        exact ⟨fun he => hk he.symm, hmem⟩

theorem reachable_insertAll (fuel : Nat) :
    ∀ (kvs : List (Nat × Nat)) (t0 t : BTree), Reachable t0 →
      BTree.insertAll fuel kvs t0 = .ok t → Reachable t := by
  intro kvs
  induction kvs with
  | nil =>
    intro t0 t h0 h
    simp only [BTree.insertAll] at h
    cases h
    exact h0
  | cons hd tl ih =>
    intro t0 t h0 h
    obtain ⟨k, v⟩ := hd
    simp only [BTree.insertAll, bind, Except.bind] at h
    cases h1 : BTree.insert fuel t0 k v with
    | error e => rw [h1] at h; cases h
    | ok t1 =>
      rw [h1] at h
      exact ih t1 t (Reachable.insert t0 t1 fuel k v h0 h1) h

theorem insertAll_spec (fuel : Nat) :
    ∀ (kvs : List (Nat × Nat)) (t0 t : BTree), TreeInv t0 →
      BTree.insertAll fuel kvs t0 = .ok t →
      TreeInv t ∧ ∀ k v, t.Stored k v ↔
        (lastWrite kvs k = some v ∨ (lastWrite kvs k = none ∧ t0.Stored k v)) := by
  intro kvs
  induction kvs with
  | nil =>
    intro t0 t h0 h
    simp only [BTree.insertAll] at h
    cases h
    refine ⟨h0, fun k v => ?_⟩
    simp [lastWrite]
  | cons hd tl ih =>
    intro t0 t h0 h
    obtain ⟨k1, v1⟩ := hd
    simp only [BTree.insertAll, bind, Except.bind] at h
    cases h1 : BTree.insert fuel t0 k1 v1 with
    | error e => rw [h1] at h; cases h
    | ok t1 =>
      rw [h1] at h
      obtain ⟨i1, i2⟩ := insert_spec t0 t1 k1 v1 fuel h0 h1
      obtain ⟨j1, j2⟩ := ih t1 t i1 h
      refine ⟨j1, fun k v => ?_⟩
      rw [j2 k v, i2 k v]
      simp only [lastWrite]
      cases hl : lastWrite tl k with
      | some w => simp
      | none =>
        by_cases hk : k1 = k
        · subst hk
          simp only [if_true, Option.some.injEq]
          constructor
          · rintro (hh | ⟨_, ⟨_, hh⟩ | ⟨hh, _⟩⟩)
            · cases hh
            · exact Or.inl hh.symm
            · exact absurd rfl hh
          · rintro (hh | ⟨hh, _⟩)
            · exact Or.inr ⟨trivial, Or.inl ⟨trivial, hh.symm⟩⟩
            · cases hh
        · simp only [if_neg hk]
          constructor
          · rintro (hh | ⟨_, ⟨hh, _⟩ | ⟨_, hh⟩⟩)
            · cases hh
            · exact absurd hh.symm hk
            · exact Or.inr ⟨trivial, hh⟩
          · rintro (hh | ⟨_, hh⟩)
            · cases hh
            · exact Or.inr ⟨trivial, Or.inr ⟨fun he => hk he.symm, hh⟩⟩

theorem stored_empty (k v : Nat) : ¬ BTree.empty.Stored k v :=
  stored_none _ rfl k v

/-- After inserts that all return, `lookup` finds for every inserted key the value of
its last insert, and nothing for the other keys. -/
theorem lookup_after_inserts (fuel : Nat) (kvs : List (Nat × Nat)) (t : BTree) (k g : Nat)
    (hbuilt : BTree.insertAll fuel kvs BTree.empty = .ok t) (hg : 2 ≤ g) :
    ∃ t', BTree.lookup g t k = .ok (lastWrite kvs k, t') := by
  obtain ⟨i1, i2⟩ := insertAll_spec fuel kvs _ t treeInv_empty hbuilt
  obtain ⟨g', rfl⟩ := Nat.exists_eq_add_of_le hg
  obtain ⟨res, bm', e1, _, _, _, e5⟩ := lookup_spec t k g' i1
  rw [Nat.add_comm]
  refine ⟨{ t with buffer_manager := bm' }, ?_⟩
  rw [e1]
  have hres : res = lastWrite kvs k := by
    cases hl : lastWrite kvs k with
    | some w =>
      exact (e5 w).mpr ((i2 k w).mpr (Or.inl hl))
    | none =>
      cases hres : res with
      | none => rfl
      | some w =>
        rcases (i2 k w).mp ((e5 w).mp hres) with hh | ⟨_, hh⟩
        · rw [hl] at hh; cases hh
        · exact absurd hh (stored_empty k w)
  rw [hres]

theorem descends_leaf (mem : Nat → SlottedPage) (p q : Nat) (h : (mem p).level = 0)
    (hd : Descends mem p q) : q = p := by
  cases hd with
  | refl => rfl
  | child _ i _ h1 _ _ => exact absurd h h1

theorem descends_innerRoot (mem : Nat → SlottedPage) (r next q : Nat)
    (h : InnerRoot mem r next) (hd : Descends mem r q) :
    q = r ∨ ∃ i, i < (mem r).count ∧ q = rd 0 (mem r).children i := by
  cases hd with
  | refl => exact Or.inl rfl
  | child _ i _ h1 h2 h3 =>
    right
    exact ⟨i, h2, descends_leaf mem _ q (h.2.2.2.2.2.2.1 i h2).2.2.2.1 h3⟩

theorem leaves_of_treeInv (t : BTree) (h : TreeInv t) (r p : Nat) (hr : t.root = some r)
    (hp : Descends t.node r p) (hlev : (t.node p).level = 0) : LeafOK (t.node p) := by
  have hs := h.2.2
  rw [hr] at hs
  simp only [Shape] at hs
  unfold BTree.node at *
  rcases hs with ⟨h1, _, hleaf⟩ | hin
  · subst h1
    have := descends_leaf _ _ _ hleaf.1 hp
    subst this
    exact hleaf
  · rcases descends_innerRoot _ _ _ _ hin hp with hq | ⟨j, hj, hq⟩
    · subst hq
      rw [hin.1] at hlev
      cases hlev
    · subst hq
      exact (hin.2.2.2.2.2.2.1 j hj).2.2.2

theorem insertAll_treeOf (kvs : List (Nat × Nat)) (t : BTree)
    (h : BTree.insertAll 2 kvs BTree.empty = .ok t) : treeOf kvs = t := by
  unfold treeOf
  rw [h]

theorem reachable_treeOf (kvs : List (Nat × Nat)) : Reachable (treeOf kvs) := by
  unfold treeOf
  cases h : BTree.insertAll 2 kvs BTree.empty with
  | error e => exact Reachable.empty
  | ok t => exact reachable_insertAll 2 kvs _ t Reachable.empty h

theorem insertAll_append (fuel : Nat) (a b : List (Nat × Nat)) (t0 : BTree) :
    BTree.insertAll fuel (a ++ b) t0 =
      (BTree.insertAll fuel a t0).bind (BTree.insertAll fuel b) := by
  induction a generalizing t0 with
  | nil => rfl
  | cons hd tl ih =>
    obtain ⟨k, v⟩ := hd
    simp only [List.cons_append, BTree.insertAll, bind, Except.bind]
    cases BTree.insert fuel t0 k v with
    | error e => rfl
    | ok t1 => exact ih t1

theorem first_key_of_leaf (n : SlottedPage) (sep : Nat) (hs : LeafSorted n)
    (hsep : ∃ v, StoredIn n sep v) (hmin : ∀ k v, StoredIn n k v → sep ≤ k) :
    rd 0 n.keys 0 = sep := by
  obtain ⟨v, i, hi, hik, _⟩ := hsep
  rcases Nat.eq_zero_or_pos i with h0 | h0
  · subst h0; exact hik
  · have h1 := hs 0 i h0 hi
    have h2 := hmin _ _ ⟨0, by omega, rfl, rfl⟩
    omega

/-- Inserting new, distinct keys into a root leaf that has room for all of them keeps the
tree a single leaf and adds one pair per key. -/
theorem leafroot_insertAll (f : Nat) :
    ∀ (kvs : List (Nat × Nat)) (t0 : BTree), TreeInv t0 → t0.root = some 1 →
      t0.next_page_id = 2 → LeafOK (t0.buffer_manager.content 1) →
      (kvs.map Prod.fst).Nodup → (∀ k, k ∈ kvs.map Prod.fst → ∀ v, ¬ t0.Stored k v) →
      (t0.buffer_manager.content 1).count + kvs.length ≤ kCapacity →
      ∃ t, BTree.insertAll (f + 1) kvs t0 = .ok t ∧ TreeInv t ∧ t.root = some 1 ∧
        t.next_page_id = 2 ∧ LeafOK (t.buffer_manager.content 1) ∧
        (t.buffer_manager.content 1).count =
          (t0.buffer_manager.content 1).count + kvs.length := by
  intro kvs
  induction kvs with
  | nil =>
    intro t0 h0 hr hn hl _ _ _
    exact ⟨t0, rfl, h0, hr, hn, hl, rfl⟩
  | cons hd tl ih =>
    intro t0 h0 hr hn hl hnd hnew hcnt
    obtain ⟨k, v⟩ := hd
    simp only [List.map_cons, List.nodup_cons, List.length_cons] at hnd hcnt
    obtain ⟨bm', leaf, e1, e2, e3, e4, e5⟩ :=
      insert_leafroot_notfull t0 k v f h0 hr hl (by omega)
    obtain ⟨i1, i2⟩ := insert_spec t0 _ k v (f + 1) h0 e1
    obtain ⟨leaf', j1, j2, j3, j4, j5⟩ := leaf_insert_sem _ k v
      (show (t0.buffer_manager.content 1).count < kCapacity by omega) hl.2.2
    rw [e5] at j1
    cases j1
    have hc1 : bm'.content 1 = leaf := by rw [e4 1 (by omega), if_pos rfl]
    have hnot : ¬ ∃ w, StoredIn (t0.buffer_manager.content 1) k w := by
      rintro ⟨w, hw⟩
      exact hnew k (by simp) w ((stored_leaf_root t0 1 hr hl.1 k w).mpr hw)
    have hcount : leaf.count = (t0.buffer_manager.content 1).count + 1 := by
      rcases j4 with ⟨hh, _⟩ | ⟨_, hh⟩
      · exact absurd hh hnot
      · exact hh
    have hlo : LeafOK leaf := ⟨by rw [j2]; exact hl.1, by omega, j3⟩
    obtain ⟨t, g1, g2, g3, g4, g5, g6⟩ := ih { t0 with buffer_manager := bm' } i1 hr hn
      (by simp only []; rw [hc1]; exact hlo) hnd.2
      (by
        intro k' hk' w hs
        rcases (i2 k' w).mp hs with ⟨hh, _⟩ | ⟨_, hh⟩
        · subst hh; exact hnd.1 hk'
        · exact hnew k' (by simp [hk']) w hh)
      (by simp only []; rw [hc1]; omega)
    refine ⟨t, ?_, g2, g3, g4, g5, ?_⟩
    · simp only [BTree.insertAll, bind, Except.bind, e1]
      exact g1
    · rw [g6]
      simp only []
      rw [hc1, hcount, List.length_cons]
      omega

/-- Inserting at most `kCapacity` distinct keys into the empty tree gives a single leaf. -/
theorem empty_insertAll (f : Nat) (kvs : List (Nat × Nat)) (h1 : 1 ≤ kvs.length)
    (h2 : kvs.length ≤ kCapacity) (hnd : (kvs.map Prod.fst).Nodup) :
    ∃ t, BTree.insertAll (f + 1) kvs BTree.empty = .ok t ∧ TreeInv t ∧ t.root = some 1 ∧
      t.next_page_id = 2 ∧ LeafOK (t.buffer_manager.content 1) ∧
      (t.buffer_manager.content 1).count = kvs.length := by
  cases kvs with
  | nil => simp at h1
  | cons hd tl =>
    obtain ⟨k, v⟩ := hd
    simp only [List.map_cons, List.nodup_cons, List.length_cons] at hnd h2
    obtain ⟨bm', leaf, e1, e2, e3, e4, e5, e6, e7, e8⟩ :=
      insert_empty BTree.empty k v (f + 1) treeInv_empty rfl
    obtain ⟨i1, i2⟩ := insert_spec BTree.empty _ k v (f + 1) treeInv_empty e1
    have hc1 : bm'.content 1 = leaf := by rw [e4 1 (by omega), if_pos rfl]
    obtain ⟨t, g1, g2, g3, g4, g5, g6⟩ := leafroot_insertAll f tl
      ⟨some 1, bm', 2⟩ i1 rfl rfl (by simp only []; rw [hc1]; exact e5) hnd.2
      (by
        intro k' hk' w hs
        rcases (i2 k' w).mp hs with ⟨hh, _⟩ | ⟨_, hh⟩
        · subst hh; exact hnd.1 hk'
        · exact stored_empty k' w hh)
      (by simp only []; rw [hc1, e6]; omega)
    refine ⟨t, ?_, g2, g3, g4, g5, ?_⟩
    · simp only [BTree.insertAll, bind, Except.bind, e1]
      exact g1
    · rw [g6]
      simp only []
      rw [hc1, e6, List.length_cons]
      omega

theorem innerRoot_of_treeInv (t : BTree) (r : Nat) (h : TreeInv t) (hr : t.root = some r)
    (hlev : (t.buffer_manager.content r).level ≠ 0) :
    InnerRoot t.buffer_manager.content r t.next_page_id := by
  have hs := h.2.2
  rw [hr] at hs
  simp only [Shape] at hs
  rcases hs with ⟨h1, _, hleaf⟩ | hin
  · subst h1; exact absurd hleaf.1 hlev
  · exact hin

theorem ascending_step (n c m value fuel : Nat) (t : BTree) (h : AscendingShape n c m t) :
    (m < kCapacity → ∃ t', BTree.insert (fuel + 2) t n value = .ok t' ∧
      AscendingShape (n + 1) c (m + 1) t') ∧
    (m = kCapacity → c < kCapacity → ∃ t', BTree.insert (fuel + 2) t n value = .ok t' ∧
      AscendingShape (n + 1) (c + 1) 22 t') ∧
    (m = kCapacity → c = kCapacity →
      BTree.insert (fuel + 2) t n value = .error .outOfBounds) := by
  have hk : kCapacity = 42 := rfl
  obtain ⟨hinv, r, hroot, hin, hc, hm, hkeys, hstored⟩ := h
  obtain ⟨d1, d2, d3⟩ := innerRoot_descent _ _ _ n hin
  obtain ⟨pos, hpos⟩ : ∃ pos,
      (InnerNode.lower_bound (t.buffer_manager.content r) n).1 = pos := ⟨_, rfl⟩
  rw [hpos] at d1 d2 d3
  have hposc : pos = c - 1 := by
    by_contra hne
    have h1 : pos + 1 < c := by omega
    have := hkeys pos h1
    have := d3 (by omega)
    omega
  obtain ⟨cid, hcid⟩ : ∃ cid, rd 0 (t.buffer_manager.content r).children pos = cid :=
    ⟨_, rfl⟩
  have hcid' : rd 0 (t.buffer_manager.content r).children (c - 1) = cid := by
    rw [← hposc]; exact hcid
  rw [hcid'] at hm
  have hchild := hin.2.2.2.2.2.2.1 _ d1
  rw [hcid] at hchild
  have hc2 : 2 ≤ c := by rw [← hc]; exact hin.2.1
  obtain ⟨hb1, hb2, hb3⟩ := innerRoot_bounds hin
  have hcid44 := hb3 _ d1
  rw [hcid] at hcid44
  have hnotin : ¬ ∃ v, StoredIn (t.buffer_manager.content cid) n v := by
    rintro ⟨v, hv⟩
    have := hstored n v ((stored_inner_root t r hroot hin n v).mpr
      ⟨pos, d1, by rw [hcid]; exact hv⟩)
    omega
  refine ⟨fun hlt => ?_, fun hfull hclt => ?_, fun hfull hcfull => ?_⟩
  · obtain ⟨bm', leaf, e1, e2, e3, e4, e5⟩ :=
      insert_inner_notfull t n value fuel r pos cid hinv hroot hin hpos hcid (by omega)
    obtain ⟨i1, i2⟩ := insert_spec t _ n value (fuel + 2) hinv e1
    obtain ⟨leaf', j1, j2, j3, j4, j5⟩ := leaf_insert_sem _ n value
      (show (t.buffer_manager.content cid).count < kCapacity by omega) hchild.2.2.2.2.2
    rw [e5] at j1
    cases j1
    have hmem : ∀ q, q < t.next_page_id →
        bm'.content q = if q = cid then leaf else t.buffer_manager.content q :=
      fun q hq => e4 q (by omega)
    obtain ⟨v1, v2⟩ := update_leaf_view _ _ r t.next_page_id pos cid leaf hin d1 hcid hmem
    have hin' : InnerRoot bm'.content r t.next_page_id :=
      innerRoot_of_treeInv { t with buffer_manager := bm' } r i1 hroot
        (by simp only []; rw [v1, hin.1]; omega)
    refine ⟨_, e1, i1, r, hroot, hin', ?_, ?_, ?_, ?_⟩
    · simp only []; rw [v1]; exact hc
    · simp only []
      rw [v1, hcid']
      have := v2 pos d1
      rw [hcid, if_pos rfl] at this
      rw [this]
      rcases j4 with ⟨hh, _⟩ | ⟨_, hh⟩
      · exact absurd hh hnotin
      · omega
    · intro j hj
      simp only []
      rw [v1]
      have := hkeys j hj
      omega
    · intro k v hs
      rcases (i2 k v).mp hs with ⟨hh, _⟩ | ⟨_, hh⟩
      · omega
      · have := hstored k v hh; omega
  · obtain ⟨bm', sep, L, R, P, e1, e2, e3, e4, e5, e6, e7, e8, e9, e10, e11, e12,
      e13, e14, p1, p2, p3, p4⟩ :=
      insert_inner_split t n value fuel r pos cid hinv hroot hin hpos hcid (by omega)
        (by omega)
    obtain ⟨i1, i2⟩ := insert_spec t _ n value (fuel + 2) hinv e1
    have hrn : r < t.next_page_id := hin.2.2.2.2.2.1
    have hr' : bm'.content r = P := by rw [e4 r (by omega), if_pos rfl]
    have hin' : InnerRoot bm'.content r (t.next_page_id + 1) :=
      innerRoot_of_treeInv { t with buffer_manager := bm', next_page_id := t.next_page_id + 1 }
        r i1 hroot (by simp only []; rw [hr', p1, hin.1]; omega)
    obtain ⟨vs, hvs⟩ := e12
    have hseplt : sep < n := hstored sep vs ((stored_inner_root t r hroot hin sep vs).mpr
      ⟨pos, d1, by rw [hcid]; exact hvs⟩)
    refine ⟨_, e1, i1, r, hroot, hin', ?_, ?_, ?_, ?_⟩
    · simp only []; rw [hr', p2]; omega
    · simp only []
      rw [hr', p3, if_pos (by omega),
        e4 _ (by omega), if_neg (by omega), if_neg (by have := hchild.2.1; omega), if_pos rfl]
      rcases (e13 (by omega)).2 with ⟨hh, _⟩ | ⟨_, hh⟩
      · exact absurd hh hnotin
      · exact hh
    · intro j hj
      simp only []
      rw [hr', p4]
      by_cases hjp : j = pos
      · rw [if_pos hjp]; omega
      · rw [if_neg hjp, if_neg (by omega)]
        have := hkeys j (by omega)
        omega
    · intro k v hs
      rcases (i2 k v).mp hs with ⟨hh, _⟩ | ⟨_, hh⟩
      · omega
      · have := hstored k v hh; omega
  · exact insert_inner_full t n value fuel r pos cid hinv hroot hin hpos hcid (by omega)
      (by omega)

theorem ascending_succ : ∀ n i, ascending (n + 1) i = ascending n i ++ [(i + n, 2 * (i + n))] := by
  intro n
  induction n with
  | zero => intro i; rfl
  | succ n ih =>
    intro i
    have h := ih (i + 1)
    have e : i + 1 + n = i + (n + 1) := by omega
    rw [e] at h
    show (i, 2 * i) :: ascending (n + 1) (i + 1) = (i, 2 * i) :: ascending n (i + 1) ++ _
    rw [h]
    rfl

theorem ascending_length : ∀ n i, (ascending n i).length = n := by
  intro n
  induction n with
  | zero => intro i; rfl
  | succ n ih => intro i; simp [ascending, ih]

theorem ascending_mem : ∀ n i k, k ∈ (ascending n i).map Prod.fst → i ≤ k ∧ k < i + n := by
  intro n
  induction n with
  | zero => intro i k h; simp [ascending] at h
  | succ n ih =>
    intro i k h
    simp only [ascending, List.map_cons, List.mem_cons] at h
    rcases h with h | h
    · omega
    · have := ih (i + 1) k h; omega

theorem ascending_nodup : ∀ n i, ((ascending n i).map Prod.fst).Nodup := by
  intro n
  induction n with
  | zero => intro i; simp [ascending]
  | succ n ih =>
    intro i
    simp only [ascending, List.map_cons, List.nodup_cons]
    refine ⟨fun h => ?_, ih (i + 1)⟩
    have := ascending_mem n (i + 1) i h
    omega

/-- The tree after the first split of the ascending run. -/
theorem ascending_first_split (fuel : Nat) :
    ∃ t, BTree.insertAll (fuel + 2) (ascending 43 0) BTree.empty = .ok t ∧
      AscendingShape 43 2 22 t := by
  have hk : kCapacity = 42 := rfl
  obtain ⟨t0, g1, g2, g3, g4, g5, g6⟩ := empty_insertAll (fuel + 1) (ascending 42 0)
    (by rw [ascending_length]; omega) (by rw [ascending_length]; omega) (ascending_nodup 42 0)
  rw [ascending_length] at g6
  obtain ⟨_, hst⟩ := insertAll_spec (fuel + 2) (ascending 42 0) _ t0 treeInv_empty g1
  have hlt : ∀ k v, t0.Stored k v → k < 42 := by
    intro k v hs
    rcases (hst k v).mp hs with hh | ⟨_, hh⟩
    · have hmem : k ∈ (ascending 42 0).map Prod.fst := by
        by_contra hc
        rw [(lastWrite_none _ k).mpr hc] at hh
        cases hh
      have := ascending_mem 42 0 k hmem
      omega
    · exact absurd hh (stored_empty k v)
  obtain ⟨bm', sep, L, R, root, e1, e2, e3, e4, e5, e6, e7, e8, e9, e10, e11, e12,
    e13, e14, e15, e16, e17, _⟩ := insert_leafroot_split t0 42 (2 * 42) (fuel + 1) g2 g3 g4 g5
      (by rw [g6, hk])
  obtain ⟨i1, i2⟩ := insert_spec t0 _ 42 (2 * 42) (fuel + 2) g2 e1
  have h3 : bm'.content 3 = root := by rw [e4 3 (by omega), if_pos rfl]
  have h2 : bm'.content 2 = R := by
    rw [e4 2 (by omega), if_neg (by omega), if_neg (by omega), if_pos rfl]
  obtain ⟨vs, hvs⟩ := e16
  have hseplt : sep < 42 := hlt sep vs ((stored_leaf_root t0 1 g3 g5.1 sep vs).mpr hvs)
  have hnotin : ¬ ∃ v, StoredIn (t0.buffer_manager.content 1) 42 v := by
    rintro ⟨v, hv⟩
    have := hlt 42 v ((stored_leaf_root t0 1 g3 g5.1 42 v).mpr hv)
    omega
  refine ⟨⟨some 3, bm', 4⟩, ?_, i1, 3, rfl, ?_, ?_, ?_, ?_, ?_⟩
  · have hs : ascending 43 0 = ascending 42 0 ++ [(42, 2 * 42)] := ascending_succ 42 0
    rw [hs, insertAll_append, g1]
    simp only [Except.bind, BTree.insertAll, bind, e1]
  · exact innerRoot_of_treeInv ⟨some 3, bm', 4⟩ 3 i1 rfl (by simp only []; rw [h3, e11]; omega)
  · simp only []; rw [h3]; exact e12
  · simp only []
    rw [h3, show 2 - 1 = 1 from rfl, e14, h2]
    rcases (e17 (by omega)).2 with ⟨hh, _⟩ | ⟨_, hh⟩
    · exact absurd hh hnotin
    · exact hh
  · intro j hj
    have : j = 0 := by omega
    subst this
    simp only []
    rw [h3, e15]; omega
  · intro k v hs
    rcases (i2 k v).mp hs with ⟨hh, _⟩ | ⟨_, hh⟩
    · omega
    · have := hlt k v hh; omega

/-- The ascending run up to 903 keys: every insert returns, and the shape of the tree
is known in closed form. -/
theorem ascending_run (fuel : Nat) :
    ∀ d, d ≤ 860 → ∃ t, BTree.insertAll (fuel + 2) (ascending (43 + d) 0) BTree.empty = .ok t ∧
      AscendingShape (43 + d) (d / 21 + 2) (22 + d % 21) t := by
  have hk : kCapacity = 42 := rfl
  intro d
  induction d with
  | zero => intro _; exact ascending_first_split fuel
  | succ d ih =>
    intro hd
    obtain ⟨t, g1, g2⟩ := ih (by omega)
    obtain ⟨s1, s2, _⟩ := ascending_step (43 + d) (d / 21 + 2) (22 + d % 21)
      (2 * (43 + d)) fuel t g2
    have hs : ascending (43 + (d + 1)) 0 = ascending (43 + d) 0 ++ [(43 + d, 2 * (43 + d))] := by
      have := ascending_succ (43 + d) 0
      rw [Nat.zero_add] at this
      exact this
    have hrun : ∀ t', BTree.insert (fuel + 2) t (43 + d) (2 * (43 + d)) = .ok t' →
        BTree.insertAll (fuel + 2) (ascending (43 + (d + 1)) 0) BTree.empty = .ok t' := by
      intro t' ht'
      rw [hs, insertAll_append, g1]
      simp only [Except.bind, BTree.insertAll, bind, ht']
    by_cases hm : d % 21 < 20
    · obtain ⟨t', e1, e2⟩ := s1 (by omega)
      refine ⟨t', hrun t' e1, ?_⟩
      have h1 : (d + 1) / 21 = d / 21 := by omega
      have h2 : (d + 1) % 21 = d % 21 + 1 := by omega
      rw [h1, h2]
      exact e2
    · obtain ⟨t', e1, e2⟩ := s2 (by omega) (by omega)
      refine ⟨t', hrun t' e1, ?_⟩
      have h1 : (d + 1) / 21 = d / 21 + 1 := by omega
      have h2 : (d + 1) % 21 = 0 := by omega
      rw [h1, h2]
      exact e2

/-! ## The replacement policy -/

theorem lastTouch_lt (calls : List PolicyCall) (x n : Nat) (h : lastTouch calls x = some n) :
    n < calls.length := by
  induction calls generalizing n with
  | nil => simp [lastTouch] at h
  | cons c rest ih =>
    simp only [lastTouch] at h
    cases hr : lastTouch rest x with
    | some m =>
      rw [hr] at h
      simp only [Option.some.injEq] at h
      have := ih m hr
      simp only [List.length_cons]
      omega
    | none =>
      rw [hr] at h
      simp only [List.length_cons]
      split_ifs at h
      simp only [Option.some.injEq] at h
      omega

theorem lastTouch_snoc (calls : List PolicyCall) (c : PolicyCall) (x : Nat) :
    lastTouch (calls ++ [c]) x =
      if c = .touch x then some calls.length else lastTouch calls x := by
  induction calls with
  | nil =>
    simp only [List.nil_append, lastTouch, List.length_nil]
  | cons d rest ih =>
    show lastTouch (d :: (rest ++ [c])) x = _
    simp only [lastTouch, List.length_cons]
    rw [ih]
    by_cases hc : c = .touch x
    · simp only [hc, if_true]
    · simp only [hc, if_false]

theorem run_snoc (p : LruPolicy) (calls : List PolicyCall) (c : PolicyCall) :
    p.run (calls ++ [c]) = (p.run calls).call c := by
  simp only [LruPolicy.run, List.foldl_append, List.foldl_cons, List.foldl_nil]

theorem evict_cacheSize (p : LruPolicy) : p.evict.2.cacheSize = p.cacheSize := by
  unfold LruPolicy.evict
  split_ifs <;> rfl

theorem touch_cacheSize (p : LruPolicy) (page_id : Nat) :
    (p.touch page_id).2.cacheSize = p.cacheSize := by
  unfold LruPolicy.touch
  simp only []
  split_ifs <;> simp only [evict_cacheSize]

theorem run_cacheSize (calls : List PolicyCall) (p : LruPolicy) :
    (p.run calls).cacheSize = p.cacheSize := by
  induction calls using List.reverseRecOn with
  | nil => rfl
  | append_singleton l c ih =>
    rw [run_snoc]
    cases c with
    | touch page_id => simp only [LruPolicy.call, touch_cacheSize, ih]
    | evict => simp only [LruPolicy.call, evict_cacheSize, ih]

theorem evict_list (p : LruPolicy) : p.evict.2.lruList = p.lruList.dropLast := by
  unfold LruPolicy.evict
  split_ifs with h
  · rfl
  · have : p.lruList = [] := by
      cases hl : p.lruList with
      | nil => rfl
      | cons a l => rw [hl] at h; simp at h
    simp only [this, List.dropLast_nil]

/-- On a non-empty duplicate-free list `evict` returns a tracked id and leaves exactly
the other ids. -/
theorem evict_nonempty (p : LruPolicy) (hnd : p.lruList.Nodup) (hne : p.lruList ≠ []) :
    p.evict.1 ∈ p.lruList ∧ p.lruList = p.evict.2.lruList ++ [p.evict.1] ∧
    ∀ x, x ∈ p.evict.2.lruList ↔ (x ∈ p.lruList ∧ x ≠ p.evict.1) := by
  obtain ⟨l, cs⟩ := p
  simp only at hnd hne
  have hlen : l.length ≠ 0 := fun h => hne (List.eq_nil_of_length_eq_zero h)
  have hsplit : l = l.dropLast ++ [l.getLast hne] := (List.dropLast_append_getLast hne).symm
  have hv : l.getLastD INVALID_VALUE = l.getLast hne := by
    rw [List.getLastD_eq_getLast?, List.getLast?_eq_getLast l hne]
    rfl
  simp only [LruPolicy.evict, hlen, ne_eq, not_false_eq_true, if_true, hv]
  generalize l.getLast hne = victim at hsplit
  generalize l.dropLast = init at hsplit
  subst hsplit
  have hd := List.nodup_append.mp hnd
  have hvn : victim ∉ init := fun h => hd.2.2 h (List.mem_singleton_self _)
  refine ⟨by simp, rfl, ?_⟩
  intro x
  constructor
  · intro hx
    exact ⟨List.mem_append_left _ hx, fun h => hvn (h ▸ hx)⟩
  · rintro ⟨hx, hxv⟩
    rcases List.mem_append.mp hx with h | h
    · exact h
    · exact absurd (List.mem_singleton.mp h) hxv

/-- What `touch` leaves in the list, for a list within the capacity of at least 1. -/
theorem touch_list (p : LruPolicy) (page_id : Nat) (hc : 1 ≤ p.cacheSize)
    (hlen : p.lruList.length ≤ p.cacheSize) (hnd : p.lruList.Nodup) :
    (p.touch page_id).2.lruList = page_id ::
      (if page_id ∈ p.lruList then p.lruList.erase page_id
       else if p.lruList.length = p.cacheSize then p.lruList.dropLast else p.lruList) := by
  obtain ⟨l, c⟩ := p
  simp only at hc hlen hnd
  unfold LruPolicy.touch
  simp only []
  by_cases hm : page_id ∈ l
  · have hpos : 0 < l.length := List.length_pos_of_mem hm
    have he : (l.erase page_id).length = l.length - 1 := List.length_erase_of_mem hm
    have h1 : ¬ (l.erase page_id).length = c := by omega
    have h2 : (l.erase page_id).length < c := by omega
    simp only [hm, decide_True, if_true, h1, if_false, h2]
  · simp only [hm, decide_False, Bool.false_eq_true, if_false]
    by_cases hfull : l.length = c
    · have h2 : c - 1 < c := by omega
      simp only [hfull, if_true, evict_list, evict_cacheSize, List.length_dropLast, h2]
    · have h2 : l.length < c := by omega
      simp only [hfull, if_false, h2, if_true]

/-- `evict` and `touch` keep the list duplicate-free, within the capacity and ordered by
the most recent touch. -/
theorem lruOrdered_run (c : Nat) (calls : List PolicyCall) :
    LruOrdered calls ((LruPolicy.new c).run calls) := by
  induction calls using List.reverseRecOn with
  | nil =>
    exact ⟨List.nodup_nil, Nat.zero_le _, fun x hx => absurd hx (List.not_mem_nil x),
      List.Pairwise.nil⟩
  | append_singleton l call ih =>
    rw [run_snoc]
    have hcs := run_cacheSize l (LruPolicy.new c)
    generalize (LruPolicy.new c).run l = p at ih hcs ⊢
    obtain ⟨i1, i2, i3, i4⟩ := ih
    cases call with
    | evict =>
      simp only [LruPolicy.call]
      have hsub : p.evict.2.lruList.Sublist p.lruList := by
        rw [evict_list]; exact List.dropLast_sublist _
      refine ⟨i1.sublist hsub, ?_, ?_, ?_⟩
      · rw [evict_cacheSize]
        exact le_trans hsub.length_le i2
      · intro x hx
        obtain ⟨n, hn⟩ := i3 x (hsub.subset hx)
        exact ⟨n, by rw [lastTouch_snoc, if_neg (by simp), hn]⟩
      · refine (i4.sublist hsub).imp ?_
        intro a b hab m n hm hn
        rw [lastTouch_snoc, if_neg (by simp)] at hm hn
        exact hab m n hm hn
    | touch page_id =>
      simp only [LruPolicy.call]
      by_cases hc : 1 ≤ p.cacheSize
      · obtain ⟨rest, hrest⟩ : ∃ rest, rest =
            (if page_id ∈ p.lruList then p.lruList.erase page_id
             else if p.lruList.length = p.cacheSize then p.lruList.dropLast
             else p.lruList) := ⟨_, rfl⟩
        have hlist := touch_list p page_id hc i2 i1
        rw [← hrest] at hlist
        have hsub : rest.Sublist p.lruList := by
          rw [hrest]
          split_ifs
          · exact List.erase_sublist _ _
          · exact List.dropLast_sublist _
          · exact List.Sublist.refl _
        have hnot : page_id ∉ rest := by
          rw [hrest]
          split_ifs with h1 h2
          · exact fun h => (List.Nodup.mem_erase_iff i1).mp h |>.1 rfl
          · exact fun h => h1 ((List.dropLast_sublist _).subset h)
          · exact h1
        have hlen : rest.length + 1 ≤ p.cacheSize := by
          rw [hrest]
          split_ifs with h1 h2
          · rw [List.length_erase_of_mem h1]
            have := List.length_pos_of_mem h1
            omega
          · rw [List.length_dropLast]; omega
          · omega
        rw [LruOrdered, hlist, touch_cacheSize]
        refine ⟨List.nodup_cons.mpr ⟨hnot, i1.sublist hsub⟩, by simpa using hlen, ?_, ?_⟩
        · intro x hx
          rw [lastTouch_snoc]
          by_cases hx2 : x = page_id
          · exact ⟨l.length, by rw [if_pos (by rw [hx2])]⟩
          · rcases List.mem_cons.mp hx with h | h
            · exact absurd h hx2
            · obtain ⟨n, hn⟩ := i3 x (hsub.subset h)
              exact ⟨n, by rw [if_neg (by simpa using fun h => hx2 h.symm), hn]⟩
        · refine List.pairwise_cons.mpr ⟨?_, ?_⟩
          · intro b hb m n hm hn
            have hne : b ≠ page_id := fun h => hnot (h ▸ hb)
            rw [lastTouch_snoc, if_pos rfl] at hm
            rw [lastTouch_snoc, if_neg (by simpa using fun h => hne h.symm)] at hn
            simp only [Option.some.injEq] at hm
            have := lastTouch_lt _ _ _ hn
            omega
          · refine List.Pairwise.imp_of_mem ?_ (i4.sublist hsub)
            intro a b ha hb hab m n hm hn
            have hna : a ≠ page_id := fun h => hnot (h ▸ ha)
            have hnb : b ≠ page_id := fun h => hnot (h ▸ hb)
            rw [lastTouch_snoc, if_neg (by simpa using fun h => hna h.symm)] at hm
            rw [lastTouch_snoc, if_neg (by simpa using fun h => hnb h.symm)] at hn
            exact hab m n hm hn
      · have h0 : p.cacheSize = 0 := by omega
        have hl : p.lruList = [] := List.eq_nil_of_length_eq_zero (by omega)
        obtain ⟨pl, pc⟩ := p
        simp only at h0 hl
        subst h0 hl
        exact ⟨List.nodup_nil, Nat.zero_le _, fun x hx => absurd hx (List.not_mem_nil x),
          List.Pairwise.nil⟩

/-! ## Residency, flushing and the destructor -/

theorem lookup_isSome_iff (m : List (Nat × SlottedPage)) (k : Nat) :
    (m.lookup k).isSome = true ↔ k ∈ m.map Prod.fst := by
  induction m with
  | nil => simp
  | cons e rest ih =>
    obtain ⟨a, b⟩ := e
    simp only [List.lookup, List.map_cons, List.mem_cons]
    by_cases h : k = a
    · subst h
      simp
    · have : (k == a) = false := by simpa using h
      simp only [this, ih, h, false_or]

theorem assign_length (m : List (Nat × SlottedPage)) (k : Nat) (p : SlottedPage) :
    (PageMap.assign m k p).length = if (m.lookup k).isSome then m.length else m.length + 1 := by
  induction m with
  | nil => simp [PageMap.assign]
  | cons e rest ih =>
    obtain ⟨a, b⟩ := e
    simp only [PageMap.assign, List.lookup]
    by_cases h : a = k
    · subst h
      simp
    · have h2 : (k == a) = false := by simpa using fun h' => h h'.symm
      simp only [h, if_false, List.length_cons, ih, h2]
      split_ifs <;> rfl

theorem index_length (m : List (Nat × SlottedPage)) (k : Nat) :
    m.length ≤ (PageMap.index m k).2.length := by
  unfold PageMap.index
  cases h : m.lookup k with
  | some page => simp
  | none =>
    simp only [assign_length, h, Option.isSome_none, Bool.false_eq_true, if_false]
    omega

theorem index_lookup (m : List (Nat × SlottedPage)) (k q : Nat) (h : (m.lookup q).isSome) :
    (PageMap.index m k).2.lookup q = m.lookup q := by
  unfold PageMap.index
  cases hk : m.lookup k with
  | some page => rfl
  | none =>
    simp only [lookup_assign]
    split_ifs with hq
    · subst hq
      rw [hk] at h
      simp at h
    · rfl

theorem index_assign_length (m : List (Nat × SlottedPage)) (k q : Nat) (p : SlottedPage)
    (hq : m.lookup q = none) :
    m.length < (PageMap.assign (PageMap.index m k).2 q p).length := by
  unfold PageMap.index
  cases hk : m.lookup k with
  | some page =>
    simp only [assign_length, hq, Option.isSome_none, Bool.false_eq_true, if_false]
    omega
  | none =>
    simp only []
    rw [assign_length, assign_length, hk]
    simp only [Option.isSome_none, Bool.false_eq_true, if_false]
    split_ifs <;> omega

/-- A miss makes the resident map longer: `fix_page` adds the entry and removes none. -/
theorem fix_page_miss_grows (bm bm' : BufferManager) (page_id : Nat) (page : SlottedPage)
    (hmiss : bm.pageMap.lookup (pageKey page_id) = none)
    (hok : bm.fix_page page_id = .ok (page, bm')) :
    bm.pageMap.length < bm'.pageMap.length := by
  unfold BufferManager.fix_page at hok
  rw [hmiss] at hok
  simp only [bind, Except.bind] at hok
  split at hok
  · cases hok
  · rename_i pg hload
    simp only [Except.ok.injEq, Prod.mk.injEq] at hok
    obtain ⟨_, rfl⟩ := hok
    show bm.pageMap.length < (PageMap.assign _ (pageKey page_id) pg).length
    have hplain : bm.pageMap.length <
        (PageMap.assign bm.pageMap (pageKey page_id) pg).length := by
      rw [assign_length, hmiss]
      simp only [Option.isSome_none, Bool.false_eq_true, if_false]
      omega
    by_cases h1 : MAX_PAGES_IN_MEMORY ≤ bm.pageMap.length
    · by_cases h2 : bm.policy.evict.1 ≠ INVALID_VALUE
      · simp only [h1, h2, if_true, ne_eq, not_false_eq_true]
        exact index_assign_length _ _ _ _ hmiss
      · simp only [h1, h2, if_true, if_false]
        exact hplain
    · simp only [h1, if_false]
      exact hplain

theorem flushPage_resident (bm : BufferManager) (k : Nat) (page : SlottedPage)
    (hk : k < 65536) (h : bm.pageMap.lookup k = some page) :
    bm.flushPage k = { bm with storage_manager := bm.storage_manager.flush k page } := by
  unfold BufferManager.flushPage PageMap.index
  rw [pageKey_small hk, h]

theorem destructor_loop_spec : ∀ (order : List Nat) (bm : BufferManager),
    (∀ k, k ∈ order → k < 65536 ∧ (bm.pageMap.lookup k).isSome = true) →
    (BufferManager.destructor_loop order bm).pageMap = bm.pageMap ∧
    (BufferManager.destructor_loop order bm).policy = bm.policy ∧
    ∀ p, rd SlottedPage.zero (BufferManager.destructor_loop order bm).storage_manager.file p =
      if p ∈ order then (bm.pageMap.lookup p).getD SlottedPage.zero
      else rd SlottedPage.zero bm.storage_manager.file p := by
  intro order
  induction order with
  | nil =>
    intro bm _
    exact ⟨rfl, rfl, fun p => by simp [BufferManager.destructor_loop]⟩
  | cons k rest ih =>
    intro bm h
    obtain ⟨hk, hres⟩ := h k (List.mem_cons_self _ _)
    obtain ⟨page, hpage⟩ := Option.isSome_iff_exists.mp hres
    have hf := flushPage_resident bm k page hk hpage
    obtain ⟨i1, i2, i3⟩ := ih (bm.flushPage k) (by
      intro q hq
      rw [hf]
      exact h q (List.mem_cons_of_mem _ hq))
    simp only [BufferManager.destructor_loop]
    rw [hf] at i1 i2 i3
    rw [hf]
    refine ⟨i1, i2, ?_⟩
    intro p
    rw [i3 p]
    simp only [StorageManager.flush, rd_wr, List.mem_cons]
    by_cases hp : p = k
    · subst hp
      simp only [true_or, if_true, hpage, Option.getD_some]
      split_ifs <;> rfl
    · simp only [hp, false_or, if_false]

theorem wr_index_lt {α : Type} (d : α) (a : List α) (i : Nat) (v : α) :
    i < (wr d a i v).length := by
  induction a generalizing i with
  | nil =>
    induction i with
    | zero => simp [wr]
    | succ n ih => simp only [wr, List.length_cons]; omega
  | cons x xs ih =>
    cases i with
    | zero => simp [wr]
    | succ n => simp only [wr, List.length_cons]; have := ih n; omega

theorem destructor_loop_length : ∀ (order : List Nat) (bm : BufferManager),
    bm.storage_manager.file.length ≤
      (BufferManager.destructor_loop order bm).storage_manager.file.length ∧
    ∀ k, k ∈ order → pageKey k <
      (BufferManager.destructor_loop order bm).storage_manager.file.length := by
  intro order
  induction order with
  | nil => intro bm; exact ⟨le_refl _, fun k hk => absurd hk (List.not_mem_nil k)⟩
  | cons k rest ih =>
    intro bm
    obtain ⟨i1, i2⟩ := ih (bm.flushPage k)
    have h1 : bm.storage_manager.file.length ≤ (bm.flushPage k).storage_manager.file.length :=
      wr_length_le _ _ _ _
    have h2 : pageKey k < (bm.flushPage k).storage_manager.file.length := wr_index_lt _ _ _ _
    simp only [BufferManager.destructor_loop]
    refine ⟨le_trans h1 i1, ?_⟩
    intro q hq
    rcases List.mem_cons.mp hq with h | h
    · subst h; omega
    · exact i2 q h

/-! ## Page ids are 16-bit values -/

theorem pageKey_lt (page_id : Nat) : pageKey page_id < 65536 :=
  Nat.mod_lt _ (by decide)

theorem lastWrite_ascending : ∀ n i k, i ≤ k → k < i + n →
    lastWrite (ascending n i) k = some (2 * k) := by
  intro n
  induction n with
  | zero => intro i k h1 h2; omega
  | succ n ih =>
    intro i k h1 h2
    simp only [ascending, lastWrite]
    by_cases hk : k = i
    · subst hk
      have : lastWrite (ascending n (k + 1)) k = none := by
        rw [lastWrite_none]
        intro hm
        have := ascending_mem n (k + 1) k hm
        omega
      rw [this]
      simp
    · rw [ih (i + 1) k (by omega) (by omega)]

/-! ## Operations that leave the pages as they are -/

theorem content_pageKey (bm : BufferManager) (p q : Nat) (h : pageKey p = pageKey q) :
    bm.content p = bm.content q := by
  unfold BufferManager.content
  rw [h]

theorem found_of_storedIn (n : SlottedPage) (hs : LeafSorted n) (key v : Nat)
    (h : StoredIn n key v) :
    LeafNode.find_position n key < n.count ∧
      rd 0 n.keys (LeafNode.find_position n key) = key := by
  have hf := (leafFind_sem n hs key v).mpr h
  unfold leafFind at hf
  split_ifs at hf with hc
  exact hc

theorem pageKey_pageKey (p : Nat) : pageKey (pageKey p) = pageKey p :=
  pageKey_small (pageKey_lt p)

/-- Where the leaf that holds the key is not full, `insert` of a key that is already
stored overwrites in place: the root, the next page id, and the level, count, keys and
children of every page stay as they are. -/
theorem insert_existing_key_in_place (t : BTree) (key value fuel : Nat) (h : TreeInv t)
    (hk : ∃ v, t.Stored key v)
    (hroom : ∀ r p, t.root = some r → Descends t.node r p → (t.node p).level = 0 →
      (∃ v, StoredIn (t.node p) key v) → (t.node p).count < kCapacity) :
    ∃ t', BTree.insert (fuel + 2) t key value = .ok t' ∧ t'.root = t.root ∧
      t'.next_page_id = t.next_page_id ∧
      ∀ p, (t'.node p).level = (t.node p).level ∧ (t'.node p).count = (t.node p).count ∧
        (t'.node p).keys = (t.node p).keys ∧ (t'.node p).children = (t.node p).children := by
  obtain ⟨v, r, hr, hsub⟩ := hk
  have hst : t.Stored key v := ⟨r, hr, hsub⟩
  obtain ⟨root, bm, next⟩ := t
  simp only at hr
  subst hr
  have hinv := h
  obtain ⟨hp, hl, hs⟩ := h
  simp only [Shape] at hs
  simp only [BTree.node] at hroom ⊢
  have finish : ∀ (bm' : BufferManager) (leaf : SlottedPage) (cid : Nat), cid < 65536 →
      (∀ q, q < 65536 → bm'.content q = if q = cid then leaf else bm.content q) →
      leaf.level = (bm.content cid).level → leaf.count = (bm.content cid).count →
      leaf.keys = (bm.content cid).keys → leaf.children = (bm.content cid).children →
      ∀ p, (bm'.content p).level = (bm.content p).level ∧
        (bm'.content p).count = (bm.content p).count ∧
        (bm'.content p).keys = (bm.content p).keys ∧
        (bm'.content p).children = (bm.content p).children := by
    intro bm' leaf cid hcid hc a1 a2 a3 a4 p
    rw [content_pageKey bm' p (pageKey p) (pageKey_pageKey p).symm,
      content_pageKey bm p (pageKey p) (pageKey_pageKey p).symm, hc _ (pageKey_lt p)]
    split_ifs with hq
    · rw [hq]; exact ⟨a1, a2, a3, a4⟩
    · exact ⟨rfl, rfl, rfl, rfl⟩
  rcases hs with ⟨h1, hn, hleaf⟩ | hin
  · subst h1
    have hsi : StoredIn (bm.content 1) key v :=
      (stored_leaf_root ⟨some 1, bm, next⟩ 1 rfl hleaf.1 key v).mp hst
    have hc := hroom 1 1 rfl (Descends.refl 1) hleaf.1 ⟨v, hsi⟩
    obtain ⟨bm', leaf, e1, _, _, e4, e5⟩ :=
      insert_leafroot_notfull ⟨some 1, bm, next⟩ key value (fuel + 1) hinv rfl hleaf hc
    obtain ⟨n', s1, s2, s3, s4, _⟩ := leaf_insert_spec (bm.content 1) key value hc
    simp only at e5
    rw [e5] at s1
    cases s1
    obtain ⟨c1, c2, _⟩ := s4 (found_of_storedIn _ hleaf.2.2 key v hsi)
    exact ⟨_, e1, rfl, rfl, finish bm' leaf 1 (by omega) e4 s2 c1 c2 s3⟩
  · obtain ⟨i, hi, hsi⟩ := (stored_inner_root ⟨some r, bm, next⟩ r rfl hin key v).mp hst
    simp only at hi hsi
    have hpos := innerRoot_unique _ r next key v i hin hi hsi
    obtain ⟨_, _, hb3⟩ := innerRoot_bounds hin
    have hchild := hin.2.2.2.2.2.2.1 i hi
    have hlev : (bm.content r).level ≠ 0 := by rw [hin.1]; omega
    have hc := hroom r (rd 0 (bm.content r).children i) rfl
      (Descends.child r i _ hlev hi (Descends.refl _)) hchild.2.2.2.1 ⟨v, hsi⟩
    obtain ⟨bm', leaf, e1, _, _, e4, e5⟩ :=
      insert_inner_notfull ⟨some r, bm, next⟩ key value fuel r i
        (rd 0 (bm.content r).children i) hinv rfl hin hpos.symm rfl hc
    obtain ⟨n', s1, s2, s3, s4, _⟩ :=
      leaf_insert_spec (bm.content (rd 0 (bm.content r).children i)) key value hc
    simp only at e5
    rw [e5] at s1
    cases s1
    obtain ⟨c1, c2, _⟩ := s4 (found_of_storedIn _ hchild.2.2.2.2.2 key v hsi)
    exact ⟨_, e1, rfl, rfl,
      finish bm' leaf _ (by have := hb3 i hi; omega) e4 s2 c1 c2 s3⟩

/-! ## Splitting and searching a node -/

theorem entries_length (n : SlottedPage) : n.entries.length = n.count := by
  simp only [SlottedPage.entries, List.length_map, List.length_range]

theorem entries_getElem (n : SlottedPage) (i : Nat) (h : i < n.entries.length) :
    n.entries[i] = (rd 0 n.keys i, rd 0 n.values i) := by
  simp only [SlottedPage.entries, List.getElem_map, List.getElem_range]

/-! ## Extending the file -/

/-- `extend(till_page_id)` where the subtraction and the product do not wrap: the store
gets the pages up to `till_page_id`, and nothing changes when it has exactly
`till_page_id + 1` pages. -/
theorem extend_till_spec (sm : StorageManager) (till_page_id : Nat)
    (h1 : sm.num_pages ≤ till_page_id + 1) (h2 : till_page_id + 1 < 2 ^ 64)
    (h3 : (till_page_id + 1 - sm.num_pages) * PAGE_SIZE < 2 ^ 64) :
    sm.extend_till till_page_id =
      if sm.num_pages = till_page_id + 1 then sm
      else { file := sm.file ++
               List.replicate (till_page_id + 1 - sm.num_pages) SlottedPage.zero,
             num_pages := till_page_id + 1 } := by
  have hP : PAGE_SIZE = 4096 := rfl
  rw [hP] at h3
  have e1 : (till_page_id + 1 + (2 ^ 64 - sm.num_pages % 2 ^ 64)) % 2 ^ 64 =
      till_page_id + 1 - sm.num_pages := by
    norm_num at h2 ⊢
    omega
  have e2 : ((till_page_id + 1 - sm.num_pages) * 4096) % 2 ^ 64 =
      (till_page_id + 1 - sm.num_pages) * 4096 := Nat.mod_eq_of_lt h3
  have e3 : (till_page_id + 1) % 2 ^ 64 = till_page_id + 1 := Nat.mod_eq_of_lt h2
  unfold StorageManager.extend_till
  simp only [hP, e1, e2, e3]
  by_cases he : sm.num_pages = till_page_id + 1
  · simp only [he, if_true, Nat.sub_self, Nat.zero_mul, Nat.lt_irrefl, if_false]
  · have hpos : 0 < (till_page_id + 1 - sm.num_pages) * 4096 := by omega
    simp only [hpos, if_true, he, if_false, Nat.mul_div_cancel _ (show 0 < 4096 by omega)]

/-! ## Splitting an inner node -/

theorem insertAllWith_eq (ComparatorT : Nat → Nat → Bool) (fuel : Nat) :
    ∀ (kvs : List (Nat × Nat)) (t : BTree),
      BTree.insertAllWith ComparatorT fuel kvs t = BTree.insertAll fuel kvs t := by
  intro kvs
  induction kvs with
  | nil => intro t; rfl
  | cons hd tl ih =>
    intro t
    obtain ⟨k, v⟩ := hd
    simp only [BTree.insertAllWith, BTree.insertAll, BTree.insertWith, bind, Except.bind]
    cases BTree.insert fuel t k v with
    | error e => rfl
    | ok t1 => exact ih t1

/-- `insertIntoParent` with a path of length 1, on a tree with a root that satisfies the
invariant: the new root is the page `next_page_id`, at level 1 with `count = 1`. -/
theorem insertIntoParent_root_spec (t : BTree) (r x separator new_page_id : Nat)
    (h : TreeInv t) (hr : t.root = some r) (hn : t.next_page_id < MAX_PAGES) :
    ∃ t', BTree.insertIntoParent t [x] separator new_page_id = .ok t' ∧
      t'.root = some t.next_page_id ∧ t'.next_page_id = t.next_page_id + 1 ∧
      (t'.node t.next_page_id).level = 1 ∧ (t'.node t.next_page_id).count = 1 ∧
      rd 0 (t'.node t.next_page_id).children 0 = r ∧
      rd 0 (t'.node t.next_page_id).children 1 = new_page_id ∧
      rd 0 (t'.node t.next_page_id).keys 0 = separator ∧
      (∀ q, pageKey q ≠ pageKey t.next_page_id → t'.node q = t.node q) := by
  have hk : kCapacity = 42 := rfl
  have hM : MAX_PAGES = 1000 := rfl
  obtain ⟨bm1, e1, _, e3, _⟩ := fix_page_ok t.buffer_manager t.next_page_id h.1 h.2.1 hn
  unfold BTree.insertIntoParent BTree.insertIntoParent_rec
  simp only [List.length_singleton, if_true, hr]
  rw [e1]
  simp only [bind, Except.bind]
  rw [store_ok _ _ (by omega), store_ok _ _ (by omega)]
  simp only []
  rw [store_ok _ _ (by omega)]
  refine ⟨_, rfl, rfl, rfl, ?_⟩
  simp only [BTree.node]
  have hc : ∀ pg, (bm1.write t.next_page_id pg).content t.next_page_id = pg := by
    intro pg
    rw [content_write, if_pos rfl]
  rw [hc]
  refine ⟨rfl, rfl, ?_, ?_, ?_, ?_⟩
  · simp only [rd_wr]; simp
  · simp only [rd_wr]; simp
  · simp only [rd_wr]; simp
  · intro q hq
    rw [content_write, if_neg hq, e3]

/-! ## The pages of a new store -/

/-- The store of `BufferManager(true)`, whatever was on disk: 1001 zero pages. -/
theorem bufferManager_new_truncate (old : List SlottedPage) :
    (BufferManager.new true old).storage_manager =
      { file := List.replicate 1001 SlottedPage.zero, num_pages := 1001 } := by
  have hnew : StorageManager.new true old =
      { file := List.replicate 1000 SlottedPage.zero, num_pages := 1000 } := by
    unfold StorageManager.new
    simp only [if_true, List.length_nil, List.nil_append]
    rw [if_pos (by decide)]
    rfl
  unfold BufferManager.new
  simp only [hnew]
  rw [extend_till_spec _ _ (by decide) (by decide) (by decide)]
  rw [if_neg (by decide)]
  have hM : MAX_PAGES + 1 = 1001 := rfl
  have hd : MAX_PAGES + 1 - 1000 = 1 := rfl
  simp only [hM, hd, StorageManager.mk.injEq, and_true]
  exact (List.replicate_add 1000 1 SlottedPage.zero).symm

theorem storage_view (bm : BufferManager) (sm : StorageManager)
    (h : bm.storage_manager = sm) :
    bm.getNumPages = sm.num_pages ∧ bm.storage_manager.file = sm.file := by
  subst h
  exact ⟨rfl, rfl⟩

/-- The constructor of `BTree` appends nothing to a store of 1001 pages. -/
theorem new_on_full_store (bm : BufferManager) (h : bm.getNumPages = 1001) :
    (BTree.new bm).buffer_manager = bm := by
  unfold BTree.new
  simp only [h]
  rfl

/-! ## The pool as a plain array of pages -/

/-- Whenever `fix_page` returns on a pool whose policy tracks resident pages only, it
returns the logical content of the page and changes the logical content of no page. -/
theorem fix_page_any (bm bm' : BufferManager) (page_id : Nat) (page : SlottedPage)
    (hp : bm.PolicyOK) (hok : bm.fix_page page_id = .ok (page, bm')) :
    page = bm.content page_id ∧ bm'.PolicyOK ∧ (∀ q, bm'.content q = bm.content q) ∧
      bm.storage_manager.file.length ≤ bm'.storage_manager.file.length := by
  unfold BufferManager.fix_page at hok
  cases hres : bm.pageMap.lookup (pageKey page_id) with
  | some pg =>
    rw [hres] at hok
    simp only [Except.ok.injEq, Prod.mk.injEq] at hok
    obtain ⟨rfl, rfl⟩ := hok
    refine ⟨?_, ?_, fun q => rfl, le_refl _⟩
    · simp only [BufferManager.content, hres]
    · intro p hp'
      rcases touch_mem bm.policy (pageKey page_id) p hp' with h | h
      · subst h; simp [hres]
      · exact hp p h
  | none =>
    rw [hres] at hok
    simp only [] at hok
    have key : ∀ bm1 : BufferManager, bm1.PolicyOK →
        bm1.pageMap = bm.pageMap →
        (∀ q, bm.pageMap.lookup q = none →
          rd SlottedPage.zero bm1.storage_manager.file q =
            rd SlottedPage.zero bm.storage_manager.file q) →
        bm.storage_manager.file.length ≤ bm1.storage_manager.file.length →
        (do
            let page ← bm1.storage_manager.load (pageKey page_id)
            Except.ok (page, { bm1 with
              policy := (bm1.policy.touch (pageKey page_id)).2,
              pageMap := PageMap.assign bm1.pageMap (pageKey page_id) page }) :
            Except Fault (SlottedPage × BufferManager)) = .ok (page, bm') →
        page = bm.content page_id ∧ bm'.PolicyOK ∧ (∀ q, bm'.content q = bm.content q) ∧
          bm.storage_manager.file.length ≤ bm'.storage_manager.file.length := by
      intro bm1 h1 h2 h3 h4 hrun
      cases hload : bm1.storage_manager.load (pageKey page_id) with
      | error e =>
        rw [hload] at hrun
        cases hrun
      | ok pg =>
        rw [hload] at hrun
        simp only [bind, Except.bind, Except.ok.injEq, Prod.mk.injEq] at hrun
        obtain ⟨rfl, rfl⟩ := hrun
        have hpg : pg = bm.content page_id := by
          unfold StorageManager.load at hload
          cases hget : bm1.storage_manager.file.get? (pageKey page_id) with
          | none => rw [hget] at hload; cases hload
          | some x =>
            rw [hget] at hload
            simp only [Except.ok.injEq] at hload
            subst hload
            simp only [BufferManager.content, hres]
            rw [← h3 _ hres]
            simp only [rd, List.getD_eq_getElem?_getD]
            rw [List.get?_eq_getElem?] at hget
            rw [hget]
            rfl
        refine ⟨hpg, ?_, ?_, h4⟩
        · intro p hp'
          simp only [lookup_assign]
          rcases touch_mem _ _ p hp' with h | h
          · subst h; simp
          · have := h1 p h
            split_ifs
            · rfl
            · exact this
        · intro q
          simp only [BufferManager.content, lookup_assign, h2]
          by_cases hq : pageKey q = pageKey page_id
          · rw [if_pos hq, hq, hres]
            simp only []
            rw [hpg]
            simp only [BufferManager.content, hres]
          · rw [if_neg hq]
            cases hq' : bm.pageMap.lookup (pageKey q) with
            | some pg' => rfl
            | none => simp only []; exact h3 _ hq'
    by_cases hfull : MAX_PAGES_IN_MEMORY ≤ bm.pageMap.length
    · rw [if_pos hfull] at hok
      by_cases hev : bm.policy.evict.1 ≠ INVALID_VALUE
      · rw [if_pos hev] at hok
        have hmem := (evict_mem bm.policy).2 hev
        have hsome := hp _ hmem
        obtain ⟨pg, hpg⟩ := Option.isSome_iff_exists.mp hsome
        have hidx : PageMap.index bm.pageMap bm.policy.evict.1 = (pg, bm.pageMap) := by
          simp [PageMap.index, hpg]
        rw [hidx] at hok
        refine key { storage_manager := bm.storage_manager.flush bm.policy.evict.1 pg,
                     pageMap := bm.pageMap, policy := bm.policy.evict.2 } ?_ rfl ?_ ?_ hok
        · intro p hp'
          exact hp p ((evict_mem bm.policy).1 p hp')
        · intro q hq
          simp only [StorageManager.flush, rd_wr]
          rw [if_neg]
          rintro rfl
          rw [hq] at hpg; cases hpg
        · simp only [StorageManager.flush]
          exact wr_length_le _ _ _ _
      · rw [if_neg hev] at hok
        refine key { bm with policy := bm.policy.evict.2 } ?_ rfl (fun q _ => rfl)
          (le_refl _) hok
        intro p hp'
        exact hp p ((evict_mem bm.policy).1 p hp')
    · rw [if_neg hfull] at hok
      exact key bm hp rfl (fun q _ => rfl) (le_refl _) hok

/-- In every reachable state of the pool the policy tracks resident pages only. -/
theorem policyOK_of_reach (bm : BufferManager) (h : bm.Reach) : bm.PolicyOK := by
  induction h with
  | new truncate_mode old => exact (bufferManager_new_spec truncate_mode old).1
  | extend bm _ ih => exact ih
  | fix_page bm bm' page_id page _ hok ih => exact (fix_page_any bm bm' page_id page ih hok).2.1
  | write bm page_id page _ _ ih => exact policyOK_write bm page_id page ih

/-- A sequence of accesses to pages of the store, on a pool whose policy tracks resident
pages only, returns the pages and leaves the contents that the same accesses on the
plain array `bm.content` give. -/
theorem accessAll_spec :
    ∀ (accesses : List (Nat × Option (SlottedPage → SlottedPage))) (bm : BufferManager),
      bm.PolicyOK →
      (∀ a, a ∈ accesses → pageKey a.1 < bm.storage_manager.file.length) →
      ∃ bm', BufferManager.accessAll accesses bm =
          .ok ((PlainPages.accessAll accesses bm.content).1, bm') ∧
        bm'.content = (PlainPages.accessAll accesses bm.content).2 ∧ bm'.PolicyOK := by
  intro accesses
  induction accesses with
  | nil =>
    intro bm hp _
    exact ⟨bm, rfl, rfl, hp⟩
  | cons a rest ih =>
    intro bm hp hl
    obtain ⟨page_id, mutation⟩ := a
    obtain ⟨bm1, e1, e2, e3, e4⟩ :=
      fix_page_spec bm page_id hp (hl (page_id, mutation) (List.mem_cons_self _ _))
    have hrest : ∀ a, a ∈ rest → pageKey a.1 < bm1.storage_manager.file.length := by
      intro a ha
      have := hl a (List.mem_cons_of_mem _ ha)
      omega
    cases mutation with
    | none =>
      obtain ⟨bm2, f1, f2, f3⟩ := ih bm1 e2 hrest
      have hc : bm1.content = bm.content := funext e3
      rw [hc] at f1 f2
      refine ⟨bm2, ?_, ?_, f3⟩
      · simp only [BufferManager.accessAll, BufferManager.access, e1, bind, Except.bind, f1,
          PlainPages.accessAll, PlainPages.access]
      · simp only [PlainPages.accessAll, PlainPages.access]
        exact f2
    | some f =>
      have hw : (bm1.write page_id (f (bm.content page_id))).content =
          fun q => if pageKey q = pageKey page_id then f (bm.content page_id)
            else bm.content q := by
        funext q
        rw [content_write, e3]
      obtain ⟨bm2, f1, f2, f3⟩ := ih (bm1.write page_id (f (bm.content page_id)))
        (policyOK_write _ _ _ e2) (by
          intro a ha
          have := hrest a ha
          simpa only [write_file] using this)
      rw [hw] at f1 f2
      refine ⟨bm2, ?_, ?_, f3⟩
      · simp only [BufferManager.accessAll, BufferManager.access, e1, bind, Except.bind, f1,
          PlainPages.accessAll, PlainPages.access]
      · simp only [PlainPages.accessAll, PlainPages.access]
        exact f2

/-- `fix_page` of a page id the store does not hold ends in `load`, on a pool whose
policy tracks resident pages only and whose resident pages are pages of the store. -/
theorem fix_page_beyond (bm : BufferManager) (page_id : Nat) (hp : bm.PolicyOK)
    (hres : ∀ k, (bm.pageMap.lookup k).isSome = true → k < bm.storage_manager.file.length)
    (hout : bm.storage_manager.file.length ≤ pageKey page_id) :
    bm.fix_page page_id = .error .ioError := by
  have hnone : bm.pageMap.lookup (pageKey page_id) = none := by
    cases hl : bm.pageMap.lookup (pageKey page_id) with
    | none => rfl
    | some pg =>
      have := hres (pageKey page_id) (by rw [hl]; rfl)
      omega
  have key : ∀ bm1 : BufferManager,
      bm1.storage_manager.file.length = bm.storage_manager.file.length →
      (do
          let page ← bm1.storage_manager.load (pageKey page_id)
          Except.ok (page, { bm1 with
            policy := (bm1.policy.touch (pageKey page_id)).2,
            pageMap := PageMap.assign bm1.pageMap (pageKey page_id) page }) :
          Except Fault (SlottedPage × BufferManager)) = .error .ioError := by
    intro bm1 h1
    have hget : bm1.storage_manager.file.get? (pageKey page_id) = none := by
      rw [List.get?_eq_getElem?]
      exact List.getElem?_eq_none (by omega)
    simp only [StorageManager.load, hget, bind, Except.bind]
  unfold BufferManager.fix_page
  rw [hnone]
  simp only []
  by_cases hfull : MAX_PAGES_IN_MEMORY ≤ bm.pageMap.length
  · rw [if_pos hfull]
    by_cases hev : bm.policy.evict.1 ≠ INVALID_VALUE
    · rw [if_pos hev]
      have hmem := (evict_mem bm.policy).2 hev
      have hsome := hp _ hmem
      obtain ⟨pg, hpg⟩ := Option.isSome_iff_exists.mp hsome
      have hidx : PageMap.index bm.pageMap bm.policy.evict.1 = (pg, bm.pageMap) := by
        simp [PageMap.index, hpg]
      rw [hidx]
      refine key { storage_manager := bm.storage_manager.flush bm.policy.evict.1 pg,
                   pageMap := bm.pageMap, policy := bm.policy.evict.2 } ?_
      simp only [StorageManager.flush]
      exact wr_length _ _ _ _ (hres _ hsome)
    · rw [if_neg hev]
      exact key { bm with policy := bm.policy.evict.2 } rfl
  · rw [if_neg hfull]
    exact key bm rfl

/-- Whenever `fix_page` returns, the resident pages are still pages of the store. -/
theorem fix_page_resident_in_store (bm bm' : BufferManager) (page_id : Nat)
    (page : SlottedPage) (hp : bm.PolicyOK)
    (hres : ∀ k, (bm.pageMap.lookup k).isSome = true → k < bm.storage_manager.file.length)
    (hok : bm.fix_page page_id = .ok (page, bm')) :
    ∀ k, (bm'.pageMap.lookup k).isSome = true → k < bm'.storage_manager.file.length := by
  unfold BufferManager.fix_page at hok
  cases hl : bm.pageMap.lookup (pageKey page_id) with
  | some pg =>
    rw [hl] at hok
    simp only [Except.ok.injEq, Prod.mk.injEq] at hok
    obtain ⟨rfl, rfl⟩ := hok
    exact hres
  | none =>
    rw [hl] at hok
    simp only [] at hok
    have key : ∀ bm1 : BufferManager, bm1.pageMap = bm.pageMap →
        bm.storage_manager.file.length ≤ bm1.storage_manager.file.length →
        (do
            let page ← bm1.storage_manager.load (pageKey page_id)
            Except.ok (page, { bm1 with
              policy := (bm1.policy.touch (pageKey page_id)).2,
              pageMap := PageMap.assign bm1.pageMap (pageKey page_id) page }) :
            Except Fault (SlottedPage × BufferManager)) = .ok (page, bm') →
        ∀ k, (bm'.pageMap.lookup k).isSome = true →
          k < bm'.storage_manager.file.length := by
      intro bm1 h1 h2 hrun
      cases hload : bm1.storage_manager.load (pageKey page_id) with
      | error e =>
        rw [hload] at hrun
        cases hrun
      | ok pg =>
        rw [hload] at hrun
        simp only [bind, Except.bind, Except.ok.injEq, Prod.mk.injEq] at hrun
        obtain ⟨rfl, rfl⟩ := hrun
        have hin : pageKey page_id < bm1.storage_manager.file.length := by
          by_contra hge
          unfold StorageManager.load at hload
          have hget : bm1.storage_manager.file.get? (pageKey page_id) = none := by
            rw [List.get?_eq_getElem?]
            exact List.getElem?_eq_none (by omega)
          rw [hget] at hload
          cases hload
        intro k hk
        simp only [lookup_assign, h1] at hk
        show k < bm1.storage_manager.file.length
        split_ifs at hk with hkp
        · rw [hkp]; exact hin
        · have := hres k hk
          omega
    by_cases hfull : MAX_PAGES_IN_MEMORY ≤ bm.pageMap.length
    · rw [if_pos hfull] at hok
      by_cases hev : bm.policy.evict.1 ≠ INVALID_VALUE
      · rw [if_pos hev] at hok
        have hmem := (evict_mem bm.policy).2 hev
        have hsome := hp _ hmem
        obtain ⟨pg, hpg⟩ := Option.isSome_iff_exists.mp hsome
        have hidx : PageMap.index bm.pageMap bm.policy.evict.1 = (pg, bm.pageMap) := by
          simp [PageMap.index, hpg]
        rw [hidx] at hok
        refine key { storage_manager := bm.storage_manager.flush bm.policy.evict.1 pg,
                     pageMap := bm.pageMap, policy := bm.policy.evict.2 } rfl ?_ hok
        simp only [StorageManager.flush]
        exact wr_length_le _ _ _ _
      · rw [if_neg hev] at hok
        exact key { bm with policy := bm.policy.evict.2 } rfl (le_refl _) hok
    · rw [if_neg hfull] at hok
      exact key bm rfl (le_refl _) hok

/-- In every reachable state of the pool the resident pages are pages of the store. -/
theorem resident_in_store_of_reach (bm : BufferManager) (h : bm.Reach) :
    ∀ k, (bm.pageMap.lookup k).isSome = true → k < bm.storage_manager.file.length := by
  induction h with
  | new truncate_mode old =>
    intro k hk
    simp [BufferManager.new] at hk
  | extend bm _ ih =>
    intro k hk
    have := ih k hk
    simp only [BufferManager.extend, StorageManager.extend, List.length_append,
      List.length_singleton]
    omega
  | fix_page bm bm' page_id page hr hok ih =>
    exact fix_page_resident_in_store bm bm' page_id page (policyOK_of_reach bm hr) ih hok
  | write bm page_id page _ hres ih =>
    intro k hk
    simp only [BufferManager.write, lookup_assign] at hk
    show k < bm.storage_manager.file.length
    split_ifs at hk with hkp
    · rw [hkp]; exact ih _ hres
    · exact ih k hk

/-- In every reachable state of the pool, `fix_page` of a page id the store does not
hold does not return: `load` ends the process. -/
theorem fix_page_beyond_store (bm : BufferManager) (h : bm.Reach) (page_id : Nat)
    (hout : bm.storage_manager.file.length ≤ pageKey page_id) :
    bm.fix_page page_id = .error .ioError :=
  fix_page_beyond bm page_id (policyOK_of_reach bm h) (resident_in_store_of_reach bm h) hout

/-! ## The height of the tree -/

/-- C1: the ascending inserts `insert(i, 2 i)`, `i = 0 .. 903`, a prefix of the test
`LookupMultipleSplitsIncreasing`, do not all return: the last one writes past the
arrays of the root, so no tree is left on which `lookup` could find the keys. -/
theorem ascending_inserts_fault (fuel : Nat) :
    BTree.insertAll (fuel + 2) (ascending 904 0) BTree.empty = .error .outOfBounds := by
  obtain ⟨t, g1, g2⟩ := ascending_run fuel 860 (le_refl _)
  obtain ⟨_, _, s3⟩ := ascending_step (43 + 860) (860 / 21 + 2) (22 + 860 % 21)
    (2 * 903) fuel t g2
  have hs : ascending 904 0 = ascending 903 0 ++ [(903, 2 * 903)] := ascending_succ 903 0
  rw [hs, insertAll_append, g1]
  simp only [Except.bind, BTree.insertAll, bind]
  rw [show (903 : Nat) = 43 + 860 from rfl, s3 rfl rfl]

/-- C7: after the ascending inserts `insert(i, 2 i)`, `i = 0 .. 902`, of the test
`LookupMultipleSplitsIncreasing`, the root is an inner node with `kCapacity` (42)
children; the next insert of that test, `insert(903, 1806)`, has to add a 43rd child:
it does not split the root but writes the separator and the child past the arrays of
the root. -/
theorem root_overflow (fuel : Nat) :
    ∃ t r, BTree.insertAll (fuel + 2) (ascending 903 0) BTree.empty = .ok t ∧
      t.root = some r ∧ (t.node r).level = 1 ∧ (t.node r).count = kCapacity ∧
      BTree.insert (fuel + 2) t 903 1806 = .error .outOfBounds := by
  obtain ⟨t, g1, g2⟩ := ascending_run fuel 860 (le_refl _)
  obtain ⟨_, _, s3⟩ := ascending_step (43 + 860) (860 / 21 + 2) (22 + 860 % 21) 1806 fuel t g2
  obtain ⟨_, r, hr, hin, hc, _⟩ := g2
  exact ⟨t, r, g1, hr, hin.1, hc, s3 rfl rfl⟩

/-- C8: `insert(k, v)` on a tree whose root is absent takes page 1, the next free id of
a fresh tree (`next_page_id` becomes 2), makes it the root, and that root is a leaf
(level 0) with `count = 1` holding the pair `(k, v)`. -/
theorem insert_into_rootless (t : BTree) (key value fuel : Nat) (hroot : t.root = none)
    (hnext : t.next_page_id = 1) (hpolicy : t.buffer_manager.PolicyOK)
    (hfile : MAX_PAGES ≤ t.buffer_manager.storage_manager.file.length) :
    ∃ t', BTree.insert fuel t key value = .ok t' ∧ t'.root = some 1 ∧
      t'.next_page_id = 2 ∧ (t'.node 1).level = 0 ∧ (t'.node 1).count = 1 ∧
      rd 0 (t'.node 1).keys 0 = key ∧ rd 0 (t'.node 1).values 0 = value := by
  have hinv : TreeInv t := ⟨hpolicy, hfile, by rw [hroot]; exact hnext⟩
  obtain ⟨bm', leaf, e1, e2, e3, e4, e5, e6, e7, e8⟩ := insert_empty t key value fuel hinv hroot
  have hc1 : bm'.content 1 = leaf := by rw [e4 1 (by omega), if_pos rfl]
  refine ⟨_, e1, rfl, rfl, ?_, ?_, ?_, ?_⟩ <;> simp only [BTree.node] <;> rw [hc1]
  · exact e5.1
  · exact e6
  · exact e7
  · exact e8

theorem insert_into_rootless_witness :
    BTree.empty.root = none ∧ BTree.empty.next_page_id = 1 ∧
    BTree.empty.buffer_manager.PolicyOK ∧
    MAX_PAGES ≤ BTree.empty.buffer_manager.storage_manager.file.length ∧
    ∃ t', BTree.insert 2 BTree.empty 42 21 = .ok t' ∧ t'.root = some 1 ∧
      t'.next_page_id = 2 ∧ (t'.node 1).level = 0 ∧ (t'.node 1).count = 1 ∧
      rd 0 (t'.node 1).keys 0 = 42 ∧ rd 0 (t'.node 1).values 0 = 21 :=
  ⟨rfl, rfl, treeInv_empty.1, treeInv_empty.2.1,
    insert_into_rootless BTree.empty 42 21 2 rfl rfl treeInv_empty.1 treeInv_empty.2.1⟩

/-- C9: inserting `n` distinct keys, `1 ≤ n ≤ kCapacity` (42), in any order into the
empty tree returns a tree that is a single leaf: the root is page 1, a leaf with
`count = n`, and no other page was allocated (`next_page_id` is still 2). -/
theorem single_leaf_up_to_capacity (fuel : Nat) (kvs : List (Nat × Nat))
    (h1 : 1 ≤ kvs.length) (h2 : kvs.length ≤ kCapacity) (hnd : (kvs.map Prod.fst).Nodup)
    (hf : 1 ≤ fuel) :
    ∃ t, BTree.insertAll fuel kvs BTree.empty = .ok t ∧ t.root = some 1 ∧
      t.next_page_id = 2 ∧ (t.node 1).level = 0 ∧ (t.node 1).count = kvs.length := by
  obtain ⟨f, rfl⟩ := Nat.exists_eq_add_of_le hf
  obtain ⟨t, g1, _, g3, g4, g5, g6⟩ := empty_insertAll f kvs h1 h2 hnd
  rw [Nat.add_comm] at g1
  exact ⟨t, g1, g3, g4, g5.1, g6⟩

theorem single_leaf_up_to_capacity_witness :
    1 ≤ (ascending 42 0).length ∧ (ascending 42 0).length ≤ kCapacity ∧
    ((ascending 42 0).map Prod.fst).Nodup ∧ 1 ≤ 2 ∧
    ∃ t, BTree.insertAll 2 (ascending 42 0) BTree.empty = .ok t ∧ t.root = some 1 ∧
      t.next_page_id = 2 ∧ (t.node 1).level = 0 ∧
      (t.node 1).count = (ascending 42 0).length :=
  ⟨by decide, by decide, by decide, by decide,
    single_leaf_up_to_capacity 2 (ascending 42 0) (by decide) (by decide) (by decide)
      (by decide)⟩

set_option maxRecDepth 100000 in
/-- C11 fails on the code: after the inserts `insert(i, 2 i)`, `i = 0 .. 41`, the root is
the leaf of page 1, full, and holds key 0; `insert(0, 7)` then splits that leaf before it
overwrites: the root becomes the new inner node of page 3, `next_page_id` goes from 2 to
4, and page 1 keeps 21 of its 42 keys. -/
theorem overwrite_in_full_leaf_grows_tree :
    ∃ t t', BTree.insertAll 2 (ascending 42 0) BTree.empty = .ok t ∧
      t.root = some 1 ∧ t.next_page_id = 2 ∧ (t.node 1).level = 0 ∧
      (t.node 1).count = 42 ∧ rd 0 (t.node 1).keys 0 = 0 ∧ rd 0 (t.node 1).values 0 = 0 ∧
      BTree.insert 2 t 0 7 = .ok t' ∧
      t'.root = some 3 ∧ t'.next_page_id = 4 ∧ (t'.node 3).level = 1 ∧
      (t'.node 3).count = 2 ∧ (t'.node 1).count = 21 ∧ (t'.node 2).count = 21 ∧
      rd 0 (t'.node 1).values 0 = 7 :=
  ⟨_, _, rfl, rfl, rfl, rfl, rfl, rfl, rfl, rfl, rfl, rfl, rfl, rfl, rfl, rfl, rfl⟩

/-- C14 fails on the code: the 420 ascending inserts of the test `Persistant Btree`
return a tree on which `lookup(i)` gives `2 i` for every `i < 420`; but on the tree the
second block of that test constructs over the reopened file the root is absent, and
`lookup` returns absent for every key, whatever order the destructor flushed in. -/
theorem fresh_tree_over_reopened_file_finds_nothing :
    ∃ t, BTree.insertAll 2 (ascending 420 0) BTree.empty = .ok t ∧
      (∀ i : Fin 420, ∃ t', BTree.lookup 2 t i.val = .ok (some (2 * i.val), t')) ∧
      ∀ (order : List Nat) (i g : Nat),
        BTree.lookup g (BTree.new (BufferManager.new false
          (BufferManager.destructor_loop order t.buffer_manager).storage_manager.file)) i =
        .ok (none, BTree.new (BufferManager.new false
          (BufferManager.destructor_loop order t.buffer_manager).storage_manager.file)) := by
  obtain ⟨t, h1, _⟩ := ascending_run 0 377 (by decide)
  refine ⟨t, h1, ?_, fun _ _ _ => rfl⟩
  intro i
  obtain ⟨t', ht'⟩ := lookup_after_inserts 2 (ascending 420 0) t i.val 2 h1 (le_refl _)
  rw [lastWrite_ascending 420 0 i.val (Nat.zero_le _) (by have := i.isLt; omega)] at ht'
  exact ⟨t', ht'⟩

set_option maxRecDepth 100000 in
/-- C15 fails on the code: after `fix_page(0)`, ..., `fix_page(10)` on a new
`BufferManager` the resident map holds 11 pages, more than `MAX_PAGES_IN_MEMORY`; page 0,
the victim the policy gave up, is still in the map. -/
theorem resident_map_exceeds_capacity :
    ∃ bm, BufferManager.fixAll (List.range 11) (BufferManager.new true []) = .ok bm ∧
      bm.pageMap.length = 11 ∧ MAX_PAGES_IN_MEMORY < bm.pageMap.length ∧
      (bm.pageMap.lookup 0).isSome = true ∧ 0 ∉ bm.policy.lruList :=
  ⟨_, rfl, rfl, by decide, rfl, by decide⟩

/-- C16: on every state a policy of capacity at least 1 reaches by `touch` and `evict`
calls, `touch(page_id)` returns true exactly when `page_id` was tracked, and afterwards
`page_id` is at the front of the recency list, followed by other ids of the old list in
their old order (all the others when `page_id` was tracked). -/
theorem touch_moves_to_front (c : Nat) (calls : List PolicyCall) (page_id : Nat)
    (hc : 1 ≤ c) :
    ((((LruPolicy.new c).run calls).touch page_id).1 = true ↔
      page_id ∈ ((LruPolicy.new c).run calls).lruList) ∧
    ∃ rest, (((LruPolicy.new c).run calls).touch page_id).2.lruList = page_id :: rest ∧
      page_id ∉ rest ∧ rest.Sublist ((LruPolicy.new c).run calls).lruList ∧
      (page_id ∈ ((LruPolicy.new c).run calls).lruList →
        rest = ((LruPolicy.new c).run calls).lruList.erase page_id) := by
  obtain ⟨i1, i2, _, _⟩ := lruOrdered_run c calls
  have hcs := run_cacheSize calls (LruPolicy.new c)
  generalize (LruPolicy.new c).run calls = p at i1 i2 hcs ⊢
  have hc1 : 1 ≤ p.cacheSize := by rw [hcs]; exact hc
  refine ⟨?_, _, touch_list p page_id hc1 i2 i1, ?_, ?_, ?_⟩
  · simp only [LruPolicy.touch, decide_eq_true_eq]
  · split_ifs with h1 h2
    · exact fun h => (List.Nodup.mem_erase_iff i1).mp h |>.1 rfl
    · exact fun h => h1 ((List.dropLast_sublist _).subset h)
    · exact h1
  · split_ifs
    · exact List.erase_sublist _ _
    · exact List.dropLast_sublist _
    · exact List.Sublist.refl _
  · intro h
    rw [if_pos h]

theorem touch_moves_to_front_witness :
    ((((LruPolicy.new 2).run [.touch 7, .touch 8]).touch 7).1 = true ↔
      7 ∈ ((LruPolicy.new 2).run [.touch 7, .touch 8]).lruList) ∧
    ∃ rest, (((LruPolicy.new 2).run [.touch 7, .touch 8]).touch 7).2.lruList = 7 :: rest ∧
      7 ∉ rest ∧ rest.Sublist ((LruPolicy.new 2).run [.touch 7, .touch 8]).lruList ∧
      (7 ∈ ((LruPolicy.new 2).run [.touch 7, .touch 8]).lruList →
        rest = ((LruPolicy.new 2).run [.touch 7, .touch 8]).lruList.erase 7) :=
  touch_moves_to_front 2 [.touch 7, .touch 8] 7 (by decide)

/-- C17: on every state a policy reaches by `touch` and `evict` calls, `evict()` on a
non-empty policy returns a tracked id whose most recent touch is older than that of
every other tracked id, and afterwards exactly the other ids are tracked, in their old
order; on an empty policy it returns `INVALID_VALUE` and leaves the state as it is. -/
theorem evict_least_recently_used (c : Nat) (calls : List PolicyCall) :
    (((LruPolicy.new c).run calls).lruList ≠ [] →
      ((LruPolicy.new c).run calls).evict.1 ∈ ((LruPolicy.new c).run calls).lruList ∧
      (∀ q, q ∈ ((LruPolicy.new c).run calls).lruList →
        q ≠ ((LruPolicy.new c).run calls).evict.1 →
        ∃ m n, lastTouch calls ((LruPolicy.new c).run calls).evict.1 = some m ∧
          lastTouch calls q = some n ∧ m < n) ∧
      (∀ x, x ∈ ((LruPolicy.new c).run calls).evict.2.lruList ↔
        (x ∈ ((LruPolicy.new c).run calls).lruList ∧
          x ≠ ((LruPolicy.new c).run calls).evict.1)) ∧
      ((LruPolicy.new c).run calls).evict.2.lruList.Sublist
        ((LruPolicy.new c).run calls).lruList) ∧
    (((LruPolicy.new c).run calls).lruList = [] →
      ((LruPolicy.new c).run calls).evict =
        (INVALID_VALUE, (LruPolicy.new c).run calls)) := by
  obtain ⟨i1, i2, i3, i4⟩ := lruOrdered_run c calls
  generalize (LruPolicy.new c).run calls = p at i1 i2 i3 i4 ⊢
  constructor
  · intro hne
    obtain ⟨e1, e2, e3⟩ := evict_nonempty p i1 hne
    refine ⟨e1, ?_, e3, ?_⟩
    · intro q hq hqv
      obtain ⟨m, hm⟩ := i3 _ e1
      obtain ⟨n, hn⟩ := i3 q hq
      refine ⟨m, n, hm, hn, ?_⟩
      rw [e2] at i4
      have := (List.pairwise_append.mp i4).2.2 q ((e3 q).mpr ⟨hq, hqv⟩) _
        (List.mem_singleton_self _)
      exact this n m hn hm
    · rw [evict_list]
      exact List.dropLast_sublist _
  · intro he
    obtain ⟨l, cs⟩ := p
    simp only at he
    subst he
    rfl

theorem evict_least_recently_used_witness :
    ((LruPolicy.new 2).run [.touch 7, .touch 8, .touch 7]).lruList ≠ [] ∧
    ((LruPolicy.new 2).run [.touch 7, .touch 8, .touch 7]).evict.1 = 8 ∧
    (((LruPolicy.new 2).run [.touch 7, .touch 8, .touch 7]).evict.1 ∈
        ((LruPolicy.new 2).run [.touch 7, .touch 8, .touch 7]).lruList ∧
      (∀ q, q ∈ ((LruPolicy.new 2).run [.touch 7, .touch 8, .touch 7]).lruList →
        q ≠ ((LruPolicy.new 2).run [.touch 7, .touch 8, .touch 7]).evict.1 →
        ∃ m n, lastTouch [.touch 7, .touch 8, .touch 7]
            ((LruPolicy.new 2).run [.touch 7, .touch 8, .touch 7]).evict.1 = some m ∧
          lastTouch [.touch 7, .touch 8, .touch 7] q = some n ∧ m < n) ∧
      (∀ x, x ∈ ((LruPolicy.new 2).run [.touch 7, .touch 8, .touch 7]).evict.2.lruList ↔
        (x ∈ ((LruPolicy.new 2).run [.touch 7, .touch 8, .touch 7]).lruList ∧
          x ≠ ((LruPolicy.new 2).run [.touch 7, .touch 8, .touch 7]).evict.1)) ∧
      ((LruPolicy.new 2).run [.touch 7, .touch 8, .touch 7]).evict.2.lruList.Sublist
        ((LruPolicy.new 2).run [.touch 7, .touch 8, .touch 7]).lruList) :=
  ⟨by decide, by decide,
    (evict_least_recently_used 2 [.touch 7, .touch 8, .touch 7]).1 (by decide)⟩

/-- C18 as stated fails for capacity 0: no id is tracked (exactly `c = 0` of them), 5 is
untracked, and `touch(5)` does not track it. -/
theorem touch_capacity_zero :
    (LruPolicy.new 0).lruList.length = (LruPolicy.new 0).cacheSize ∧
    5 ∉ (LruPolicy.new 0).lruList ∧ 5 ∉ ((LruPolicy.new 0).touch 5).2.lruList := by
  decide

/-- C18, amended: on every state a policy of capacity `c` reaches by `touch` and `evict`
calls at most `c` ids are tracked; for `c ≥ 1`, a touch of an untracked id while exactly
`c` ids are tracked leaves the new id in front of what `evict()` leaves (the least
recently used id is gone, the new id is tracked); and a touch of a tracked id keeps
every tracked id. -/
theorem tracked_within_capacity (c : Nat) (calls : List PolicyCall) (page_id : Nat) :
    ((LruPolicy.new c).run calls).lruList.length ≤ c ∧
    (1 ≤ c → page_id ∉ ((LruPolicy.new c).run calls).lruList →
      ((LruPolicy.new c).run calls).lruList.length = c →
      (((LruPolicy.new c).run calls).touch page_id).2.lruList =
          page_id :: ((LruPolicy.new c).run calls).evict.2.lruList ∧
        ((LruPolicy.new c).run calls).evict.1 ∈ ((LruPolicy.new c).run calls).lruList ∧
        ((LruPolicy.new c).run calls).evict.1 ∉
          (((LruPolicy.new c).run calls).touch page_id).2.lruList) ∧
    (page_id ∈ ((LruPolicy.new c).run calls).lruList →
      ((((LruPolicy.new c).run calls).touch page_id).2.lruList.length =
          ((LruPolicy.new c).run calls).lruList.length) ∧
        ∀ x, x ∈ (((LruPolicy.new c).run calls).touch page_id).2.lruList ↔
          x ∈ ((LruPolicy.new c).run calls).lruList) := by
  obtain ⟨i1, i2, _, _⟩ := lruOrdered_run c calls
  have hcs := run_cacheSize calls (LruPolicy.new c)
  generalize (LruPolicy.new c).run calls = p at i1 i2 hcs ⊢
  have hcs2 : p.cacheSize = c := hcs
  rw [hcs2] at i2
  refine ⟨i2, ?_, ?_⟩
  · intro hc hnot hfull
    have hne : p.lruList ≠ [] := by
      intro h
      rw [h] at hfull
      simp only [List.length_nil] at hfull
      omega
    obtain ⟨e1, _, e3⟩ := evict_nonempty p i1 hne
    have hl := touch_list p page_id (by omega) (by omega) i1
    rw [if_neg hnot, if_pos (by omega), ← evict_list] at hl
    refine ⟨hl, e1, ?_⟩
    rw [hl]
    intro h
    rcases List.mem_cons.mp h with h | h
    · exact hnot (h ▸ e1)
    · exact ((e3 _).mp h).2 rfl
  · intro hin
    have hpos := List.length_pos_of_mem hin
    have hl := touch_list p page_id (by omega) (by omega) i1
    rw [if_pos hin] at hl
    rw [hl]
    refine ⟨?_, ?_⟩
    · rw [List.length_cons, List.length_erase_of_mem hin]
      omega
    · intro x
      by_cases hx : x = page_id
      · subst hx
        simp only [List.mem_cons, true_or, true_iff]
        exact hin
      · rw [List.mem_cons, List.mem_erase_of_ne hx]
        simp only [hx, false_or]

theorem tracked_within_capacity_witness :
    (1 ≤ 2 ∧ 9 ∉ ((LruPolicy.new 2).run [.touch 7, .touch 8]).lruList ∧
      ((LruPolicy.new 2).run [.touch 7, .touch 8]).lruList.length = 2 ∧
      (((LruPolicy.new 2).run [.touch 7, .touch 8]).touch 9).2.lruList = [9, 8]) ∧
    (8 ∈ ((LruPolicy.new 2).run [.touch 7, .touch 8]).lruList ∧
      ∀ x, x ∈ (((LruPolicy.new 2).run [.touch 7, .touch 8]).touch 8).2.lruList ↔
        x ∈ ((LruPolicy.new 2).run [.touch 7, .touch 8]).lruList) :=
  ⟨⟨by decide, by decide, by decide,
      ((tracked_within_capacity 2 [.touch 7, .touch 8] 9).2.1 (by decide) (by decide)
        (by decide)).1⟩,
    by decide, ((tracked_within_capacity 2 [.touch 7, .touch 8] 8).2.2 (by decide)).2⟩

/-- C19: `fix_page(page_id)` on a resident page returns the page held in the map, also
after it was mutated through an earlier reference; the store and the resident map are
left as they are, and the policy is the one `touch(page_id)` gives. -/
theorem fix_page_resident (bm : BufferManager) (page_id : Nat) (page : SlottedPage)
    (h : bm.pageMap.lookup (pageKey page_id) = some page) :
    (∃ bm', bm.fix_page page_id = .ok (page, bm') ∧
      bm'.storage_manager = bm.storage_manager ∧ bm'.pageMap = bm.pageMap ∧
      bm'.policy = (bm.policy.touch (pageKey page_id)).2) ∧
    ∀ mutated, ∃ bm', (bm.write page_id mutated).fix_page page_id = .ok (mutated, bm') ∧
      bm'.storage_manager = bm.storage_manager ∧
      bm'.pageMap = (bm.write page_id mutated).pageMap ∧
      bm'.policy = (bm.policy.touch (pageKey page_id)).2 := by
  constructor
  · refine ⟨{ bm with policy := (bm.policy.touch (pageKey page_id)).2 }, ?_, rfl, rfl, rfl⟩
    unfold BufferManager.fix_page
    rw [h]
  · intro mutated
    refine ⟨{ bm.write page_id mutated with policy := (bm.policy.touch (pageKey page_id)).2 },
      ?_, rfl, rfl, rfl⟩
    unfold BufferManager.fix_page
    have : (bm.write page_id mutated).pageMap.lookup (pageKey page_id) = some mutated := by
      simp only [BufferManager.write, lookup_assign, if_true]
    rw [this]
    rfl

theorem fix_page_resident_witness :
    List.lookup (pageKey 1) [(1, SlottedPage.fresh)] = some SlottedPage.fresh ∧
    ∃ bm', BufferManager.fix_page
        ⟨⟨[SlottedPage.zero, SlottedPage.zero, SlottedPage.zero], 3⟩,
          [(1, SlottedPage.fresh)], ⟨[1], 10⟩⟩ 1 = .ok (SlottedPage.fresh, bm') ∧
      bm'.storage_manager = ⟨[SlottedPage.zero, SlottedPage.zero, SlottedPage.zero], 3⟩ ∧
      bm'.pageMap = [(1, SlottedPage.fresh)] ∧
      bm'.policy = (LruPolicy.touch ⟨[1], 10⟩ (pageKey 1)).2 :=
  ⟨rfl, (fix_page_resident
    ⟨⟨[SlottedPage.zero, SlottedPage.zero, SlottedPage.zero], 3⟩,
      [(1, SlottedPage.fresh)], ⟨[1], 10⟩⟩ 1 SlottedPage.fresh rfl).1⟩

/-- C20: the destructor, in whatever order it visits the entries of the resident map,
leaves every resident page in the store with the content it has in memory, and leaves the
store pages of the other ids as they were. -/
theorem destructor_flushes_resident_pages (bm : BufferManager) (order : List Nat)
    (hperm : order.Perm (bm.pageMap.map Prod.fst))
    (hkeys : ∀ k, k ∈ bm.pageMap.map Prod.fst → k < 65536) (p : Nat) :
    (∀ page, bm.pageMap.lookup p = some page →
      p < (BufferManager.destructor_loop order bm).storage_manager.file.length ∧
      rd SlottedPage.zero (BufferManager.destructor_loop order bm).storage_manager.file p =
        page) ∧
    (bm.pageMap.lookup p = none →
      rd SlottedPage.zero (BufferManager.destructor_loop order bm).storage_manager.file p =
        rd SlottedPage.zero bm.storage_manager.file p) := by
  have hres : ∀ k, k ∈ order → k < 65536 ∧ (bm.pageMap.lookup k).isSome = true := by
    intro k hk
    have hk2 := hperm.subset hk
    exact ⟨hkeys k hk2, (lookup_isSome_iff _ _).mpr hk2⟩
  obtain ⟨_, _, h3⟩ := destructor_loop_spec order bm hres
  obtain ⟨_, l2⟩ := destructor_loop_length order bm
  constructor
  · intro page hp
    have hin : p ∈ order :=
      hperm.symm.subset ((lookup_isSome_iff _ _).mp (by rw [hp]; rfl))
    refine ⟨?_, ?_⟩
    · have := l2 p hin
      rwa [pageKey_small (hres p hin).1] at this
    · rw [h3 p, if_pos hin, hp]
      rfl
  · intro hp
    have hnot : p ∉ order := by
      intro hin
      have := (hres p hin).2
      rw [hp] at this
      simp at this
    rw [h3 p, if_neg hnot]

theorem destructor_flushes_resident_pages_witness :
    [1].Perm ([(1, SlottedPage.fresh)].map Prod.fst) ∧
    1 < (BufferManager.destructor_loop [1]
      ⟨⟨[SlottedPage.zero, SlottedPage.zero, SlottedPage.zero], 3⟩,
        [(1, SlottedPage.fresh)], LruPolicy.new 10⟩).storage_manager.file.length ∧
    rd SlottedPage.zero (BufferManager.destructor_loop [1]
      ⟨⟨[SlottedPage.zero, SlottedPage.zero, SlottedPage.zero], 3⟩,
        [(1, SlottedPage.fresh)], LruPolicy.new 10⟩).storage_manager.file 1 =
      SlottedPage.fresh :=
  ⟨List.Perm.refl _,
    (destructor_flushes_resident_pages
      ⟨⟨[SlottedPage.zero, SlottedPage.zero, SlottedPage.zero], 3⟩,
        [(1, SlottedPage.fresh)], LruPolicy.new 10⟩ [1] (List.Perm.refl _)
      (by decide) 1).1 SlottedPage.fresh rfl⟩

/-- C22 fails on the code: a store that already has more than `till_page_id + 1` pages.
`StorageManager(false)` on a file of 1002 pages keeps `num_pages = 1002`; the call
`extend(MAX_PAGES)` that the constructor of `BufferManager` makes next computes
`till_page_id + 1 - num_pages` in `uint64_t`, gets `2^64 - 1` and a write size of
`2^64 - 4096` bytes, takes the branch `write_size > 0`, appends `2^52 - 1` pages and
sets `num_pages` back to 1001: it is no no-op. -/
theorem extend_till_wraps_below :
    (StorageManager.new false (List.replicate 1002 SlottedPage.zero)).num_pages = 1002 ∧
    ((StorageManager.new false (List.replicate 1002 SlottedPage.zero)).extend_till
      MAX_PAGES).num_pages = 1001 ∧
    ((StorageManager.new false (List.replicate 1002 SlottedPage.zero)).extend_till
      MAX_PAGES).file.length = 1002 + (2 ^ 52 - 1) := by
  have hnew : StorageManager.new false (List.replicate 1002 SlottedPage.zero) =
      { file := List.replicate 1002 SlottedPage.zero, num_pages := 1002 } := by
    have hlen : (List.replicate 1002 SlottedPage.zero).length = 1002 :=
      List.length_replicate _ _
    unfold StorageManager.new
    simp only [Bool.false_eq_true, if_false, hlen]
    rw [if_neg (by decide)]
  have hw : ((MAX_PAGES + 1 + (2 ^ 64 - 1002 % 2 ^ 64)) % 2 ^ 64 * PAGE_SIZE) % 2 ^ 64 =
      2 ^ 64 - 4096 := by
    norm_num [MAX_PAGES, PAGE_SIZE]
  have hpos : 0 < 2 ^ 64 - 4096 := by norm_num
  have hdiv : (2 ^ 64 - 4096) / PAGE_SIZE = 2 ^ 52 - 1 := by
    norm_num [PAGE_SIZE]
  have hm : (MAX_PAGES + 1) % 2 ^ 64 = 1001 := by
    norm_num [MAX_PAGES]
  rw [hnew]
  unfold StorageManager.extend_till
  simp only [hw, hpos, if_true, hdiv, hm, List.length_append, List.length_replicate,
    and_self]

set_option maxRecDepth 1000000 in
/-- C23, counterexample: a tree instantiated with the ordering `std::greater`
(`ComparatorT a b` is `b < a`) after `insert(1, 10)` and `insert(2, 20)`.  Its root leaf
holds the keys in the order 1, 2, the ascending order of the built-in `<`, which is not
the order of `ComparatorT`. -/
theorem comparator_greater_ignored :
    ∃ t, BTree.insertAllWith (fun a b => decide (b < a)) 2 [(1, 10), (2, 20)] BTree.empty =
        .ok t ∧
      t.root = some 1 ∧ (t.node 1).level = 0 ∧ (t.node 1).count = 2 ∧
      rd 0 (t.node 1).keys 0 = 1 ∧ rd 0 (t.node 1).keys 1 = 2 ∧
      ¬ SortedBy (fun a b => decide (b < a)) (t.node 1) :=
  ⟨_, rfl, rfl, rfl, rfl, rfl, rfl, fun hs => absurd (hs 0 1 (by decide) (by decide)) (by decide)⟩

/-- C23, as the code has it: whatever ordering `ComparatorT` the tree is instantiated
with, the keys are compared with the built-in operators of the key type: the inserts
build the same tree for every `ComparatorT`, every leaf of it is sorted in the strictly
ascending order of `<`, and `lookup` finds a key by `==`, returning the value last
written for it. -/
theorem comparisons_are_builtin (ComparatorT : Nat → Nat → Bool) (fuel : Nat)
    (kvs : List (Nat × Nat)) (t : BTree)
    (hbuilt : BTree.insertAllWith ComparatorT fuel kvs BTree.empty = .ok t) :
    BTree.insertAll fuel kvs BTree.empty = .ok t ∧
    (∀ r p, t.root = some r → Descends t.node r p → (t.node p).level = 0 →
      LeafSorted (t.node p)) ∧
    (∀ k g, 2 ≤ g → ∃ t', BTree.lookupWith ComparatorT g t k = .ok (lastWrite kvs k, t')) := by
  rw [insertAllWith_eq] at hbuilt
  have hinv := (insertAll_spec fuel kvs _ t treeInv_empty hbuilt).1
  refine ⟨hbuilt, ?_, ?_⟩
  · intro r p hr hp hlev
    exact (leaves_of_treeInv t hinv r p hr hp hlev).2.2
  · intro k g hg
    exact lookup_after_inserts fuel kvs t k g hbuilt hg

set_option maxRecDepth 1000000 in
theorem comparisons_are_builtin_witness :
    BTree.insertAllWith (fun a b => decide (b < a)) 2 [(1, 10), (2, 20)] BTree.empty =
      .ok (treeOf [(1, 10), (2, 20)]) ∧
    LeafSorted ((treeOf [(1, 10), (2, 20)]).node 1) ∧
    ∃ t', BTree.lookupWith (fun a b => decide (b < a)) 2 (treeOf [(1, 10), (2, 20)]) 2 =
      .ok (some 20, t') :=
  have hb : BTree.insertAllWith (fun a b => decide (b < a)) 2 [(1, 10), (2, 20)]
      BTree.empty = .ok (treeOf [(1, 10), (2, 20)]) := rfl
  ⟨hb,
    (comparisons_are_builtin (fun a b => decide (b < a)) 2 [(1, 10), (2, 20)] _ hb).2.1
      1 1 rfl (Descends.refl 1) rfl,
    (comparisons_are_builtin (fun a b => decide (b < a)) 2 [(1, 10), (2, 20)] _ hb).2.2
      2 2 (le_refl _)⟩

/-- C24: `LeafNode::split` of a leaf with `c ≤ kCapacity` pairs into any leaf returns;
with `mid = c / 2`, the left leaf keeps exactly the entries `[0, mid)` with
`count = mid`, the right leaf holds exactly the entries `[mid, c)` in the same order
with `count = c - mid`, the separator is `keys[0]` of the right leaf (the former
`keys[mid]` when `c ≥ 1`), left and right entries together are the original entries,
and for `c = kCapacity` each side holds at most `kCapacity / 2` pairs. -/
theorem leaf_split_halves (n leaf_node : SlottedPage) (hc : n.count ≤ kCapacity) :
    ∃ sep L R, LeafNode.split n leaf_node = .ok (sep, L, R) ∧
      L.count = n.count / 2 ∧ L.entries = n.entries.take (n.count / 2) ∧
      R.count = n.count - n.count / 2 ∧ R.entries = n.entries.drop (n.count / 2) ∧
      sep = rd 0 R.keys 0 ∧ (1 ≤ n.count → sep = rd 0 n.keys (n.count / 2)) ∧
      L.entries ++ R.entries = n.entries ∧
      L.level = n.level ∧ R.level = leaf_node.level ∧
      (n.count = kCapacity → L.count ≤ kCapacity / 2 ∧ R.count ≤ kCapacity / 2) := by
  obtain ⟨r, h1, h2, h3, _, h5, h6⟩ := leaf_split_spec n leaf_node hc
  have hk : kCapacity = 42 := rfl
  have hL : SlottedPage.entries { n with count := n.count / 2 } =
      n.entries.take (n.count / 2) := by
    apply List.ext_getElem
    · simp only [entries_length, List.length_take]
      omega
    · intro i hi1 hi2
      rw [entries_getElem, List.getElem_take, entries_getElem]
  have hR : r.entries = n.entries.drop (n.count / 2) := by
    apply List.ext_getElem
    · simp only [entries_length, List.length_drop, h3]
    · intro i hi1 hi2
      rw [entries_length, h3] at hi1
      rw [entries_getElem, List.getElem_drop, entries_getElem, h5 i hi1, h6 i hi1]
  refine ⟨_, _, _, h1, rfl, hL, h3, hR, rfl, ?_, ?_, rfl, h2, ?_⟩
  · intro hc1
    have := h5 0 (by omega)
    rw [this, Nat.add_zero]
  · rw [hL, hR, List.take_append_drop]
  · intro hfull
    simp only []
    omega

theorem leaf_split_halves_witness :
    (SlottedPage.mk 0 3 false [5, 7, 9] [50, 70, 90] []).count ≤ kCapacity ∧
    ∃ sep L R, LeafNode.split (SlottedPage.mk 0 3 false [5, 7, 9] [50, 70, 90] [])
        SlottedPage.zero = .ok (sep, L, R) ∧
      L.count = 3 / 2 ∧ L.entries = [(5, 50)] ∧
      R.count = 3 - 3 / 2 ∧ R.entries = [(7, 70), (9, 90)] ∧ sep = 7 := by
  refine ⟨by decide, ?_⟩
  obtain ⟨sep, L, R, h1, h2, h3, h4, h5, _, h7, _⟩ :=
    leaf_split_halves (SlottedPage.mk 0 3 false [5, 7, 9] [50, 70, 90] []) SlottedPage.zero
      (by decide)
  exact ⟨sep, L, R, h1, h2, by rw [h3]; rfl, h4, by rw [h5]; rfl, by rw [h7 (by decide)]; rfl⟩

set_option maxRecDepth 1000000 in
/-- C26 fails on the code: the root the tree holds after the inserts `insert(i, 2 i)`,
`i = 0 .. 84`, an inner node with `count = 4` children (pages 1, 2, 4, 5) and the
separators 21, 42, 63.  `InnerNode::split` of it gives `mid = 2`, returns the separator 63
and sets the count of the left node to `mid = 2`, not to `mid + 1 = 3`: the left node
still holds page 4 in `children[2]`, but `lower_bound` on it only yields the indices 0
and 1, and the right node (count `4 - (mid + 1) = 1`, level as on the left) holds page 5
only. -/
theorem inner_split_left_count :
    (treeOf (ascending 85 0)).root = some 3 ∧
    ((treeOf (ascending 85 0)).node 3).count = 4 ∧
    ((treeOf (ascending 85 0)).node 3).children = [1, 2, 4, 5] ∧
    ((treeOf (ascending 85 0)).node 3).keys = [21, 42, 63] ∧
    ∃ L R, InnerNode.split ((treeOf (ascending 85 0)).node 3) SlottedPage.zero =
        .ok (63, L, R) ∧
      L.count = 2 ∧ L.count ≠ 4 / 2 + 1 ∧ rd 0 L.children 2 = 4 ∧
      (∀ key, (InnerNode.lower_bound L key).1 < 2) ∧
      R.count = 4 - (4 / 2 + 1) ∧ rd 0 R.children 0 = 5 ∧ R.level = L.level :=
  ⟨rfl, rfl, rfl, rfl, _, _, rfl, rfl, by decide, rfl,
    fun key => (lower_bound_spec _ key).1 (by decide), rfl, rfl, rfl⟩

/-- C27: on an inner node with `c ≥ 1` children (separators `keys[0 .. c-2]`), the
index `InnerNode::lower_bound(key).first` is less than `c`, it is the smallest
`i ≤ c - 2` with `key < keys[i]` when there is one, and `c - 1` when there is none. -/
theorem lower_bound_descent_index (n : SlottedPage) (key : Nat) (hc : 1 ≤ n.count) :
    (InnerNode.lower_bound n key).1 < n.count ∧
    (∀ i, i + 1 < n.count → key < rd 0 n.keys i → (InnerNode.lower_bound n key).1 ≤ i) ∧
    ((InnerNode.lower_bound n key).1 + 1 < n.count →
      key < rd 0 n.keys (InnerNode.lower_bound n key).1) ∧
    ((∀ i, i + 1 < n.count → rd 0 n.keys i ≤ key) →
      (InnerNode.lower_bound n key).1 = n.count - 1) := by
  obtain ⟨l1, l2, l3⟩ := lower_bound_spec n key
  have hlt := l1 (by omega)
  refine ⟨hlt, ?_, l3, ?_⟩
  · intro i _ hi
    by_contra hne
    have := l2 i (by omega)
    omega
  · intro hall
    by_contra hne
    have h1 : (InnerNode.lower_bound n key).1 + 1 < n.count := by omega
    have := l3 h1
    have := hall _ h1
    omega

theorem lower_bound_descent_index_witness :
    1 ≤ (SlottedPage.mk 1 3 false [10, 20] [] [1, 2, 4]).count ∧
    (InnerNode.lower_bound (SlottedPage.mk 1 3 false [10, 20] [] [1, 2, 4]) 15).1 = 1 ∧
    (InnerNode.lower_bound (SlottedPage.mk 1 3 false [10, 20] [] [1, 2, 4]) 15).1 < 3 ∧
    (InnerNode.lower_bound (SlottedPage.mk 1 3 false [10, 20] [] [1, 2, 4]) 25).1 = 3 - 1 :=
  ⟨by decide, by decide,
    (lower_bound_descent_index (SlottedPage.mk 1 3 false [10, 20] [] [1, 2, 4]) 15
      (by decide)).1,
    (lower_bound_descent_index (SlottedPage.mk 1 3 false [10, 20] [] [1, 2, 4]) 25
      (by decide)).2.2.2 (fun i hi => by
        have h2 : i + 1 < 3 := hi
        have h01 : i = 0 ∨ i = 1 := by omega
        rcases h01 with h | h <;> subst h <;> decide)⟩

/-- C28, counterexample: the inner node with two children and the single separator
`keys[0] = 10`, searched for the key 10.  The first separator that is not less than 10
is `keys[0]`, at index 0; `InnerNode::lower_bound(10).first` is 1. -/
theorem lower_bound_equal_key :
    SlottedPage.count (SlottedPage.mk 1 2 false [10] [] [1, 2]) = 2 ∧
    ¬ (rd 0 (SlottedPage.keys (SlottedPage.mk 1 2 false [10] [] [1, 2])) 0 < 10) ∧
    (InnerNode.lower_bound (SlottedPage.mk 1 2 false [10] [] [1, 2]) 10).1 = 1 := by
  decide

/-- C28, as the code has it: on an inner node with `c ≥ 1` children and ascending
separators `keys[0 .. c-2]`, `InnerNode::lower_bound(key).first` is the index of the
first separator that is greater than the key (a separator is greater than the key
exactly from that index on), and `c - 1` when no separator is greater. -/
theorem lower_bound_first_greater (n : SlottedPage) (key : Nat) (hc : 1 ≤ n.count)
    (hs : ∀ i j, i < j → j + 1 < n.count → rd 0 n.keys i < rd 0 n.keys j) :
    (InnerNode.lower_bound n key).1 < n.count ∧
    (∀ i, i + 1 < n.count →
      (key < rd 0 n.keys i ↔ (InnerNode.lower_bound n key).1 ≤ i)) ∧
    ((∀ i, i + 1 < n.count → ¬ key < rd 0 n.keys i) →
      (InnerNode.lower_bound n key).1 = n.count - 1) := by
  obtain ⟨l1, l2, l3⟩ := lower_bound_spec n key
  have hlt := l1 (by omega)
  refine ⟨hlt, ?_, ?_⟩
  · intro i hi
    constructor
    · intro hk
      by_contra hne
      have := l2 i (by omega)
      omega
    · intro hle
      have h1 := l3 (by omega)
      rcases Nat.eq_or_lt_of_le hle with he | hl
      · rw [← he]; exact h1
      · have := hs _ _ hl hi
        omega
  · intro hall
    by_contra hne
    have h1 : (InnerNode.lower_bound n key).1 + 1 < n.count := by omega
    exact hall _ h1 (l3 h1)

theorem lower_bound_first_greater_witness :
    1 ≤ (SlottedPage.mk 1 3 false [10, 20] [] [1, 2, 4]).count ∧
    (∀ i j, i < j → j + 1 < (SlottedPage.mk 1 3 false [10, 20] [] [1, 2, 4]).count →
      rd 0 (SlottedPage.mk 1 3 false [10, 20] [] [1, 2, 4]).keys i <
        rd 0 (SlottedPage.mk 1 3 false [10, 20] [] [1, 2, 4]).keys j) ∧
    (InnerNode.lower_bound (SlottedPage.mk 1 3 false [10, 20] [] [1, 2, 4]) 10).1 = 1 ∧
    ((10 < rd 0 (SlottedPage.mk 1 3 false [10, 20] [] [1, 2, 4]).keys 1) ↔
      (InnerNode.lower_bound (SlottedPage.mk 1 3 false [10, 20] [] [1, 2, 4]) 10).1 ≤ 1) := by
  have hs : ∀ i j, i < j → j + 1 < (SlottedPage.mk 1 3 false [10, 20] [] [1, 2, 4]).count →
      rd 0 (SlottedPage.mk 1 3 false [10, 20] [] [1, 2, 4]).keys i <
        rd 0 (SlottedPage.mk 1 3 false [10, 20] [] [1, 2, 4]).keys j := by
    intro i j hij hj
    have hj1 : j = 1 := by simp only [] at hj; omega
    have hi0 : i = 0 := by omega
    subst hj1 hi0
    decide
  exact ⟨by decide, hs, by decide,
    (lower_bound_first_greater (SlottedPage.mk 1 3 false [10, 20] [] [1, 2, 4]) 10
      (by decide) hs).2.1 1 (by decide)⟩

/-- C30: on a reachable tree whose root `r` is an inner node with fewer than `kCapacity`
children, an `insert` whose descent reaches a full leaf, child number `c` of the root,
returns; the root page and the root id stay, `next_page_id` grows by one, and the root
node afterwards has `count` increased by one, `keys[c]` equal to the separator (the
first key of the new leaf, above every key left in the split leaf), `children[c+1]`
equal to the id of the new leaf, `children[0 .. c]` and `keys[0 .. c-1]` as before, and
the former `children[c+1 ..]` and `keys[c ..]` one slot further right in the same
order. -/
theorem parent_update_on_leaf_split (t : BTree) (key value fuel r : Nat) (h : Reachable t)
    (hr : t.root = some r) (hlev : (t.node r).level ≠ 0)
    (hfull : (t.node (rd 0 (t.node r).children
      (InnerNode.lower_bound (t.node r) key).1)).count = kCapacity)
    (hrc : (t.node r).count < kCapacity) :
    ∃ t' sep, BTree.insert (fuel + 2) t key value = .ok t' ∧
      t'.root = some r ∧ t'.next_page_id = t.next_page_id + 1 ∧
      (t'.node r).count = (t.node r).count + 1 ∧
      rd 0 (t'.node r).keys (InnerNode.lower_bound (t.node r) key).1 = sep ∧
      sep = rd 0 (t'.node t.next_page_id).keys 0 ∧
      (∀ k v, StoredIn (t'.node (rd 0 (t.node r).children
        (InnerNode.lower_bound (t.node r) key).1)) k v → k < sep) ∧
      (∀ k v, StoredIn (t'.node t.next_page_id) k v → sep ≤ k) ∧
      rd 0 (t'.node r).children ((InnerNode.lower_bound (t.node r) key).1 + 1) =
        t.next_page_id ∧
      (∀ i, i ≤ (InnerNode.lower_bound (t.node r) key).1 →
        rd 0 (t'.node r).children i = rd 0 (t.node r).children i) ∧
      (∀ i, i < (InnerNode.lower_bound (t.node r) key).1 →
        rd 0 (t'.node r).keys i = rd 0 (t.node r).keys i) ∧
      (∀ i, (InnerNode.lower_bound (t.node r) key).1 < i → i < (t.node r).count →
        rd 0 (t'.node r).children (i + 1) = rd 0 (t.node r).children i) ∧
      (∀ i, (InnerNode.lower_bound (t.node r) key).1 ≤ i → i + 1 < (t.node r).count →
        rd 0 (t'.node r).keys (i + 1) = rd 0 (t.node r).keys i) := by
  have hinv := treeInv_of_reachable t h
  unfold BTree.node at hlev hfull hrc
  have hin := innerRoot_of_treeInv t r hinv hr hlev
  obtain ⟨bm', sep, L, R, P, e1, _, _, e4, _, e6, _, e8, e9, e10, _, _, _, _, _, e16, e17, e18⟩ :=
    insert_inner_split t key value fuel r _ _ hinv hr hin rfl rfl hfull hrc
  obtain ⟨b1, b2, b3⟩ := innerRoot_bounds hin
  obtain ⟨l1, _, _⟩ := innerRoot_descent _ r _ key hin
  have hch := hin.2.2.2.2.2.2.1 _ l1
  have hrn : r < t.next_page_id := hin.2.2.2.2.2.1
  have hcn1 := hch.2.1
  have hcr : bm'.content r = P := by rw [e4 r (by omega), if_pos rfl]
  have hcl : bm'.content (rd 0 (t.buffer_manager.content r).children
      (InnerNode.lower_bound (t.buffer_manager.content r) key).1) = L := by
    rw [e4 _ (by omega), if_neg hch.2.2.1, if_pos rfl]
  have hcn : bm'.content t.next_page_id = R := by
    rw [e4 _ (by omega), if_neg (by omega), if_neg (by omega), if_pos rfl]
  refine ⟨_, sep, e1, hr, rfl, ?_⟩
  simp only [BTree.node]
  rw [hcr, hcl, hcn]
  refine ⟨e16, ?_, (first_key_of_leaf R sep e6.2.2 e10 e9).symm, e8, e9, ?_, ?_, ?_, ?_, ?_⟩
  · rw [e18, if_pos rfl]
  · rw [e17, if_pos rfl]
  · intro i hi
    rw [e17, if_neg (by omega), if_neg (by omega)]
  · intro i hi
    rw [e18, if_neg (by omega), if_neg (by omega)]
  · intro i hi1 hi2
    rw [e17, if_neg (by omega), if_pos (by omega), Nat.add_sub_cancel]
  · intro i hi1 hi2
    rw [e18, if_neg (by omega), if_pos (by omega), Nat.add_sub_cancel]

set_option maxRecDepth 1000000 in
theorem parent_update_on_leaf_split_witness :
    Reachable (treeOf (ascending 63 0)) ∧ (treeOf (ascending 63 0)).root = some 3 ∧
    ((treeOf (ascending 63 0)).node 3).level ≠ 0 ∧
    (InnerNode.lower_bound ((treeOf (ascending 63 0)).node 3) 63).1 = 1 ∧
    rd 0 ((treeOf (ascending 63 0)).node 3).children 1 = 2 ∧
    ((treeOf (ascending 63 0)).node 2).count = kCapacity ∧
    ((treeOf (ascending 63 0)).node 3).count = 2 ∧
    (treeOf (ascending 63 0)).next_page_id = 4 ∧
    ∃ t', BTree.insert 2 (treeOf (ascending 63 0)) 63 126 = .ok t' ∧
      t'.root = some 3 ∧ t'.next_page_id = 5 ∧ (t'.node 3).count = 3 ∧
      rd 0 (t'.node 3).keys 1 = rd 0 (t'.node 4).keys 0 ∧
      rd 0 (t'.node 3).children 2 = 4 :=
  have hroot : (treeOf (ascending 63 0)).root = some 3 := rfl
  have hlev : ((treeOf (ascending 63 0)).node 3).level ≠ 0 := by decide
  have hpos : (InnerNode.lower_bound ((treeOf (ascending 63 0)).node 3) 63).1 = 1 := rfl
  have hcid : rd 0 ((treeOf (ascending 63 0)).node 3).children 1 = 2 := rfl
  have hfull : ((treeOf (ascending 63 0)).node 2).count = kCapacity := rfl
  have hcount : ((treeOf (ascending 63 0)).node 3).count = 2 := rfl
  have hnext : (treeOf (ascending 63 0)).next_page_id = 4 := rfl
  by
    obtain ⟨t', sep, e1, e2, e3, e4, e5, e6, _, _, e9, _⟩ :=
      parent_update_on_leaf_split (treeOf (ascending 63 0)) 63 126 0 3 (reachable_treeOf _)
        hroot hlev (by rw [hpos, hcid]; exact hfull) (by rw [hcount]; decide)
    rw [hpos] at e5 e9
    rw [hnext] at e3 e6 e9
    rw [hcount] at e4
    exact ⟨reachable_treeOf _, hroot, hlev, hpos, hcid, hfull, hcount, hnext,
      t', e1, e2, e3, e4, by rw [e5, e6], e9⟩

set_option maxRecDepth 1000000 in
/-- C31 fails on the code.  `insertIntoParent` with a path of length 1 sets
`new_root->level = 1` and `new_root->count = 1`.  On the tree of the inserts
`insert(i, 2 i)`, `i = 0 .. 42`, whose root is the inner node of page 3 (level 1), the
call `insertIntoParent({3}, 100, 7)` makes page 4 the root with `children = [3, 7]` and
`keys = [100]`, but at level 1, not 2, and with count 1, not 2; `lower_bound` on that
root then yields index 0 for every key.  On the tree of the inserts `i = 0 .. 41`, whose
root is the leaf of page 1, the new root has level 1 and again count 1. -/
theorem insertIntoParent_root_count :
    ((treeOf (ascending 43 0)).root = some 3 ∧ ((treeOf (ascending 43 0)).node 3).level = 1 ∧
      ∃ t', BTree.insertIntoParent (treeOf (ascending 43 0)) [3] 100 7 = .ok t' ∧
        t'.root = some 4 ∧ rd 0 (t'.node 4).children 0 = 3 ∧
        rd 0 (t'.node 4).children 1 = 7 ∧ rd 0 (t'.node 4).keys 0 = 100 ∧
        (t'.node 4).level = 1 ∧ (t'.node 4).count = 1 ∧
        ∀ key, (InnerNode.lower_bound (t'.node 4) key).1 = 0) ∧
    ((treeOf (ascending 42 0)).root = some 1 ∧ ((treeOf (ascending 42 0)).node 1).level = 0 ∧
      ∃ t', BTree.insertIntoParent (treeOf (ascending 42 0)) [1] 21 7 = .ok t' ∧
        t'.root = some 2 ∧ (t'.node 2).level = 1 ∧ (t'.node 2).count = 1) :=
  have hnA : (treeOf (ascending 43 0)).next_page_id = 4 := rfl
  have hnB : (treeOf (ascending 42 0)).next_page_id = 2 := rfl
  by
    obtain ⟨tA, a1, a2, _, a4, a5, a6, a7, a8, _⟩ :=
      insertIntoParent_root_spec (treeOf (ascending 43 0)) 3 3 100 7
        (treeInv_of_reachable _ (reachable_treeOf _)) rfl (by rw [hnA]; decide)
    obtain ⟨tB, b1, b2, _, b4, b5, _⟩ :=
      insertIntoParent_root_spec (treeOf (ascending 42 0)) 1 1 21 7
        (treeInv_of_reachable _ (reachable_treeOf _)) rfl (by rw [hnB]; decide)
    rw [hnA] at a2 a4 a5 a6 a7 a8
    rw [hnB] at b2 b4 b5
    refine ⟨⟨rfl, rfl, tA, a1, a2, a6, a7, a8, a4, a5, fun key => ?_⟩,
      ⟨rfl, rfl, tB, b1, b2, b4, b5⟩⟩
    have := (lower_bound_spec (tA.node 4) key).1 (by rw [a5]; decide)
    rw [a5] at this
    omega

/-- C32 fails on the code: after `BufferManager buffer_manager;` (truncate mode), and
after `BTree tree(buffer_manager);` as well, the store holds 1001 pages, one more than
`MAX_PAGES` (1000): `getNumPages()` is 1001 and the file is 1001 zero pages. -/
theorem new_store_has_1001_pages (old : List SlottedPage) :
    MAX_PAGES = 1000 ∧
    (BufferManager.new true old).getNumPages = 1001 ∧
    (BufferManager.new true old).storage_manager.file = List.replicate 1001 SlottedPage.zero ∧
    (BTree.new (BufferManager.new true old)).buffer_manager.getNumPages = 1001 ∧
    (BTree.new (BufferManager.new true old)).buffer_manager.storage_manager.file =
      List.replicate 1001 SlottedPage.zero := by
  have h := storage_view _ _ (bufferManager_new_truncate old)
  have hb := new_on_full_store _ h.1
  exact ⟨rfl, h.1, h.2, hb.symm ▸ h.1, hb.symm ▸ h.2⟩

set_option maxRecDepth 1000000 in
/-- C34, counterexample: the pool of `BufferManager buffer_manager;` holds the pages 0 to
1000 in its store and none in memory; `fix_page(1001)` finds no page 1001 to load and
ends the process in `load` (`exit(-1)`) instead of returning a page. -/
theorem fix_page_outside_store :
    (BufferManager.new true []).Reach ∧
    (BufferManager.new true []).storage_manager.file.length = 1001 ∧
    (BufferManager.new true []).pageMap = [] ∧
    (BufferManager.new true []).fix_page 1001 = .error .ioError :=
  ⟨BufferManager.Reach.new true [], rfl, rfl, rfl⟩

/-- C34, as the code has it.  With the logical content of page `q` being its in-memory
copy when `q` is in the resident map and the page of the store otherwise
(`BufferManager.content`): in every reachable state of the pool, whenever `fix_page(p)`
returns it returns the logical content of `p` and leaves the logical content of every
page `q` unchanged; it does return when the store holds a page `p`; and a sequence of
`fix_page` calls on pages of the store, with changes made in place, returns the pages and
leaves the contents that the same accesses to a plain array of pages give.  For a page id
the store does not hold, `fix_page` does not return: `load` ends the process. -/
theorem pool_is_transparent (bm : BufferManager) (h : bm.Reach) :
    (∀ p page bm', bm.fix_page p = .ok (page, bm') →
      page = bm.content p ∧ ∀ q, bm'.content q = bm.content q) ∧
    (∀ p, pageKey p < bm.storage_manager.file.length →
      ∃ bm', bm.fix_page p = .ok (bm.content p, bm') ∧ bm'.Reach ∧
        ∀ q, bm'.content q = bm.content q) ∧
    (∀ accesses : List (Nat × Option (SlottedPage → SlottedPage)),
      (∀ a, a ∈ accesses → pageKey a.1 < bm.storage_manager.file.length) →
      ∃ bm', BufferManager.accessAll accesses bm =
          .ok ((PlainPages.accessAll accesses bm.content).1, bm') ∧
        bm'.content = (PlainPages.accessAll accesses bm.content).2) ∧
    (∀ p, bm.storage_manager.file.length ≤ pageKey p →
      bm.fix_page p = .error .ioError) := by
  have hp := policyOK_of_reach bm h
  refine ⟨?_, ?_, ?_, fun p hout => fix_page_beyond_store bm h p hout⟩
  · intro p page bm' hok
    obtain ⟨e1, _, e3, _⟩ := fix_page_any bm bm' p page hp hok
    exact ⟨e1, e3⟩
  · intro p hl
    obtain ⟨bm', e1, _, e3, _⟩ := fix_page_spec bm p hp hl
    exact ⟨bm', e1, BufferManager.Reach.fix_page bm bm' p _ h e1, e3⟩
  · intro accesses hl
    obtain ⟨bm', e1, e2, _⟩ := accessAll_spec accesses bm hp hl
    exact ⟨bm', e1, e2⟩

set_option maxRecDepth 1000000 in
theorem pool_is_transparent_witness :
    (BufferManager.new true []).Reach ∧
    pageKey 5 < (BufferManager.new true []).storage_manager.file.length ∧
    (∃ bm', (BufferManager.new true []).fix_page 5 =
        .ok ((BufferManager.new true []).content 5, bm') ∧
      ∀ q, bm'.content q = (BufferManager.new true []).content q) ∧
    (∃ bm', BufferManager.accessAll
        [(5, some (fun page => { page with count := 7 })), (6, none), (5, none)]
        (BufferManager.new true []) =
      .ok ([SlottedPage.zero, SlottedPage.zero, { SlottedPage.zero with count := 7 }], bm')) ∧
    (BufferManager.new true []).fix_page 2000 = .error .ioError :=
  have hlen : (BufferManager.new true []).storage_manager.file.length = 1001 := rfl
  have h5 : pageKey 5 < (BufferManager.new true []).storage_manager.file.length := by
    rw [hlen]; decide
  by
    obtain ⟨_, w2, w3, w4⟩ := pool_is_transparent (BufferManager.new true [])
      (BufferManager.Reach.new true [])
    obtain ⟨bm1, a1, _, a3⟩ := w2 5 h5
    obtain ⟨bm2, b1, _⟩ := w3
      [(5, some (fun page => { page with count := 7 })), (6, none), (5, none)]
      (fun a ha => by
        rw [hlen]
        simp only [List.mem_cons, List.mem_singleton, List.not_mem_nil, or_false] at ha
        rcases ha with rfl | rfl | rfl <;> decide)
    exact ⟨BufferManager.Reach.new true [], h5, ⟨bm1, a1, a3⟩, ⟨bm2, b1⟩,
      w4 2000 (by rw [hlen]; decide)⟩

end BuzzDB
